import Mathlib

/-!
# Verification of the `adtlib` graph core

A shallow embedding of `adtlib`'s graph data structure and its traversal /
shortest-path algorithms (`src/adtlib/graph.py`, `src/adtlib/node.py`,
`src/adtlib/queue.py`, `src/adtlib/stack.py`,
`src/adtlib/algorithms/traversal.py`), together with proofs of the
specified properties.

Modelling conventions:
* `GraphNode` objects are identified by their object identity; we model
  identities as natural numbers.  A node's `_value` field is given by an
  ambient valuation `V : Nat → α` (values are never mutated by the
  operations under study).
* Python `float` edge weights are modelled as exact rationals `ℚ`;
  `float('inf')` becomes `⊤` in `WithTop ℚ`.
* Python dictionaries whose iteration order is never observed by the
  verified operations (`_node_map`, `_weights`, `distances`, `previous`)
  are modelled as functions into `Option`; the `_nodes` list and the
  `_neighbours` lists, whose order is observed, are modelled as lists.
* A raising Python method is modelled as a function returning the state
  at the moment control leaves the method, together with an optional
  error: `Graph α → Graph α × Option Err`.  The two distinct
  `ValueError` messages of the source are modelled as distinct error
  kinds (`notInGraph` for "... not part of the graph", `selfLoop` for
  "A node cannot be its own neighbour").
* The unbounded `while` loops of `bfs`, `dfs` and `dijkstra` are modelled
  with an explicit fuel parameter; termination claims become the
  existence of a fuel bound past which the loop has drained its frontier
  and the result is stable.
-/

set_option linter.unusedSectionVars false
set_option linter.unnecessarySeqFocus false

namespace Adtlib

/-- The error kinds raised by the graph core.  `notInGraph` stands for the
`ValueError`s "Both nodes must be part of the graph" / "Start node is not
part of the graph"; `selfLoop` stands for the `ValueError`
"A node cannot be its own neighbour" raised by `GraphNode.add_neighbour`. -/
inductive Err where
  | notInGraph
  | selfLoop
deriving DecidableEq

/-- The state of a `Graph` object together with the adjacency fields of all
`GraphNode` objects (`graph.py`, `node.py`).

* `nodes` models `Graph._nodes` (a Python list of node objects, here ids);
* `nodeMap` models `Graph._node_map` (value → node dictionary);
* `weights` models `Graph._weights` ((node, node) → float dictionary);
* `adj` models the `GraphNode._neighbours` field of every node object
  (`none`/empty and `[]` are not distinguished: only the list returned by
  the `neighbours` property, which is `[]` for `None`, is observable here);
* `directed` models `Graph._directed`. -/
structure Graph (α : Type) where
  nodes : List Nat
  nodeMap : α → Option Nat
  weights : Nat × Nat → Option ℚ
  adj : Nat → List Nat
  directed : Bool

variable {α : Type} [DecidableEq α]

/-- `GraphNode.add_neighbour` (`node.py` lines 127-142), called as
`a.add_neighbour(b)`: raises on a self loop, otherwise appends `b` to
`a`'s neighbour list unless already present. -/
def addNeighbour (g : Graph α) (a b : Nat) : Graph α × Option Err :=
  if b = a then (g, some .selfLoop)
  else
    ({ g with
        adj := fun m =>
          if m = a then (if b ∈ g.adj a then g.adj a else g.adj a ++ [b])
          else g.adj m },
      none)

/-- `GraphNode.remove_neighbour` (`node.py` lines 144-155), called as
`a.remove_neighbour(b)`: removes the first occurrence of `b` from `a`'s
neighbour list, a no-op when absent. -/
def removeNeighbour (g : Graph α) (a b : Nat) : Graph α :=
  { g with adj := fun m => if m = a then (g.adj a).erase b else g.adj m }

/-- `Graph.add_node` (`graph.py` lines 81-91): a silent no-op when the
node's value is already a key of `_node_map`; otherwise appends the node
and indexes it. -/
def addNode (V : Nat → α) (g : Graph α) (n : Nat) : Graph α :=
  if (g.nodeMap (V n)).isSome then g
  else
    { g with
        nodes := g.nodes ++ [n],
        nodeMap := fun x => if x = V n then some n else g.nodeMap x }

/-- `Graph.get_node` (`graph.py` lines 93-94). -/
def getNode (g : Graph α) (v : α) : Option Nat := g.nodeMap v

/-- `Graph.remove_node` (`graph.py` lines 96-108): strips `n` from the
neighbour list of every node currently in `_nodes`, removes `n` from
`_nodes` (first occurrence, identity comparison) and deletes the key
`V n` from `_node_map`.  The `_weights` dictionary is not touched by the
source. -/
def removeNode (V : Nat → α) (g : Graph α) (n : Nat) : Graph α :=
  { g with
      adj := fun m => if m ∈ g.nodes then (g.adj m).filter (fun x => x ≠ n) else g.adj m,
      nodes := g.nodes.erase n,
      nodeMap := fun x => if x = V n then none else g.nodeMap x }

/-- `Graph.set_edge_weight` (`graph.py` lines 152-169): after the
membership check it records the weight for `(a, b)` and, when the graph
is undirected, also for `(b, a)`.  It does not modify any neighbour
list. -/
def setEdgeWeight (g : Graph α) (a b : Nat) (w : ℚ) : Graph α × Option Err :=
  if a ∈ g.nodes ∧ b ∈ g.nodes then
    let w1 : Nat × Nat → Option ℚ := fun p => if p = (a, b) then some w else g.weights p
    let w2 : Nat × Nat → Option ℚ :=
      if g.directed then w1 else fun p => if p = (b, a) then some w else w1 p
    ({ g with weights := w2 }, none)
  else (g, some .notInGraph)

/-- `Graph.add_edge` (`graph.py` lines 110-130): membership check, then
`a.add_neighbour(b)`, then (undirected) `b.add_neighbour(a)`, then an
optional `set_edge_weight`.  An error aborts the method with the state
reached so far. -/
def addEdge (g : Graph α) (a b : Nat) (wopt : Option ℚ) : Graph α × Option Err :=
  if a ∈ g.nodes ∧ b ∈ g.nodes then
    let r1 := addNeighbour g a b
    if r1.2.isSome then r1
    else
      let r2 := if g.directed then (r1.1, none) else addNeighbour r1.1 b a
      if r2.2.isSome then r2
      else
        match wopt with
        | none => (r2.1, none)
        | some w => setEdgeWeight r2.1 a b w
  else (g, some .notInGraph)

/-- `Graph.remove_edge` (`graph.py` lines 132-150): membership check,
then removal of the `a → b` adjacency and of the `(a, b)` weight entry
and, when undirected, of the mirrored adjacency and weight entry. -/
def removeEdge (g : Graph α) (a b : Nat) : Graph α × Option Err :=
  if a ∈ g.nodes ∧ b ∈ g.nodes then
    let g1 := removeNeighbour g a b
    let g2 := { g1 with weights := fun p => if p = (a, b) then none else g1.weights p }
    if g.directed then (g2, none)
    else
      let g3 := removeNeighbour g2 b a
      ({ g3 with weights := fun p => if p = (b, a) then none else g3.weights p }, none)
  else (g, some .notInGraph)

/-- `Graph.get_edge_weight` (`graph.py` lines 171-186): membership check,
then a plain dictionary lookup (`None` when the edge carries no
weight). -/
def getEdgeWeight (g : Graph α) (a b : Nat) : Except Err (Option ℚ) :=
  if a ∈ g.nodes ∧ b ∈ g.nodes then .ok (g.weights (a, b)) else .error .notInGraph

/-- A graph with no nodes, edges or weights, as produced by `Graph()`. -/
def emptyGraph (α : Type) (directed : Bool) : Graph α :=
  ⟨[], fun _ => none, fun _ => none, fun _ => [], directed⟩

/-! ## Structural invariants -/

/-- The keys of `_node_map` are in bijection with the live nodes of
`_nodes` (each key maps to a registered node carrying that key as its
value, and each registered node is indexed under its own value). -/
structure Bij (V : Nat → α) (g : Graph α) : Prop where
  nodup : g.nodes.Nodup
  map_mem : ∀ a n, g.nodeMap a = some n → n ∈ g.nodes ∧ V n = a
  mem_map : ∀ n, n ∈ g.nodes → g.nodeMap (V n) = some n

/-- Every key of the weight table has both endpoints registered. -/
def WEnd (g : Graph α) : Prop :=
  ∀ p : Nat × Nat, (g.weights p).isSome → p.1 ∈ g.nodes ∧ p.2 ∈ g.nodes

/-- The neighbour relation restricted to registered nodes is symmetric. -/
def SymAdj (g : Graph α) : Prop :=
  ∀ a, a ∈ g.nodes → ∀ b, b ∈ g.nodes → (b ∈ g.adj a ↔ a ∈ g.adj b)

/-- The weight table is symmetric. -/
def SymW (g : Graph α) : Prop :=
  ∀ a b : Nat, g.weights (a, b) = g.weights (b, a)

/-! ## Structural lemmas about the operations -/

@[simp] theorem addNeighbour_nodes (g : Graph α) (a b : Nat) :
    (addNeighbour g a b).1.nodes = g.nodes := by
  unfold addNeighbour; split <;> rfl

@[simp] theorem addNeighbour_nodeMap (g : Graph α) (a b : Nat) :
    (addNeighbour g a b).1.nodeMap = g.nodeMap := by
  unfold addNeighbour; split <;> rfl

@[simp] theorem addNeighbour_weights (g : Graph α) (a b : Nat) :
    (addNeighbour g a b).1.weights = g.weights := by
  unfold addNeighbour; split <;> rfl

@[simp] theorem addNeighbour_directed (g : Graph α) (a b : Nat) :
    (addNeighbour g a b).1.directed = g.directed := by
  unfold addNeighbour; split <;> rfl

theorem addNeighbour_snd (g : Graph α) (a b : Nat) :
    (addNeighbour g a b).2 = if b = a then some Err.selfLoop else none := by
  unfold addNeighbour; split <;> rfl

theorem addNeighbour_err_eq (g : Graph α) (a b : Nat) (h : b = a) :
    addNeighbour g a b = (g, some Err.selfLoop) := by
  unfold addNeighbour; simp [h]

theorem mem_addNeighbour_adj (g : Graph α) (a b : Nat) (h : b ≠ a) (m x : Nat) :
    x ∈ (addNeighbour g a b).1.adj m ↔ x ∈ g.adj m ∨ (m = a ∧ x = b) := by
  unfold addNeighbour
  simp only [if_neg h]
  by_cases hm : m = a
  · subst hm
    by_cases hb : b ∈ g.adj m
    · simp only [if_pos rfl, if_pos hb]
      constructor
      · exact fun hx => Or.inl hx
      · rintro (hx | ⟨-, rfl⟩)
        · exact hx
        · exact hb
    · simp [hb]
  · simp [hm]

theorem addNeighbour_adj_nodup (g : Graph α) (a b : Nat)
    (h : ∀ m, (g.adj m).Nodup) (m : Nat) : ((addNeighbour g a b).1.adj m).Nodup := by
  unfold addNeighbour
  split
  · exact h m
  · dsimp only
    split
    · split
      · exact h a
      · simp [List.nodup_append, h a, *]
    · exact h m

@[simp] theorem removeNeighbour_nodes (g : Graph α) (a b : Nat) :
    (removeNeighbour g a b).nodes = g.nodes := rfl

@[simp] theorem removeNeighbour_nodeMap (g : Graph α) (a b : Nat) :
    (removeNeighbour g a b).nodeMap = g.nodeMap := rfl

@[simp] theorem removeNeighbour_weights (g : Graph α) (a b : Nat) :
    (removeNeighbour g a b).weights = g.weights := rfl

@[simp] theorem removeNeighbour_directed (g : Graph α) (a b : Nat) :
    (removeNeighbour g a b).directed = g.directed := rfl

theorem mem_removeNeighbour_adj (g : Graph α) (a b : Nat)
    (h : ∀ m, (g.adj m).Nodup) (m x : Nat) :
    x ∈ (removeNeighbour g a b).adj m ↔ x ∈ g.adj m ∧ ¬(m = a ∧ x = b) := by
  unfold removeNeighbour
  by_cases hm : m = a
  · subst hm
    simp [List.Nodup.mem_erase_iff (h m)]
    tauto
  · simp [hm]

theorem removeNeighbour_adj_nodup (g : Graph α) (a b : Nat)
    (h : ∀ m, (g.adj m).Nodup) (m : Nat) : ((removeNeighbour g a b).adj m).Nodup := by
  unfold removeNeighbour
  dsimp only
  split
  · exact List.Nodup.erase b (h a)
  · exact h m

@[simp] theorem setEdgeWeight_nodes (g : Graph α) (a b : Nat) (w : ℚ) :
    (setEdgeWeight g a b w).1.nodes = g.nodes := by
  unfold setEdgeWeight; split <;> rfl

@[simp] theorem setEdgeWeight_nodeMap (g : Graph α) (a b : Nat) (w : ℚ) :
    (setEdgeWeight g a b w).1.nodeMap = g.nodeMap := by
  unfold setEdgeWeight; split <;> rfl

@[simp] theorem setEdgeWeight_adj (g : Graph α) (a b : Nat) (w : ℚ) :
    (setEdgeWeight g a b w).1.adj = g.adj := by
  unfold setEdgeWeight; split <;> rfl

@[simp] theorem setEdgeWeight_directed (g : Graph α) (a b : Nat) (w : ℚ) :
    (setEdgeWeight g a b w).1.directed = g.directed := by
  unfold setEdgeWeight; split <;> rfl

theorem setEdgeWeight_ok (g : Graph α) (a b : Nat) (w : ℚ)
    (h : a ∈ g.nodes ∧ b ∈ g.nodes) :
    (setEdgeWeight g a b w).2 = none ∧
      ∀ p : Nat × Nat, (setEdgeWeight g a b w).1.weights p =
        if ¬g.directed ∧ p = (b, a) then some w
        else if p = (a, b) then some w else g.weights p := by
  unfold setEdgeWeight
  rw [if_pos h]
  refine ⟨rfl, fun p => ?_⟩
  rcases Bool.eq_false_or_eq_true g.directed with hb | hb <;>
    by_cases h1 : p = (b, a) <;> by_cases h2 : p = (a, b) <;>
      simp [hb, h1, h2]

/-- The graph produced by a successful `add_edge` call: both adjacency
insertions followed by the optional weight recording. -/
def addEdgeOk (g : Graph α) (a b : Nat) (w : Option ℚ) : Graph α :=
  let g1 := (addNeighbour g a b).1
  let g2 := if g.directed then g1 else (addNeighbour g1 b a).1
  match w with
  | none => g2
  | some w' => (setEdgeWeight g2 a b w').1

/-- Resolved control flow of `add_edge`: a membership failure or a self
loop returns the unchanged graph with an error, and otherwise the call
succeeds with `addEdgeOk`. -/
theorem addEdge_eq (g : Graph α) (a b : Nat) (w : Option ℚ) :
    addEdge g a b w =
      if a ∈ g.nodes ∧ b ∈ g.nodes then
        if b = a then (g, some Err.selfLoop) else (addEdgeOk g a b w, none)
      else (g, some Err.notInGraph) := by
  unfold addEdge addEdgeOk
  by_cases hmem : a ∈ g.nodes ∧ b ∈ g.nodes
  · rw [if_pos hmem, if_pos hmem]
    by_cases hba : b = a
    · rw [if_pos hba]
      have h1 : (addNeighbour g a b).2.isSome = true := by
        rw [addNeighbour_snd, if_pos hba]; rfl
      simp only [h1, if_true]
      rw [addNeighbour_err_eq g a b hba]
    · rw [if_neg hba]
      have h1 : (addNeighbour g a b).2.isSome = false := by
        rw [addNeighbour_snd, if_neg hba]; rfl
      have h2 : (addNeighbour (addNeighbour g a b).1 b a).2.isSome = false := by
        rw [addNeighbour_snd, if_neg (Ne.symm hba)]; rfl
      simp only [h1, Bool.false_eq_true, if_false]
      rcases Bool.eq_false_or_eq_true g.directed with hb | hb <;>
          simp only [hb, Bool.false_eq_true, if_false, if_true, h2, Option.isSome_none]
      · cases w with
        | none => rfl
        | some w' =>
          dsimp only
          have hm2 : a ∈ (addNeighbour g a b).1.nodes ∧ b ∈ (addNeighbour g a b).1.nodes := by
            simpa using hmem
          have hw := (setEdgeWeight_ok (addNeighbour g a b).1 a b w' hm2).1
          rw [show setEdgeWeight (addNeighbour g a b).1 a b w' =
              ((setEdgeWeight (addNeighbour g a b).1 a b w').1, none) from by rw [← hw]]
      · cases w with
        | none => rfl
        | some w' =>
          dsimp only
          have hm2 : a ∈ (addNeighbour (addNeighbour g a b).1 b a).1.nodes ∧
              b ∈ (addNeighbour (addNeighbour g a b).1 b a).1.nodes := by
            simpa using hmem
          have hw := (setEdgeWeight_ok (addNeighbour (addNeighbour g a b).1 b a).1 a b w' hm2).1
          rw [show setEdgeWeight (addNeighbour (addNeighbour g a b).1 b a).1 a b w' =
              ((setEdgeWeight (addNeighbour (addNeighbour g a b).1 b a).1 a b w').1, none) from
            by rw [← hw]]
  · rw [if_neg hmem, if_neg hmem]

@[simp] theorem addEdgeOk_nodes (g : Graph α) (a b : Nat) (w : Option ℚ) :
    (addEdgeOk g a b w).nodes = g.nodes := by
  unfold addEdgeOk
  rcases Bool.eq_false_or_eq_true g.directed with hb | hb <;> cases w <;> simp [hb]

@[simp] theorem addEdgeOk_nodeMap (g : Graph α) (a b : Nat) (w : Option ℚ) :
    (addEdgeOk g a b w).nodeMap = g.nodeMap := by
  unfold addEdgeOk
  rcases Bool.eq_false_or_eq_true g.directed with hb | hb <;> cases w <;> simp [hb]

@[simp] theorem addEdge_nodes (g : Graph α) (a b : Nat) (w : Option ℚ) :
    (addEdge g a b w).1.nodes = g.nodes := by
  rw [addEdge_eq]
  split
  · split
    · rfl
    · exact addEdgeOk_nodes g a b w
  · rfl

@[simp] theorem addEdge_nodeMap (g : Graph α) (a b : Nat) (w : Option ℚ) :
    (addEdge g a b w).1.nodeMap = g.nodeMap := by
  rw [addEdge_eq]
  split
  · split
    · rfl
    · exact addEdgeOk_nodeMap g a b w
  · rfl

@[simp] theorem removeEdge_nodes (g : Graph α) (a b : Nat) :
    (removeEdge g a b).1.nodes = g.nodes := by
  unfold removeEdge
  split
  · split <;> rfl
  · rfl

@[simp] theorem removeEdge_nodeMap (g : Graph α) (a b : Nat) :
    (removeEdge g a b).1.nodeMap = g.nodeMap := by
  unfold removeEdge
  split
  · split <;> rfl
  · rfl

@[simp] theorem removeNode_weights (V : Nat → α) (g : Graph α) (n : Nat) :
    (removeNode V g n).weights = g.weights := rfl

@[simp] theorem removeNode_directed (V : Nat → α) (g : Graph α) (n : Nat) :
    (removeNode V g n).directed = g.directed := rfl

@[simp] theorem addNode_weights (V : Nat → α) (g : Graph α) (n : Nat) :
    (addNode V g n).weights = g.weights := by
  unfold addNode; split <;> rfl

@[simp] theorem addNode_adj (V : Nat → α) (g : Graph α) (n : Nat) :
    (addNode V g n).adj = g.adj := by
  unfold addNode; split <;> rfl

theorem setEdgeWeight_err_eq (g : Graph α) (a b : Nat) (w : ℚ)
    (h : ¬(a ∈ g.nodes ∧ b ∈ g.nodes)) :
    setEdgeWeight g a b w = (g, some Err.notInGraph) := by
  unfold setEdgeWeight; rw [if_neg h]

theorem removeEdge_err_eq (g : Graph α) (a b : Nat)
    (h : ¬(a ∈ g.nodes ∧ b ∈ g.nodes)) :
    removeEdge g a b = (g, some Err.notInGraph) := by
  unfold removeEdge; rw [if_neg h]

theorem removeEdge_weights_eq (g : Graph α) (a b : Nat)
    (h : a ∈ g.nodes ∧ b ∈ g.nodes) (p : Nat × Nat) :
    (removeEdge g a b).1.weights p =
      if p = (a, b) ∨ (¬g.directed ∧ p = (b, a)) then none else g.weights p := by
  unfold removeEdge
  rw [if_pos h]
  rcases Bool.eq_false_or_eq_true g.directed with hb | hb <;>
    by_cases h1 : p = (a, b) <;> by_cases h2 : p = (b, a) <;>
      simp [hb, h1, h2]

theorem removeEdge_adj_eq (g : Graph α) (a b : Nat)
    (h : a ∈ g.nodes ∧ b ∈ g.nodes) :
    (removeEdge g a b).1.adj =
      if g.directed then (removeNeighbour g a b).adj
      else (removeNeighbour (removeNeighbour g a b) b a).adj := by
  unfold removeEdge
  rw [if_pos h]
  rcases Bool.eq_false_or_eq_true g.directed with hb | hb <;>
    simp only [hb, if_true, Bool.false_eq_true, if_false] <;> rfl

theorem removeEdge_mem_adj (g : Graph α) (a b : Nat)
    (h : a ∈ g.nodes ∧ b ∈ g.nodes) (hdir : g.directed = false)
    (hnd : ∀ m, (g.adj m).Nodup) (m x : Nat) :
    x ∈ (removeEdge g a b).1.adj m ↔
      x ∈ g.adj m ∧ ¬(m = a ∧ x = b) ∧ ¬(m = b ∧ x = a) := by
  rw [removeEdge_adj_eq g a b h, hdir]
  simp only [Bool.false_eq_true, if_false]
  rw [mem_removeNeighbour_adj _ b a (fun k => removeNeighbour_adj_nodup g a b hnd k) m x,
    mem_removeNeighbour_adj g a b hnd]
  tauto

theorem removeEdge_adj_nodup (g : Graph α) (a b : Nat)
    (hnd : ∀ m, (g.adj m).Nodup) (m : Nat) : ((removeEdge g a b).1.adj m).Nodup := by
  by_cases h : a ∈ g.nodes ∧ b ∈ g.nodes
  · rw [removeEdge_adj_eq g a b h]
    rcases Bool.eq_false_or_eq_true g.directed with hb | hb <;>
      simp only [hb, if_true, Bool.false_eq_true, if_false]
    · exact removeNeighbour_adj_nodup g a b hnd m
    · exact removeNeighbour_adj_nodup _ b a
        (fun k => removeNeighbour_adj_nodup g a b hnd k) m
  · rw [removeEdge_err_eq g a b h]; exact hnd m

theorem addEdgeOk_adj_nodup (g : Graph α) (a b : Nat) (w : Option ℚ)
    (hnd : ∀ m, (g.adj m).Nodup) (m : Nat) : ((addEdgeOk g a b w).adj m).Nodup := by
  unfold addEdgeOk
  have h2 : ∀ k, ((if g.directed then (addNeighbour g a b).1
      else (addNeighbour (addNeighbour g a b).1 b a).1).adj k).Nodup := by
    intro k
    rcases Bool.eq_false_or_eq_true g.directed with hb | hb <;> rw [hb]
    · simp only [if_true]
      exact addNeighbour_adj_nodup g a b hnd k
    · simp only [Bool.false_eq_true, if_false]
      exact addNeighbour_adj_nodup _ b a (fun j => addNeighbour_adj_nodup g a b hnd j) k
  cases w with
  | none => exact h2 m
  | some w' => simpa using h2 m

theorem addEdgeOk_mem_adj (g : Graph α) (a b : Nat) (w : Option ℚ)
    (hba : b ≠ a) (hdir : g.directed = false) (m x : Nat) :
    x ∈ (addEdgeOk g a b w).adj m ↔
      x ∈ g.adj m ∨ (m = a ∧ x = b) ∨ (m = b ∧ x = a) := by
  unfold addEdgeOk
  rw [hdir]
  have key : ∀ k y, y ∈ (addNeighbour (addNeighbour g a b).1 b a).1.adj k ↔
      (y ∈ g.adj k ∨ (k = a ∧ y = b)) ∨ (k = b ∧ y = a) := by
    intro k y
    rw [mem_addNeighbour_adj _ b a (Ne.symm hba), mem_addNeighbour_adj g a b hba]
  cases w with
  | none => simp only [Bool.false_eq_true, if_false]; rw [key]; tauto
  | some w' =>
    simp only [Bool.false_eq_true, if_false, setEdgeWeight_adj]
    rw [key]; tauto

/-! ## Preservation of the bijection and weight-endpoint invariants -/

theorem bij_of_eq {V : Nat → α} {g g' : Graph α}
    (hn : g'.nodes = g.nodes) (hm : g'.nodeMap = g.nodeMap) (h : Bij V g) : Bij V g' := by
  refine ⟨?_, ?_, ?_⟩
  · rw [hn]; exact h.nodup
  · intro a n hmap
    rw [hm] at hmap
    rw [hn]
    exact h.map_mem a n hmap
  · intro n hmem
    rw [hn] at hmem
    rw [hm]
    exact h.mem_map n hmem

theorem wend_of_eq {g g' : Graph α}
    (hn : g'.nodes = g.nodes) (hw : g'.weights = g.weights) (h : WEnd g) : WEnd g' := by
  intro p hp
  rw [hw] at hp
  rw [hn]
  exact h p hp

theorem addNode_bij (V : Nat → α) (g : Graph α) (n : Nat) (h : Bij V g) :
    Bij V (addNode V g n) := by
  unfold addNode
  by_cases hs : (g.nodeMap (V n)).isSome
  · rw [if_pos hs]; exact h
  · rw [if_neg hs]
    have hnot : n ∉ g.nodes := by
      intro hmem
      rw [h.mem_map n hmem] at hs
      exact hs rfl
    refine ⟨?_, ?_, ?_⟩
    · simpa [List.nodup_append] using ⟨h.nodup, hnot⟩
    · intro a m hmap
      dsimp at hmap
      by_cases ha : a = V n
      · rw [if_pos ha] at hmap
        cases hmap
        simp [ha]
      · rw [if_neg ha] at hmap
        have := h.map_mem a m hmap
        exact ⟨by simp [this.1], this.2⟩
    · intro m hmem
      dsimp
      rcases List.mem_append.mp hmem with hm | hm
      · have hne : V m ≠ V n := by
          intro he
          rw [← he] at hs
          rw [h.mem_map m hm] at hs
          exact hs rfl
        rw [if_neg hne]
        exact h.mem_map m hm
      · have : m = n := by simpa using hm
        subst this
        rw [if_pos rfl]

theorem removeNode_bij (V : Nat → α) (g : Graph α) (n : Nat)
    (hn : n ∈ g.nodes) (h : Bij V g) : Bij V (removeNode V g n) := by
  unfold removeNode
  refine ⟨?_, ?_, ?_⟩
  · exact List.Nodup.erase n h.nodup
  · intro a m hmap
    dsimp at hmap ⊢
    by_cases ha : a = V n
    · rw [if_pos ha] at hmap; cases hmap
    · rw [if_neg ha] at hmap
      obtain ⟨hm, hv⟩ := h.map_mem a m hmap
      have hmn : m ≠ n := by
        intro he
        subst he
        exact ha hv.symm
      exact ⟨(List.mem_erase_of_ne hmn).mpr hm, hv⟩
  · intro m hmem
    dsimp at hmem ⊢
    have hmn : m ≠ n := ((List.Nodup.mem_erase_iff h.nodup).mp hmem).1
    have hm : m ∈ g.nodes := List.mem_of_mem_erase hmem
    have hne : V m ≠ V n := by
      intro he
      have h1 := h.mem_map m hm
      have h2 := h.mem_map n hn
      rw [he, h2] at h1
      exact hmn (Option.some.inj h1).symm
    rw [if_neg hne]
    exact h.mem_map m hm

theorem addNode_wend (V : Nat → α) (g : Graph α) (n : Nat) (h : WEnd g) :
    WEnd (addNode V g n) := by
  unfold addNode
  by_cases hs : (g.nodeMap (V n)).isSome
  · rw [if_pos hs]; exact h
  · rw [if_neg hs]
    intro p hp
    have := h p hp
    constructor <;> simp [this.1, this.2]

theorem setEdgeWeight_wend (g : Graph α) (a b : Nat) (w : ℚ) (h : WEnd g) :
    WEnd (setEdgeWeight g a b w).1 := by
  by_cases hmem : a ∈ g.nodes ∧ b ∈ g.nodes
  · intro p hp
    rw [(setEdgeWeight_ok g a b w hmem).2 p] at hp
    rw [setEdgeWeight_nodes]
    by_cases h1 : ¬g.directed ∧ p = (b, a)
    · rw [h1.2]; exact ⟨hmem.2, hmem.1⟩
    · rw [if_neg h1] at hp
      by_cases h2 : p = (a, b)
      · rw [h2]; exact hmem
      · rw [if_neg h2] at hp
        exact h p hp
  · rw [setEdgeWeight_err_eq g a b w hmem]
    exact h

theorem removeEdge_wend (g : Graph α) (a b : Nat) (h : WEnd g) :
    WEnd (removeEdge g a b).1 := by
  by_cases hmem : a ∈ g.nodes ∧ b ∈ g.nodes
  · intro p hp
    rw [removeEdge_weights_eq g a b hmem p] at hp
    rw [removeEdge_nodes]
    by_cases h1 : p = (a, b) ∨ (¬g.directed ∧ p = (b, a))
    · rw [if_pos h1] at hp; cases hp
    · rw [if_neg h1] at hp
      exact h p hp
  · rw [removeEdge_err_eq g a b hmem]
    exact h

theorem addEdgeOk_wend (g : Graph α) (a b : Nat) (w : Option ℚ) (h : WEnd g) :
    WEnd (addEdgeOk g a b w) := by
  unfold addEdgeOk
  have h2 : WEnd (if g.directed then (addNeighbour g a b).1
      else (addNeighbour (addNeighbour g a b).1 b a).1) := by
    rcases Bool.eq_false_or_eq_true g.directed with hb | hb <;> rw [hb]
    · simp only [if_true]
      exact wend_of_eq (addNeighbour_nodes g a b) (addNeighbour_weights g a b) h
    · simp only [Bool.false_eq_true, if_false]
      exact wend_of_eq (by simp) (by simp) h
  cases w with
  | none => exact h2
  | some w' => exact setEdgeWeight_wend _ a b w' h2

theorem addEdge_bij (V : Nat → α) (g : Graph α) (a b : Nat) (w : Option ℚ)
    (h : Bij V g) : Bij V (addEdge g a b w).1 :=
  bij_of_eq (addEdge_nodes g a b w) (addEdge_nodeMap g a b w) h

theorem addEdge_wend (g : Graph α) (a b : Nat) (w : Option ℚ) (h : WEnd g) :
    WEnd (addEdge g a b w).1 := by
  rw [addEdge_eq]
  by_cases hmem : a ∈ g.nodes ∧ b ∈ g.nodes
  · rw [if_pos hmem]
    by_cases hba : b = a
    · rw [if_pos hba]; exact h
    · rw [if_neg hba]
      exact addEdgeOk_wend g a b w h
  · rw [if_neg hmem]; exact h

theorem removeEdge_bij (V : Nat → α) (g : Graph α) (a b : Nat)
    (h : Bij V g) : Bij V (removeEdge g a b).1 :=
  bij_of_eq (removeEdge_nodes g a b) (removeEdge_nodeMap g a b) h

theorem setEdgeWeight_bij (V : Nat → α) (g : Graph α) (a b : Nat) (w : ℚ)
    (h : Bij V g) : Bij V (setEdgeWeight g a b w).1 :=
  bij_of_eq (setEdgeWeight_nodes g a b w) (setEdgeWeight_nodeMap g a b w) h

/-! ## Symmetry invariants of undirected graphs -/

/-- The well-formedness facts needed to propagate symmetry through an
undirected mutation sequence: duplicate-free node list and neighbour
lists, symmetric adjacency, symmetric weight table. -/
structure UndirectedInv (g : Graph α) : Prop where
  ndNodes : g.nodes.Nodup
  ndAdj : ∀ m, (g.adj m).Nodup
  symA : SymAdj g
  symW : SymW g

theorem undirectedInv_empty (α : Type) [DecidableEq α] :
    UndirectedInv (emptyGraph α false) := by
  refine ⟨List.nodup_nil, fun _ => List.nodup_nil, ?_, ?_⟩
  · intro a ha
    cases ha
  · intro a b
    rfl

theorem setEdgeWeight_symW (g : Graph α) (a b : Nat) (w : ℚ)
    (hdir : g.directed = false) (h : SymW g) : SymW (setEdgeWeight g a b w).1 := by
  by_cases hmem : a ∈ g.nodes ∧ b ∈ g.nodes
  · intro x y
    rw [(setEdgeWeight_ok g a b w hmem).2 (x, y), (setEdgeWeight_ok g a b w hmem).2 (y, x)]
    by_cases h1 : x = a <;> by_cases h2 : x = b <;> by_cases h3 : y = a <;>
      by_cases h4 : y = b <;>
        (simp [hdir, Prod.mk.injEq, h1, h2, h3, h4] <;> exact h _ _)
  · rw [setEdgeWeight_err_eq g a b w hmem]
    exact h

theorem setEdgeWeight_symAdj (g : Graph α) (a b : Nat) (w : ℚ)
    (h : SymAdj g) : SymAdj (setEdgeWeight g a b w).1 := by
  by_cases hmem : a ∈ g.nodes ∧ b ∈ g.nodes
  · intro x hx y hy
    rw [setEdgeWeight_nodes] at hx hy
    rw [setEdgeWeight_adj]
    exact h x hx y hy
  · rw [setEdgeWeight_err_eq g a b w hmem]
    exact h

theorem addEdge_symAdj (g : Graph α) (a b : Nat) (w : Option ℚ)
    (hdir : g.directed = false) (h : SymAdj g) : SymAdj (addEdge g a b w).1 := by
  rw [addEdge_eq]
  by_cases hmem : a ∈ g.nodes ∧ b ∈ g.nodes
  · rw [if_pos hmem]
    by_cases hba : b = a
    · rw [if_pos hba]; exact h
    · rw [if_neg hba]
      intro x hx y hy
      rw [show (addEdgeOk g a b w, (none : Option Err)).1.nodes = g.nodes from
        addEdgeOk_nodes g a b w] at hx hy
      rw [show (addEdgeOk g a b w, (none : Option Err)).1.adj = (addEdgeOk g a b w).adj from rfl]
      rw [addEdgeOk_mem_adj g a b w hba hdir, addEdgeOk_mem_adj g a b w hba hdir]
      have := h x hx y hy
      tauto
  · rw [if_neg hmem]; exact h

theorem addEdge_symW (g : Graph α) (a b : Nat) (w : Option ℚ)
    (hdir : g.directed = false) (h : SymW g) : SymW (addEdge g a b w).1 := by
  rw [addEdge_eq]
  by_cases hmem : a ∈ g.nodes ∧ b ∈ g.nodes
  · rw [if_pos hmem]
    by_cases hba : b = a
    · rw [if_pos hba]; exact h
    · rw [if_neg hba]
      show SymW (addEdgeOk g a b w)
      unfold addEdgeOk
      rw [hdir]
      simp only [Bool.false_eq_true, if_false]
      have hW : SymW (addNeighbour (addNeighbour g a b).1 b a).1 := by
        intro x y
        rw [show (addNeighbour (addNeighbour g a b).1 b a).1.weights = g.weights from by simp]
        exact h x y
      cases w with
      | none => exact hW
      | some w' =>
        exact setEdgeWeight_symW _ a b w' (by simp [hdir]) hW
  · rw [if_neg hmem]; exact h

theorem removeEdge_symAdj (g : Graph α) (a b : Nat)
    (hdir : g.directed = false) (hnd : ∀ m, (g.adj m).Nodup) (h : SymAdj g) :
    SymAdj (removeEdge g a b).1 := by
  by_cases hmem : a ∈ g.nodes ∧ b ∈ g.nodes
  · intro x hx y hy
    rw [removeEdge_nodes] at hx hy
    rw [removeEdge_mem_adj g a b hmem hdir hnd, removeEdge_mem_adj g a b hmem hdir hnd]
    have := h x hx y hy
    tauto
  · rw [removeEdge_err_eq g a b hmem]
    exact h

theorem removeEdge_symW (g : Graph α) (a b : Nat)
    (hdir : g.directed = false) (h : SymW g) : SymW (removeEdge g a b).1 := by
  by_cases hmem : a ∈ g.nodes ∧ b ∈ g.nodes
  · intro x y
    rw [removeEdge_weights_eq g a b hmem (x, y), removeEdge_weights_eq g a b hmem (y, x)]
    simp only [hdir, Bool.false_eq_true, not_false_iff, true_and, Prod.mk.injEq]
    by_cases h1 : x = a <;> by_cases h2 : x = b <;> by_cases h3 : y = a <;>
      by_cases h4 : y = b <;>
        (simp [h1, h2, h3, h4] <;> exact h _ _)
  · rw [removeEdge_err_eq g a b hmem]
    exact h

theorem removeNode_symAdj (V : Nat → α) (g : Graph α) (n : Nat)
    (hnd : g.nodes.Nodup) (h : SymAdj g) : SymAdj (removeNode V g n) := by
  intro x hx y hy
  unfold removeNode at hx hy ⊢
  dsimp at hx hy ⊢
  have hxn : x ≠ n := ((List.Nodup.mem_erase_iff hnd).mp hx).1
  have hyn : y ≠ n := ((List.Nodup.mem_erase_iff hnd).mp hy).1
  have hx' : x ∈ g.nodes := List.mem_of_mem_erase hx
  have hy' : y ∈ g.nodes := List.mem_of_mem_erase hy
  rw [if_pos hx', if_pos hy']
  simp only [List.mem_filter, decide_eq_true_eq]
  constructor
  · rintro ⟨hmem, -⟩
    exact ⟨(h x hx' y hy').mp hmem, by simpa using hxn⟩
  · rintro ⟨hmem, -⟩
    exact ⟨(h x hx' y hy').mpr hmem, by simpa using hyn⟩

theorem removeNode_symW (V : Nat → α) (g : Graph α) (n : Nat)
    (h : SymW g) : SymW (removeNode V g n) := h

theorem removeNode_nodesNodup (V : Nat → α) (g : Graph α) (n : Nat)
    (h : g.nodes.Nodup) : (removeNode V g n).nodes.Nodup :=
  List.Nodup.erase n h

theorem removeNode_adjNodup (V : Nat → α) (g : Graph α) (n : Nat)
    (h : ∀ m, (g.adj m).Nodup) (m : Nat) : ((removeNode V g n).adj m).Nodup := by
  unfold removeNode
  dsimp
  split
  · exact List.Nodup.filter _ (h m)
  · exact h m

/-- One step of the mutation sequences considered by the symmetry claim. -/
inductive GOp where
  | addE (a b : Nat) (w : Option ℚ)
  | setW (a b : Nat) (w : ℚ)
  | rmE (a b : Nat)
  | rmN (n : Nat)

/-- Execute one operation, keeping the state it leaves behind (which is
the unchanged graph whenever the operation raises). -/
def applyOp (V : Nat → α) (g : Graph α) : GOp → Graph α
  | .addE a b w => (addEdge g a b w).1
  | .setW a b w => (setEdgeWeight g a b w).1
  | .rmE a b => (removeEdge g a b).1
  | .rmN n => removeNode V g n

theorem applyOp_directed (V : Nat → α) (g : Graph α) (op : GOp) :
    (applyOp V g op).directed = g.directed := by
  cases op with
  | addE a b w =>
    show (addEdge g a b w).1.directed = g.directed
    rw [addEdge_eq]
    by_cases hmem : a ∈ g.nodes ∧ b ∈ g.nodes
    · rw [if_pos hmem]
      by_cases hba : b = a
      · rw [if_pos hba]
      · rw [if_neg hba]
        show (addEdgeOk g a b w).directed = g.directed
        unfold addEdgeOk
        rcases Bool.eq_false_or_eq_true g.directed with hb | hb <;> cases w <;> simp [hb]
    · rw [if_neg hmem]
  | setW a b w => exact setEdgeWeight_directed g a b w
  | rmE a b =>
    show (removeEdge g a b).1.directed = g.directed
    unfold removeEdge
    by_cases hmem : a ∈ g.nodes ∧ b ∈ g.nodes
    · rw [if_pos hmem]
      rcases Bool.eq_false_or_eq_true g.directed with hb | hb <;> simp [hb]
    · rw [if_neg hmem]
  | rmN n => rfl

theorem applyOp_undirectedInv (V : Nat → α) (g : Graph α) (op : GOp)
    (hdir : g.directed = false) (h : UndirectedInv g) : UndirectedInv (applyOp V g op) := by
  cases op with
  | addE a b w =>
    refine ⟨?_, ?_, addEdge_symAdj g a b w hdir h.symA, addEdge_symW g a b w hdir h.symW⟩
    · rw [show (applyOp V g (.addE a b w)).nodes = (addEdge g a b w).1.nodes from rfl,
        addEdge_nodes]
      exact h.ndNodes
    · intro m
      show ((addEdge g a b w).1.adj m).Nodup
      rw [addEdge_eq]
      by_cases hmem : a ∈ g.nodes ∧ b ∈ g.nodes
      · rw [if_pos hmem]
        by_cases hba : b = a
        · rw [if_pos hba]; exact h.ndAdj m
        · rw [if_neg hba]
          exact addEdgeOk_adj_nodup g a b w h.ndAdj m
      · rw [if_neg hmem]; exact h.ndAdj m
  | setW a b w =>
    refine ⟨?_, ?_, setEdgeWeight_symAdj g a b w h.symA,
      setEdgeWeight_symW g a b w hdir h.symW⟩
    · rw [show (applyOp V g (.setW a b w)).nodes = (setEdgeWeight g a b w).1.nodes from rfl,
        setEdgeWeight_nodes]
      exact h.ndNodes
    · intro m
      show ((setEdgeWeight g a b w).1.adj m).Nodup
      rw [setEdgeWeight_adj]
      exact h.ndAdj m
  | rmE a b =>
    refine ⟨?_, removeEdge_adj_nodup g a b h.ndAdj,
      removeEdge_symAdj g a b hdir h.ndAdj h.symA, removeEdge_symW g a b hdir h.symW⟩
    rw [show (applyOp V g (.rmE a b)).nodes = (removeEdge g a b).1.nodes from rfl,
      removeEdge_nodes]
    exact h.ndNodes
  | rmN n =>
    exact ⟨removeNode_nodesNodup V g n h.ndNodes, removeNode_adjNodup V g n h.ndAdj,
      removeNode_symAdj V g n h.ndNodes h.symA, removeNode_symW V g n h.symW⟩

theorem foldl_applyOp_undirectedInv (V : Nat → α) (g : Graph α) (ops : List GOp)
    (hdir : g.directed = false) (h : UndirectedInv g) :
    UndirectedInv (ops.foldl (applyOp V) g) ∧ (ops.foldl (applyOp V) g).directed = false := by
  induction ops generalizing g with
  | nil => exact ⟨h, hdir⟩
  | cons op rest ih =>
    have hdir' : (applyOp V g op).directed = false := by
      rw [applyOp_directed]; exact hdir
    exact ih (applyOp V g op) hdir' (applyOp_undirectedInv V g op hdir h)

/-! ## Concrete example graphs -/

/-- An undirected graph holding two registered nodes `1` and `2`
(valuation `id`), with no edges. -/
def gTwo : Graph Nat := addNode id (addNode id (emptyGraph Nat false) 1) 2

/-- `gTwo` after `add_edge(1, 2, weight=5)`. -/
def gEdge : Graph Nat := (addEdge gTwo 1 2 (some 5)).1

theorem bij_empty (V : Nat → α) (d : Bool) : Bij V (emptyGraph α d) := by
  refine ⟨List.nodup_nil, ?_, ?_⟩
  · intro a n h
    cases h
  · intro n h
    cases h

theorem wend_empty (d : Bool) : WEnd (emptyGraph α d) := by
  intro p hp
  cases hp

theorem bij_gTwo : Bij id gTwo :=
  addNode_bij id _ 2 (addNode_bij id _ 1 (bij_empty id false))

theorem wend_gTwo : WEnd gTwo :=
  addNode_wend id _ 2 (addNode_wend id _ 1 (wend_empty false))

theorem bij_gEdge : Bij id gEdge :=
  addEdge_bij id gTwo 1 2 (some 5) bij_gTwo

theorem wend_gEdge : WEnd gEdge :=
  addEdge_wend gTwo 1 2 (some 5) wend_gTwo

theorem gTwo_adj (m : Nat) : gTwo.adj m = [] := by
  show (addNode id (addNode id (emptyGraph Nat false) 1) 2).adj m = []
  rw [addNode_adj, addNode_adj]
  rfl

theorem undirectedInv_gTwo : UndirectedInv gTwo := by
  refine ⟨by decide, ?_, ?_, ?_⟩
  · intro m
    rw [gTwo_adj]
    exact List.nodup_nil
  · intro x _ y _
    rw [gTwo_adj, gTwo_adj]
    simp
  · intro a b
    show (addNode id (addNode id (emptyGraph Nat false) 1) 2).weights (a, b) =
      (addNode id (addNode id (emptyGraph Nat false) 1) 2).weights (b, a)
    rw [addNode_weights, addNode_weights]
    rfl

theorem gEdge_map_only (a : Nat) (h : gEdge.nodeMap a = some 2) : a = 2 := by
  have := (bij_gEdge.map_mem a 2 h).2
  simpa using this.symm

/-! ## Claim theorems: graph mutation operations -/

/-- Claim C2 (code bug): `set_edge_weight` is documented (and specified) to
also establish the adjacency like `add_edge` would, but the source only
records the weight.  On the undirected two-node graph `gTwo` with no
edges, `set_edge_weight(1, 2, 5)` succeeds and records the weight
symmetrically, yet neither endpoint gains a neighbour — contradicting
the claim that `2` ends up in `1`'s neighbour list. -/
theorem setEdgeWeight_creates_no_adjacency :
    (1 ∈ gTwo.nodes ∧ 2 ∈ gTwo.nodes) ∧
    (setEdgeWeight gTwo 1 2 5).2 = none ∧
    (setEdgeWeight gTwo 1 2 5).1.weights (1, 2) = some 5 ∧
    (setEdgeWeight gTwo 1 2 5).1.weights (2, 1) = some 5 ∧
    (setEdgeWeight gTwo 1 2 5).1.adj 1 = [] ∧
    (setEdgeWeight gTwo 1 2 5).1.adj 2 = [] := by
  refine ⟨by decide, ?_, ?_, ?_, ?_, ?_⟩
  · rfl
  · rfl
  · rfl
  · rw [setEdgeWeight_adj, gTwo_adj]
  · rw [setEdgeWeight_adj, gTwo_adj]

/-- Claim C3 (counterexample): in the undirected graph `gEdge` (nodes 1
and 2, a weighted 1–2 edge), removing the registered node `2` leaves the
weight entries `(1,2)` and `(2,1)` in the weight table, refuting the
claim that all weight entries touching the removed node are purged (the
other removal effects do take place). -/
theorem removeNode_weight_entry_survives :
    2 ∈ gEdge.nodes ∧
    2 ∉ (removeNode id gEdge 2).nodes ∧
    (removeNode id gEdge 2).nodeMap 2 = none ∧
    (removeNode id gEdge 2).adj 1 = [] ∧
    (removeNode id gEdge 2).weights (1, 2) = some 5 ∧
    (removeNode id gEdge 2).weights (2, 1) = some 5 := by
  refine ⟨by decide, by decide, by decide, by decide, ?_, ?_⟩
  · rw [removeNode_weights]
    rfl
  · rw [removeNode_weights]
    rfl

/-- Claim C3 (amended): after `remove_node(x)` on a registered node `x`
of a graph whose index is a bijection, `x` is gone from the node list
and from the value index and from every remaining node's neighbour
list — but the weight table is left entirely unchanged (entries touching
`x` are not purged). -/
theorem removeNode_spec (V : Nat → α) (g : Graph α) (x : Nat)
    (hx : x ∈ g.nodes) (hbij : Bij V g) :
    x ∉ (removeNode V g x).nodes ∧
    (∀ a, (removeNode V g x).nodeMap a ≠ some x) ∧
    (∀ m, m ∈ (removeNode V g x).nodes → x ∉ (removeNode V g x).adj m) ∧
    (removeNode V g x).weights = g.weights := by
  refine ⟨?_, ?_, ?_, rfl⟩
  · intro hmem
    exact (((List.Nodup.mem_erase_iff hbij.nodup).mp hmem).1) rfl
  · intro a hmap
    unfold removeNode at hmap
    dsimp at hmap
    by_cases ha : a = V x
    · rw [if_pos ha] at hmap
      cases hmap
    · rw [if_neg ha] at hmap
      exact ha (hbij.map_mem a x hmap).2.symm
  · intro m hmem hadj
    unfold removeNode at hmem hadj
    dsimp at hmem hadj
    have hm : m ∈ g.nodes := List.mem_of_mem_erase hmem
    rw [if_pos hm] at hadj
    have := List.of_mem_filter hadj
    simp at this

/-- Witness for `removeNode_spec` at the concrete graph `gEdge`, `x = 2`. -/
theorem removeNode_spec_witness :
    (2 ∈ gEdge.nodes) ∧
    (2 ∉ (removeNode id gEdge 2).nodes ∧
      (∀ a, (removeNode id gEdge 2).nodeMap a ≠ some 2) ∧
      (∀ m, m ∈ (removeNode id gEdge 2).nodes → 2 ∉ (removeNode id gEdge 2).adj m) ∧
      (removeNode id gEdge 2).weights = gEdge.weights) :=
  ⟨by decide, removeNode_spec id gEdge 2 (by decide) bij_gEdge⟩

/-- Claim C4 (counterexample): `gEdge` satisfies the full structural
invariant (index bijection and weight-endpoint containment) and `2` is
registered, yet `remove_node(2)` produces a graph violating the
weight-endpoint half of the invariant: the key `(1, 2)` survives in the
weight table while `2` is no longer registered. -/
theorem removeNode_breaks_weight_endpoints :
    Bij id gEdge ∧ WEnd gEdge ∧ 2 ∈ gEdge.nodes ∧ ¬WEnd (removeNode id gEdge 2) := by
  refine ⟨bij_gEdge, wend_gEdge, by decide, ?_⟩
  intro hW
  have h1 : ((removeNode id gEdge 2).weights (1, 2)).isSome := by
    rw [removeNode_weights]
    rfl
  have := (hW (1, 2) h1).2
  revert this
  decide

/-- Claim C4 (amended): `addNode`, `addEdge`, `removeEdge` and
`setEdgeWeight` preserve both halves of the structural invariant (index
bijection, weight-endpoint containment); `removeNode` on a registered
node preserves the bijection but leaves the weight table unchanged, so
it does not in general preserve weight-endpoint containment
(`getEdgeWeight` performs no mutation). -/
theorem graph_ops_preserve_invariants (V : Nat → α) (g : Graph α)
    (n a b : Nat) (w : ℚ) (wopt : Option ℚ) (hb : Bij V g) (hw : WEnd g) :
    (Bij V (addNode V g n) ∧ WEnd (addNode V g n)) ∧
    (Bij V (addEdge g a b wopt).1 ∧ WEnd (addEdge g a b wopt).1) ∧
    (Bij V (removeEdge g a b).1 ∧ WEnd (removeEdge g a b).1) ∧
    (Bij V (setEdgeWeight g a b w).1 ∧ WEnd (setEdgeWeight g a b w).1) ∧
    (n ∈ g.nodes → Bij V (removeNode V g n)) ∧
    (removeNode V g n).weights = g.weights :=
  ⟨⟨addNode_bij V g n hb, addNode_wend V g n hw⟩,
   ⟨addEdge_bij V g a b wopt hb, addEdge_wend g a b wopt hw⟩,
   ⟨removeEdge_bij V g a b hb, removeEdge_wend g a b hw⟩,
   ⟨setEdgeWeight_bij V g a b w hb, setEdgeWeight_wend g a b w hw⟩,
   fun hn => removeNode_bij V g n hn hb, rfl⟩

/-- Witness for `graph_ops_preserve_invariants` at the concrete graph
`gTwo`. -/
theorem graph_ops_preserve_invariants_witness :
    ((Bij id (addNode id gTwo 2) ∧ WEnd (addNode id gTwo 2)) ∧
     (Bij id (addEdge gTwo 1 2 (some 5)).1 ∧ WEnd (addEdge gTwo 1 2 (some 5)).1) ∧
     (Bij id (removeEdge gTwo 1 2).1 ∧ WEnd (removeEdge gTwo 1 2).1) ∧
     (Bij id (setEdgeWeight gTwo 1 2 7).1 ∧ WEnd (setEdgeWeight gTwo 1 2 7).1) ∧
     (2 ∈ gTwo.nodes → Bij id (removeNode id gTwo 2)) ∧
     (removeNode id gTwo 2).weights = gTwo.weights) :=
  graph_ops_preserve_invariants id gTwo 2 1 2 7 (some 5) bij_gTwo wend_gTwo

/-- Claim C5: starting from any well-formed symmetric undirected graph,
any sequence of `addEdge` / `setEdgeWeight` / `removeEdge` /
`removeNode` calls leaves the neighbour relation between registered
nodes and the weight table symmetric; and immediately after a
(non-self-loop) `addEdge(a, b)` between registered nodes, each endpoint
lists the other as a neighbour. -/
theorem undirected_symmetry (V : Nat → α) (g : Graph α) (ops : List GOp)
    (a b : Nat) (wopt : Option ℚ)
    (hdir : g.directed = false) (hinv : UndirectedInv g)
    (ha : a ∈ g.nodes) (hb : b ∈ g.nodes) (hba : b ≠ a) :
    SymAdj (ops.foldl (applyOp V) g) ∧ SymW (ops.foldl (applyOp V) g) ∧
    (addEdge g a b wopt).2 = none ∧
    b ∈ (addEdge g a b wopt).1.adj a ∧ a ∈ (addEdge g a b wopt).1.adj b := by
  have hfold := foldl_applyOp_undirectedInv V g ops hdir hinv
  refine ⟨hfold.1.symA, hfold.1.symW, ?_, ?_, ?_⟩
  · rw [addEdge_eq, if_pos ⟨ha, hb⟩, if_neg hba]
  · rw [addEdge_eq, if_pos ⟨ha, hb⟩, if_neg hba]
    show b ∈ (addEdgeOk g a b wopt).adj a
    rw [addEdgeOk_mem_adj g a b wopt hba hdir]
    tauto
  · rw [addEdge_eq, if_pos ⟨ha, hb⟩, if_neg hba]
    show a ∈ (addEdgeOk g a b wopt).adj b
    rw [addEdgeOk_mem_adj g a b wopt hba hdir]
    tauto

/-- Witness for `undirected_symmetry`: the two-node graph, a short
mutation sequence, and the edge `1–2`. -/
theorem undirected_symmetry_witness :
    (gTwo.directed = false ∧ 1 ∈ gTwo.nodes ∧ 2 ∈ gTwo.nodes ∧ (2 : Nat) ≠ 1) ∧
    (SymAdj ([GOp.addE 1 2 (some 5), GOp.rmN 2].foldl (applyOp id) gTwo) ∧
     SymW ([GOp.addE 1 2 (some 5), GOp.rmN 2].foldl (applyOp id) gTwo) ∧
     (addEdge gTwo 1 2 none).2 = none ∧
     2 ∈ (addEdge gTwo 1 2 none).1.adj 1 ∧ 1 ∈ (addEdge gTwo 1 2 none).1.adj 2) :=
  ⟨⟨rfl, by decide, by decide, by decide⟩,
    undirected_symmetry id gTwo [GOp.addE 1 2 (some 5), GOp.rmN 2] 1 2 none rfl
      undirectedInv_gTwo (by decide) (by decide) (by decide)⟩

/-! ## The priority queue (`queue.py`, class `PriorityQueue`)

The source stores entries `(priority, counter, item)` in a `heapq`
binary min-heap, where `counter` is a fresh value of a monotonically
increasing counter at each push.  Since all counters are distinct, the
observable behaviour of `heappop` is exactly: remove and return the
entry that is least in the lexicographic `(priority, counter)` order
(the `item` component is never compared).  We model the heap by its
entry list in insertion order and `pop` by that least-entry extraction. -/

structure PriorityQueue (P ι : Type) where
  entries : List (P × Nat × ι)
  counter : Nat

namespace PriorityQueue

def emptyQ (P ι : Type) : PriorityQueue P ι := ⟨[], 0⟩

/-- `PriorityQueue.push` (`queue.py` lines 300-309): heap-push the entry
`(priority, next(counter), item)`. -/
def push (q : PriorityQueue P ι) (x : ι) (p : P) : PriorityQueue P ι :=
  ⟨q.entries ++ [(p, q.counter, x)], q.counter + 1⟩

/-- The strict-total tuple order `heapq` uses on entries (restricted to
the `(priority, counter)` components, which always discriminate). -/
def keyLE [LinearOrder P] (e f : P × Nat × ι) : Prop :=
  e.1 < f.1 ∨ (e.1 = f.1 ∧ e.2.1 ≤ f.2.1)

instance keyLE.decidable [LinearOrder P] (e f : P × Nat × ι) : Decidable (keyLE e f) := by
  unfold keyLE
  infer_instance

theorem keyLE_total [LinearOrder P] (e f : P × Nat × ι) : keyLE e f ∨ keyLE f e := by
  unfold keyLE
  rcases lt_trichotomy e.1 f.1 with h | h | h
  · exact Or.inl (Or.inl h)
  · rcases Nat.le_total e.2.1 f.2.1 with h2 | h2
    · exact Or.inl (Or.inr ⟨h, h2⟩)
    · exact Or.inr (Or.inr ⟨h.symm, h2⟩)
  · exact Or.inr (Or.inl h)

theorem keyLE_trans [LinearOrder P] {e f k : P × Nat × ι}
    (h1 : keyLE e f) (h2 : keyLE f k) : keyLE e k := by
  unfold keyLE at *
  rcases h1 with h1 | ⟨h1, h1c⟩ <;> rcases h2 with h2 | ⟨h2, h2c⟩
  · exact Or.inl (h1.trans h2)
  · exact Or.inl (lt_of_lt_of_eq h1 h2)
  · exact Or.inl (lt_of_eq_of_lt h1 h2)
  · exact Or.inr ⟨h1.trans h2, h1c.trans h2c⟩

/-- Selection of the least entry (the observable effect of `heappop`)
together with the remaining entries. -/
def extractMin [LinearOrder P] : (P × Nat × ι) → List (P × Nat × ι) →
    (P × Nat × ι) × List (P × Nat × ι)
  | e, [] => (e, [])
  | e, f :: l =>
    if keyLE e f then ((extractMin e l).1, f :: (extractMin e l).2)
    else ((extractMin f l).1, e :: (extractMin f l).2)

theorem extractMin_perm [LinearOrder P] (e : P × Nat × ι) (l : List (P × Nat × ι)) :
    List.Perm ((extractMin e l).1 :: (extractMin e l).2) (e :: l) := by
  induction l generalizing e with
  | nil => exact List.Perm.refl _
  | cons f l ih =>
    unfold extractMin
    split
    · exact (List.Perm.swap f (extractMin e l).1 (extractMin e l).2).trans
        (((ih e).cons f).trans (List.Perm.swap e f l))
    · exact (List.Perm.swap e (extractMin f l).1 (extractMin f l).2).trans
        ((ih f).cons e)

theorem extractMin_min [LinearOrder P] (e : P × Nat × ι) (l : List (P × Nat × ι)) :
    ∀ f ∈ e :: l, keyLE (extractMin e l).1 f := by
  induction l generalizing e with
  | nil =>
    intro f hf
    rcases List.mem_singleton.mp hf with rfl
    exact Or.inr ⟨rfl, le_refl _⟩
  | cons f l ih =>
    intro k hk
    unfold extractMin
    split
    · rcases List.mem_cons.mp hk with rfl | hk2
      · exact ih k k (List.mem_cons_self k l)
      · rcases List.mem_cons.mp hk2 with rfl | hk3
        · exact keyLE_trans (ih e e (List.mem_cons_self e l)) (by assumption)
        · exact ih e k (List.mem_cons_of_mem e hk3)
    · have hfe : keyLE f e := (keyLE_total e f).resolve_left (by assumption)
      rcases List.mem_cons.mp hk with rfl | hk2
      · exact keyLE_trans (ih f f (List.mem_cons_self f l)) hfe
      · rcases List.mem_cons.mp hk2 with rfl | hk3
        · exact ih k k (List.mem_cons_self k l)
        · exact ih f k (List.mem_cons_of_mem f hk3)

/-- `PriorityQueue.pop` (`queue.py` lines 311-321): `heappop` on a
non-empty heap returns the item of the least entry; on the empty heap
the source raises `IndexError` (modelled by `none`). -/
def pop [LinearOrder P] (q : PriorityQueue P ι) : Option (ι × PriorityQueue P ι) :=
  match q.entries with
  | [] => none
  | e :: l => some ((extractMin e l).1.2.2, ⟨(extractMin e l).2, q.counter⟩)

/-- `PriorityQueue.is_empty` (`queue.py` lines 335-342). -/
def isEmpty (q : PriorityQueue P ι) : Bool := q.entries.isEmpty

/-- A sequence of pushes, first list element pushed first. -/
def pushList (q : PriorityQueue P ι) : List (ι × P) → PriorityQueue P ι
  | [] => q
  | xp :: rest => pushList (q.push xp.1 xp.2) rest

theorem pushList_entries (L : List (ι × P)) (q : PriorityQueue P ι) :
    (pushList q L).entries =
      q.entries ++ L.mapIdx (fun i xp => (xp.2, q.counter + i, xp.1)) := by
  induction L generalizing q with
  | nil => simp [pushList]
  | cons xp rest ih =>
    rw [pushList, ih]
    simp only [push, List.mapIdx_cons, List.append_assoc, List.singleton_append]
    have harith : (fun i (yp : ι × P) => (yp.2, q.counter + 1 + i, yp.1)) =
        (fun i (yp : ι × P) => (yp.2, q.counter + (i + 1), yp.1)) := by
      funext i yp
      simp only [Prod.mk.injEq, true_and, and_true]
      omega
    rw [harith]
    simp

end PriorityQueue

/-! ## Traversals (`algorithms/traversal.py`)

The FIFO `Queue` used by `bfs` is modelled by a list whose head is the
queue front (`enqueue` appends at the tail); the LIFO `Stack` used by
`dfs` is modelled by a list whose head is the stack top, so pushing the
elements of a list one by one prepends its reverse.  The `visited` sets
are modelled by lists used only through membership.  The unbounded
`while` loops take explicit fuel; exhausted fuel returns the state
reached, and the termination theorems show that some fuel drains the
frontier. -/

/-- The loop of `bfs` (`traversal.py` lines 30-39), acting on the queue,
the visited set and the output order. -/
def bfsLoop (g : Graph α) : Nat → List Nat → List Nat → List Nat →
    List Nat × List Nat × List Nat
  | 0, q, vis, ord => (q, vis, ord)
  | _ + 1, [], vis, ord => ([], vis, ord)
  | fuel + 1, u :: q, vis, ord =>
    if u ∈ vis then bfsLoop g fuel q vis ord
    else bfsLoop g fuel (q ++ (g.adj u).filter (fun x => decide (x ∉ u :: vis)))
      (u :: vis) (ord ++ [u])

/-- `bfs` (`traversal.py` lines 10-40). -/
def bfs (g : Graph α) (s : Nat) (fuel : Nat) : Except Err (List Nat) :=
  if s ∈ g.nodes then .ok (bfsLoop g fuel [s] [] []).2.2
  else .error .notInGraph

/-- The loop of `dfs` (`traversal.py` lines 63-72).  Pushing the
unvisited neighbours in reversed stored order onto the stack prepends,
in our head-is-top model, the reverse of that reversed-filtered list. -/
def dfsLoop (g : Graph α) : Nat → List Nat → List Nat → List Nat →
    List Nat × List Nat × List Nat
  | 0, st, vis, ord => (st, vis, ord)
  | _ + 1, [], vis, ord => ([], vis, ord)
  | fuel + 1, u :: st, vis, ord =>
    if u ∈ vis then dfsLoop g fuel st vis ord
    else dfsLoop g fuel
      (((g.adj u).reverse.filter (fun x => decide (x ∉ u :: vis))).reverse ++ st)
      (u :: vis) (ord ++ [u])

/-- `dfs` (`traversal.py` lines 43-73). -/
def dfs (g : Graph α) (s : Nat) (fuel : Nat) : Except Err (List Nat) :=
  if s ∈ g.nodes then .ok (dfsLoop g fuel [s] [] []).2.2
  else .error .notInGraph

/-! ## Dijkstra (`traversal.py` lines 139-178) -/

/-- Loop state of `dijkstra`: the `distances` dictionary (modelled as a
total function: its keys are exactly the registered nodes, `⊤` is
`float('inf')`, and unregistered ids — never looked up by the verified
runs — are also sent to `⊤`), the `previous` dictionary, and the
priority queue. -/
structure DState where
  dist : Nat → WithTop ℚ
  prev : Nat → Option Nat
  pq : PriorityQueue (WithTop ℚ) Nat

/-- The `for neighbor in current.neighbours` body of `dijkstra`
(`traversal.py` lines 166-176).  `du` is the snapshot
`current_dist = distances[current]` taken before the loop;
`graph.get_edge_weight(current, neighbor)` raises (aborting the whole
call) when either node is unregistered, and edges with no recorded
weight are skipped. -/
def relaxList (g : Graph α) (u : Nat) (du : WithTop ℚ) :
    List Nat → DState → Except Err DState
  | [], s => .ok s
  | v :: vs, s =>
    if u ∈ g.nodes ∧ v ∈ g.nodes then
      match g.weights (u, v) with
      | none => relaxList g u du vs s
      | some w =>
        if du + (w : WithTop ℚ) < s.dist v then
          relaxList g u du vs
            { dist := fun x => if x = v then du + (w : WithTop ℚ) else s.dist x,
              prev := fun x => if x = v then some u else s.prev x,
              pq := s.pq.push v (du + (w : WithTop ℚ)) }
        else relaxList g u du vs s
    else .error .notInGraph

/-- The `while not pq.is_empty()` loop of `dijkstra` (`traversal.py`
lines 162-176), with explicit fuel. -/
def dijkstraLoop (g : Graph α) : Nat → DState → Except Err DState
  | 0, s => .ok s
  | fuel + 1, s =>
    match s.pq.pop with
    | none => .ok s
    | some (u, pq') =>
      match relaxList g u (s.dist u) (g.adj u) { s with pq := pq' } with
      | .ok s2 => dijkstraLoop g fuel s2
      | .error e => .error e

/-- The initial state of `dijkstra` (`traversal.py` lines 153-160):
every registered node at `inf`, the start at `0`, the queue seeded with
`(start, 0)`. -/
def dijkstraInit (src : Nat) : DState :=
  { dist := fun n => if n = src then (0 : WithTop ℚ) else ⊤,
    prev := fun _ => none,
    pq := (PriorityQueue.emptyQ (WithTop ℚ) Nat).push src 0 }

/-- `dijkstra` (`traversal.py` lines 139-178). -/
def dijkstra (g : Graph α) (src : Nat) (fuel : Nat) :
    Except Err ((Nat → WithTop ℚ) × (Nat → Option Nat)) :=
  if src ∈ g.nodes then
    match dijkstraLoop g fuel (dijkstraInit src) with
    | .ok s => .ok (s.dist, s.prev)
    | .error e => .error e
  else .error .notInGraph

/-! ## Reachability and traversal termination -/

/-- Reachability along stored neighbour lists. -/
inductive Reach (g : Graph α) (s : Nat) : Nat → Prop
  | refl : Reach g s s
  | step {u v : Nat} : Reach g s u → v ∈ g.adj u → Reach g s v

/-- Hop-count-indexed reachability: a walk of exactly `k` edges. -/
inductive HopLen (g : Graph α) (s : Nat) : Nat → Nat → Prop
  | refl : HopLen g s s 0
  | step {u v : Nat} {k : Nat} : HopLen g s u k → v ∈ g.adj u → HopLen g s v (k + 1)

theorem reach_iff_hopLen (g : Graph α) (s v : Nat) :
    Reach g s v ↔ ∃ k, HopLen g s v k := by
  constructor
  · intro h
    induction h with
    | refl => exact ⟨0, HopLen.refl⟩
    | step _ hadj ih =>
      obtain ⟨k, hk⟩ := ih
      exact ⟨k + 1, hk.step hadj⟩
  · rintro ⟨k, hk⟩
    induction hk with
    | refl => exact Reach.refl
    | step _ hadj ih => exact ih.step hadj

/-- Closure of the node set under stored adjacency: the well-formedness
assumption all traversal theorems use (it holds for every graph built
through the `Graph` API). -/
def AdjClosed (g : Graph α) : Prop :=
  ∀ u, u ∈ g.nodes → ∀ v, v ∈ g.adj u → v ∈ g.nodes

theorem reach_mem_nodes {g : Graph α} {s v : Nat} (hwf : AdjClosed g)
    (hs : s ∈ g.nodes) (h : Reach g s v) : v ∈ g.nodes := by
  induction h with
  | refl => exact hs
  | step hr hadj ih => exact hwf _ ih _ hadj

/-- The number of registered nodes not yet visited — the principal
termination measure of both traversal loops. -/
def unvisited (g : Graph α) (vis : List Nat) : Nat :=
  (g.nodes.filter (fun x => decide (x ∉ vis))).length

theorem unvisited_anti (g : Graph α) (vis1 vis2 : List Nat)
    (h : ∀ x, x ∈ vis1 → x ∈ vis2) : unvisited g vis2 ≤ unvisited g vis1 := by
  unfold unvisited
  have hsub : g.nodes.filter (fun x => decide (x ∉ vis2)) =
      (g.nodes.filter (fun x => decide (x ∉ vis1))).filter (fun x => decide (x ∉ vis2)) := by
    rw [List.filter_filter]
    refine List.filter_congr ?_
    intro x _
    by_cases h1 : x ∈ vis1 <;> by_cases h2 : x ∈ vis2 <;> simp_all
  rw [hsub]
  exact List.length_filter_le _ _

theorem unvisited_lt (g : Graph α) (vis : List Nat) (u : Nat)
    (hu : u ∈ g.nodes) (hv : u ∉ vis) :
    unvisited g (u :: vis) < unvisited g vis := by
  unfold unvisited
  have hsub : g.nodes.filter (fun x => decide (x ∉ u :: vis)) =
      (g.nodes.filter (fun x => decide (x ∉ vis))).filter (fun x => decide (x ∉ u :: vis)) := by
    rw [List.filter_filter]
    refine List.filter_congr ?_
    intro x _
    by_cases h1 : x ∈ vis <;> by_cases h2 : x ∈ u :: vis <;> simp_all
  rw [hsub]
  refine List.length_filter_lt_length_iff_exists.mpr ⟨u, ?_, by simp⟩
  rw [List.mem_filter]
  exact ⟨hu, by simpa using hv⟩

theorem bfsLoop_drains (g : Graph α) (hwf : AdjClosed g) :
    ∀ a, ∀ q vis ord, unvisited g vis = a → (∀ x, x ∈ q → x ∈ g.nodes) →
      ∃ n, (bfsLoop g n q vis ord).1 = [] := by
  intro a
  induction a using Nat.strong_induction_on with
  | _ a iha =>
    suffices h : ∀ b q vis ord, q.length = b → unvisited g vis = a →
        (∀ x, x ∈ q → x ∈ g.nodes) → ∃ n, (bfsLoop g n q vis ord).1 = [] by
      intro q vis ord ha hq
      exact h q.length q vis ord rfl ha hq
    intro b
    induction b using Nat.strong_induction_on with
    | _ b ihb =>
      intro q vis ord hb ha hq
      match q with
      | [] => exact ⟨1, rfl⟩
      | u :: q2 =>
        by_cases hu : u ∈ vis
        · obtain ⟨n, hn⟩ := ihb q2.length (by rw [← hb]; simp) q2 vis ord rfl ha
            (fun x hx => hq x (List.mem_cons_of_mem u hx))
          exact ⟨n + 1, by rw [bfsLoop, if_pos hu]; exact hn⟩
        · have humem : u ∈ g.nodes := hq u (List.mem_cons_self u q2)
          have hlt : unvisited g (u :: vis) < a := by
            rw [← ha]
            exact unvisited_lt g vis u humem hu
          have hq2 : ∀ x, x ∈ q2 ++ (g.adj u).filter (fun x => decide (x ∉ u :: vis)) →
              x ∈ g.nodes := by
            intro x hx
            rcases List.mem_append.mp hx with hx | hx
            · exact hq x (List.mem_cons_of_mem u hx)
            · exact hwf u humem x (List.mem_of_mem_filter hx)
          obtain ⟨n, hn⟩ := iha (unvisited g (u :: vis)) hlt
            (q2 ++ (g.adj u).filter (fun x => decide (x ∉ u :: vis))) (u :: vis)
            (ord ++ [u]) rfl hq2
          exact ⟨n + 1, by rw [bfsLoop, if_neg hu]; exact hn⟩

theorem bfsLoop_nil (g : Graph α) (vis ord : List Nat) (n : Nat) :
    bfsLoop g n [] vis ord = ([], vis, ord) := by
  cases n <;> rfl

theorem bfsLoop_mono (g : Graph α) :
    ∀ n q vis ord, (bfsLoop g n q vis ord).1 = [] →
      ∀ m, n ≤ m → bfsLoop g m q vis ord = bfsLoop g n q vis ord := by
  intro n
  induction n with
  | zero =>
    intro q vis ord hend m _
    have hq : q = [] := hend
    subst hq
    rw [bfsLoop_nil, bfsLoop_nil]
  | succ n ih =>
    intro q vis ord hend m hm
    match q with
    | [] => rw [bfsLoop_nil, bfsLoop_nil]
    | u :: q2 =>
      obtain ⟨m2, rfl⟩ : ∃ m2, m = m2 + 1 :=
        ⟨m - 1, by omega⟩
      have hm2 : n ≤ m2 := by omega
      by_cases hu : u ∈ vis
      · rw [bfsLoop, if_pos hu] at hend ⊢
        rw [bfsLoop, if_pos hu]
        exact ih q2 vis ord hend m2 hm2
      · rw [bfsLoop, if_neg hu] at hend ⊢
        rw [bfsLoop, if_neg hu]
        exact ih _ _ _ hend m2 hm2

theorem dfsLoop_drains (g : Graph α) (hwf : AdjClosed g) :
    ∀ a, ∀ st vis ord, unvisited g vis = a → (∀ x, x ∈ st → x ∈ g.nodes) →
      ∃ n, (dfsLoop g n st vis ord).1 = [] := by
  intro a
  induction a using Nat.strong_induction_on with
  | _ a iha =>
    suffices h : ∀ b st vis ord, st.length = b → unvisited g vis = a →
        (∀ x, x ∈ st → x ∈ g.nodes) → ∃ n, (dfsLoop g n st vis ord).1 = [] by
      intro st vis ord ha hst
      exact h st.length st vis ord rfl ha hst
    intro b
    induction b using Nat.strong_induction_on with
    | _ b ihb =>
      intro st vis ord hb ha hst
      match st with
      | [] => exact ⟨1, rfl⟩
      | u :: st2 =>
        by_cases hu : u ∈ vis
        · obtain ⟨n, hn⟩ := ihb st2.length (by rw [← hb]; simp) st2 vis ord rfl ha
            (fun x hx => hst x (List.mem_cons_of_mem u hx))
          exact ⟨n + 1, by rw [dfsLoop, if_pos hu]; exact hn⟩
        · have humem : u ∈ g.nodes := hst u (List.mem_cons_self u st2)
          have hlt : unvisited g (u :: vis) < a := by
            rw [← ha]
            exact unvisited_lt g vis u humem hu
          have hst2 : ∀ x,
              x ∈ ((g.adj u).reverse.filter (fun x => decide (x ∉ u :: vis))).reverse ++ st2 →
              x ∈ g.nodes := by
            intro x hx
            rcases List.mem_append.mp hx with hx | hx
            · rw [List.mem_reverse] at hx
              have hmem := List.mem_of_mem_filter hx
              rw [List.mem_reverse] at hmem
              exact hwf u humem x hmem
            · exact hst x (List.mem_cons_of_mem u hx)
          obtain ⟨n, hn⟩ := iha (unvisited g (u :: vis)) hlt
            (((g.adj u).reverse.filter (fun x => decide (x ∉ u :: vis))).reverse ++ st2)
            (u :: vis) (ord ++ [u]) rfl hst2
          exact ⟨n + 1, by rw [dfsLoop, if_neg hu]; exact hn⟩

theorem dfsLoop_nil (g : Graph α) (vis ord : List Nat) (n : Nat) :
    dfsLoop g n [] vis ord = ([], vis, ord) := by
  cases n <;> rfl

theorem dfsLoop_mono (g : Graph α) :
    ∀ n st vis ord, (dfsLoop g n st vis ord).1 = [] →
      ∀ m, n ≤ m → dfsLoop g m st vis ord = dfsLoop g n st vis ord := by
  intro n
  induction n with
  | zero =>
    intro st vis ord hend m _
    have hst : st = [] := hend
    subst hst
    rw [dfsLoop_nil, dfsLoop_nil]
  | succ n ih =>
    intro st vis ord hend m hm
    match st with
    | [] => rw [dfsLoop_nil, dfsLoop_nil]
    | u :: st2 =>
      obtain ⟨m2, rfl⟩ : ∃ m2, m = m2 + 1 :=
        ⟨m - 1, by omega⟩
      have hm2 : n ≤ m2 := by omega
      by_cases hu : u ∈ vis
      · rw [dfsLoop, if_pos hu] at hend ⊢
        rw [dfsLoop, if_pos hu]
        exact ih st2 vis ord hend m2 hm2
      · rw [dfsLoop, if_neg hu] at hend ⊢
        rw [dfsLoop, if_neg hu]
        exact ih _ _ _ hend m2 hm2

theorem dfs_push_eq (g : Graph α) (u : Nat) (vis : List Nat) :
    ((g.adj u).reverse.filter (fun x => decide (x ∉ u :: vis))).reverse =
      (g.adj u).filter (fun x => decide (x ∉ u :: vis)) := by
  rw [List.filter_reverse, List.reverse_reverse]

/-- The joint safety invariant of the `bfs` loop: visited = output as
sets, duplicate-free output, everything discovered is reachable, visited
nodes have all neighbours visited or queued, queued nodes end up visited
or still queued, and the visited set grows. -/
theorem bfsLoop_invariant (g : Graph α) (s : Nat) :
    ∀ n Q vis ord,
      (∀ x, x ∈ vis ↔ x ∈ ord) → ord.Nodup →
      (∀ x, x ∈ vis → Reach g s x) → (∀ x, x ∈ Q → Reach g s x) →
      (∀ u, u ∈ vis → ∀ v, v ∈ g.adj u → v ∈ vis ∨ v ∈ Q) →
      (∀ x, x ∈ (bfsLoop g n Q vis ord).2.1 ↔ x ∈ (bfsLoop g n Q vis ord).2.2) ∧
      (bfsLoop g n Q vis ord).2.2.Nodup ∧
      (∀ x, x ∈ (bfsLoop g n Q vis ord).2.1 → Reach g s x) ∧
      (∀ u, u ∈ (bfsLoop g n Q vis ord).2.1 → ∀ v, v ∈ g.adj u →
        v ∈ (bfsLoop g n Q vis ord).2.1 ∨ v ∈ (bfsLoop g n Q vis ord).1) ∧
      (∀ x, x ∈ Q → x ∈ (bfsLoop g n Q vis ord).2.1 ∨ x ∈ (bfsLoop g n Q vis ord).1) ∧
      (∀ x, x ∈ vis → x ∈ (bfsLoop g n Q vis ord).2.1) := by
  intro n
  induction n with
  | zero =>
    intro Q vis ord hvo hnd hrv hrq hcl
    exact ⟨hvo, hnd, hrv, fun u hu v hv => hcl u hu v hv, fun x hx => Or.inr hx,
      fun x hx => hx⟩
  | succ n ih =>
    intro Q vis ord hvo hnd hrv hrq hcl
    match Q with
    | [] =>
      rw [bfsLoop_nil]
      refine ⟨hvo, hnd, hrv, hcl, ?_, fun x hx => hx⟩
      intro x hx
      exact absurd hx (List.not_mem_nil x)
    | u :: Q2 =>
      by_cases hu : u ∈ vis
      · rw [bfsLoop, if_pos hu]
        have hcl2 : ∀ w, w ∈ vis → ∀ v, v ∈ g.adj w → v ∈ vis ∨ v ∈ Q2 := by
          intro w hw v hv
          rcases hcl w hw v hv with h | h
          · exact Or.inl h
          · rcases List.mem_cons.mp h with rfl | h
            · exact Or.inl hu
            · exact Or.inr h
        obtain ⟨c1, c2, c3, c4, c5, c6⟩ := ih Q2 vis ord hvo hnd hrv
          (fun x hx => hrq x (List.mem_cons_of_mem u hx)) hcl2
        refine ⟨c1, c2, c3, c4, ?_, c6⟩
        intro x hx
        rcases List.mem_cons.mp hx with rfl | hx
        · exact Or.inl (c6 x hu)
        · exact c5 x hx
      · rw [bfsLoop, if_neg hu]
        have hru : Reach g s u := hrq u (List.mem_cons_self u Q2)
        have hvo2 : ∀ x, x ∈ u :: vis ↔ x ∈ ord ++ [u] := by
          intro x
          rw [List.mem_cons, List.mem_append, List.mem_singleton, ← hvo x]
          tauto
        have hnd2 : (ord ++ [u]).Nodup := by
          rw [List.nodup_append]
          refine ⟨hnd, List.nodup_singleton u, ?_⟩
          intro x hx
          rw [List.mem_singleton]
          intro hxu
          subst hxu
          exact hu ((hvo x).mpr hx)
        have hrv2 : ∀ x, x ∈ u :: vis → Reach g s x := by
          intro x hx
          rcases List.mem_cons.mp hx with rfl | hx
          · exact hru
          · exact hrv x hx
        have hrq2 : ∀ x, x ∈ Q2 ++ (g.adj u).filter (fun y => decide (y ∉ u :: vis)) →
            Reach g s x := by
          intro x hx
          rcases List.mem_append.mp hx with hx | hx
          · exact hrq x (List.mem_cons_of_mem u hx)
          · exact hru.step (List.mem_of_mem_filter hx)
        have hcl2 : ∀ w, w ∈ u :: vis → ∀ v, v ∈ g.adj w →
            v ∈ u :: vis ∨ v ∈ Q2 ++ (g.adj u).filter (fun y => decide (y ∉ u :: vis)) := by
          intro w hw v hv
          rcases List.mem_cons.mp hw with rfl | hw
          · by_cases hvm : v ∈ w :: vis
            · exact Or.inl hvm
            · refine Or.inr (List.mem_append.mpr (Or.inr ?_))
              rw [List.mem_filter]
              exact ⟨hv, by simpa using hvm⟩
          · rcases hcl w hw v hv with h | h
            · exact Or.inl (List.mem_cons_of_mem u h)
            · rcases List.mem_cons.mp h with rfl | h
              · exact Or.inl (List.mem_cons_self v vis)
              · exact Or.inr (List.mem_append.mpr (Or.inl h))
        obtain ⟨c1, c2, c3, c4, c5, c6⟩ := ih _ (u :: vis) (ord ++ [u]) hvo2 hnd2 hrv2 hrq2 hcl2
        refine ⟨c1, c2, c3, c4, ?_, ?_⟩
        · intro x hx
          rcases List.mem_cons.mp hx with rfl | hx
          · exact Or.inl (c6 x (List.mem_cons_self x vis))
          · exact c5 x (List.mem_append.mpr (Or.inl hx))
        · intro x hx
          exact c6 x (List.mem_cons_of_mem u hx)

/-- The joint safety invariant of the `dfs` loop (same statement as for
`bfs`, with the stack in place of the queue). -/
theorem dfsLoop_invariant (g : Graph α) (s : Nat) :
    ∀ n S vis ord,
      (∀ x, x ∈ vis ↔ x ∈ ord) → ord.Nodup →
      (∀ x, x ∈ vis → Reach g s x) → (∀ x, x ∈ S → Reach g s x) →
      (∀ u, u ∈ vis → ∀ v, v ∈ g.adj u → v ∈ vis ∨ v ∈ S) →
      (∀ x, x ∈ (dfsLoop g n S vis ord).2.1 ↔ x ∈ (dfsLoop g n S vis ord).2.2) ∧
      (dfsLoop g n S vis ord).2.2.Nodup ∧
      (∀ x, x ∈ (dfsLoop g n S vis ord).2.1 → Reach g s x) ∧
      (∀ u, u ∈ (dfsLoop g n S vis ord).2.1 → ∀ v, v ∈ g.adj u →
        v ∈ (dfsLoop g n S vis ord).2.1 ∨ v ∈ (dfsLoop g n S vis ord).1) ∧
      (∀ x, x ∈ S → x ∈ (dfsLoop g n S vis ord).2.1 ∨ x ∈ (dfsLoop g n S vis ord).1) ∧
      (∀ x, x ∈ vis → x ∈ (dfsLoop g n S vis ord).2.1) := by
  intro n
  induction n with
  | zero =>
    intro S vis ord hvo hnd hrv hrq hcl
    exact ⟨hvo, hnd, hrv, fun u hu v hv => hcl u hu v hv, fun x hx => Or.inr hx,
      fun x hx => hx⟩
  | succ n ih =>
    intro S vis ord hvo hnd hrv hrq hcl
    match S with
    | [] =>
      rw [dfsLoop_nil]
      refine ⟨hvo, hnd, hrv, hcl, ?_, fun x hx => hx⟩
      intro x hx
      exact absurd hx (List.not_mem_nil x)
    | u :: S2 =>
      by_cases hu : u ∈ vis
      · rw [dfsLoop, if_pos hu]
        have hcl2 : ∀ w, w ∈ vis → ∀ v, v ∈ g.adj w → v ∈ vis ∨ v ∈ S2 := by
          intro w hw v hv
          rcases hcl w hw v hv with h | h
          · exact Or.inl h
          · rcases List.mem_cons.mp h with rfl | h
            · exact Or.inl hu
            · exact Or.inr h
        obtain ⟨c1, c2, c3, c4, c5, c6⟩ := ih S2 vis ord hvo hnd hrv
          (fun x hx => hrq x (List.mem_cons_of_mem u hx)) hcl2
        refine ⟨c1, c2, c3, c4, ?_, c6⟩
        intro x hx
        rcases List.mem_cons.mp hx with rfl | hx
        · exact Or.inl (c6 x hu)
        · exact c5 x hx
      · rw [dfsLoop, if_neg hu, dfs_push_eq]
        have hru : Reach g s u := hrq u (List.mem_cons_self u S2)
        have hvo2 : ∀ x, x ∈ u :: vis ↔ x ∈ ord ++ [u] := by
          intro x
          rw [List.mem_cons, List.mem_append, List.mem_singleton, ← hvo x]
          tauto
        have hnd2 : (ord ++ [u]).Nodup := by
          rw [List.nodup_append]
          refine ⟨hnd, List.nodup_singleton u, ?_⟩
          intro x hx
          rw [List.mem_singleton]
          intro hxu
          subst hxu
          exact hu ((hvo x).mpr hx)
        have hrv2 : ∀ x, x ∈ u :: vis → Reach g s x := by
          intro x hx
          rcases List.mem_cons.mp hx with rfl | hx
          · exact hru
          · exact hrv x hx
        have hrq2 : ∀ x, x ∈ (g.adj u).filter (fun y => decide (y ∉ u :: vis)) ++ S2 →
            Reach g s x := by
          intro x hx
          rcases List.mem_append.mp hx with hx | hx
          · exact hru.step (List.mem_of_mem_filter hx)
          · exact hrq x (List.mem_cons_of_mem u hx)
        have hcl2 : ∀ w, w ∈ u :: vis → ∀ v, v ∈ g.adj w →
            v ∈ u :: vis ∨ v ∈ (g.adj u).filter (fun y => decide (y ∉ u :: vis)) ++ S2 := by
          intro w hw v hv
          rcases List.mem_cons.mp hw with rfl | hw
          · by_cases hvm : v ∈ w :: vis
            · exact Or.inl hvm
            · refine Or.inr (List.mem_append.mpr (Or.inl ?_))
              rw [List.mem_filter]
              exact ⟨hv, by simpa using hvm⟩
          · rcases hcl w hw v hv with h | h
            · exact Or.inl (List.mem_cons_of_mem u h)
            · rcases List.mem_cons.mp h with rfl | h
              · exact Or.inl (List.mem_cons_self v vis)
              · exact Or.inr (List.mem_append.mpr (Or.inr h))
        obtain ⟨c1, c2, c3, c4, c5, c6⟩ := ih _ (u :: vis) (ord ++ [u]) hvo2 hnd2 hrv2 hrq2 hcl2
        refine ⟨c1, c2, c3, c4, ?_, ?_⟩
        · intro x hx
          rcases List.mem_cons.mp hx with rfl | hx
          · exact Or.inl (c6 x (List.mem_cons_self x vis))
          · exact c5 x (List.mem_append.mpr (Or.inr hx))
        · intro x hx
          exact c6 x (List.mem_cons_of_mem u hx)

/-! ## Recursive pre-order depth-first search (reference for claim C7)

Modelled from the spec (§4.4): the natural recursive pre-order DFS the
explicit stack is said to reproduce — visit a node, mark it, then
recursively visit its stored neighbours in order, skipping already
visited nodes.  `dfsRecL` processes a work list: its recursion depth is
bounded by the fuel, which the adequacy lemmas show is never exhausted
when it exceeds the number of unvisited registered nodes. -/
def dfsRecL (g : Graph α) : Nat → List Nat → List Nat → List Nat × List Nat
  | _, [], vis => (vis, [])
  | 0, _ :: _, vis => (vis, [])
  | fuel + 1, u :: us, vis =>
    if u ∈ vis then dfsRecL g (fuel + 1) us vis
    else
      let r1 := dfsRecL g fuel (g.adj u) (u :: vis)
      let r2 := dfsRecL g (fuel + 1) us r1.1
      (r2.1, (u :: r1.2) ++ r2.2)

theorem dfsRecL_vis_mono (g : Graph α) :
    ∀ fuel l vis x, x ∈ vis → x ∈ (dfsRecL g fuel l vis).1 := by
  intro fuel
  induction fuel using Nat.strong_induction_on with
  | _ fuel ihf =>
    intro l
    induction l with
    | nil =>
      intro vis x hx
      rw [dfsRecL]
      exact hx
    | cons u us ihl =>
      intro vis x hx
      match fuel with
      | 0 =>
        rw [dfsRecL]
        exact hx
      | fuel + 1 =>
        rw [dfsRecL]
        split
        · exact ihl vis x hx
        · dsimp only
          refine ihl _ x ?_
          exact ihf fuel (Nat.lt_succ_self fuel) (g.adj u) (u :: vis) x
            (List.mem_cons_of_mem u hx)

/-- Processing an appended work list processes the parts in order. -/
theorem dfsRecL_append (g : Graph α) (fuel : Nat) :
    ∀ A B vis, dfsRecL g (fuel + 1) (A ++ B) vis =
      ((dfsRecL g (fuel + 1) B (dfsRecL g (fuel + 1) A vis).1).1,
       (dfsRecL g (fuel + 1) A vis).2 ++
         (dfsRecL g (fuel + 1) B (dfsRecL g (fuel + 1) A vis).1).2) := by
  intro A
  induction A with
  | nil =>
    intro B vis
    have h0 : dfsRecL g (fuel + 1) ([] : List Nat) vis = (vis, []) := by rw [dfsRecL]
    rw [List.nil_append, h0]
    simp
  | cons u A ih =>
    intro B vis
    rw [List.cons_append, dfsRecL, dfsRecL]
    split
    · exact ih B vis
    · dsimp only
      rw [ih B _]
      simp

/-- Dropping work-list elements that are already visited does not change
the result. -/
theorem dfsRecL_filter (g : Graph α) (fuel : Nat) (p : Nat → Bool) :
    ∀ l vis, (∀ x, x ∈ l → p x = false → x ∈ vis) →
      dfsRecL g (fuel + 1) (l.filter p) vis = dfsRecL g (fuel + 1) l vis := by
  intro l
  induction l with
  | nil =>
    intro vis _
    rfl
  | cons u us ih =>
    intro vis hp
    by_cases hu : p u
    · rw [List.filter_cons_of_pos hu, dfsRecL, dfsRecL]
      split
      · exact ih vis (fun x hx hpx => hp x (List.mem_cons_of_mem u hx) hpx)
      · dsimp only
        rw [ih _ ?_]
        intro x hx hpx
        have := hp x (List.mem_cons_of_mem u hx) hpx
        exact dfsRecL_vis_mono g fuel (g.adj u) (u :: vis) x (List.mem_cons_of_mem u this)
    · have hpu : p u = false := by revert hu; cases p u <;> simp
      have huv : u ∈ vis := hp u (List.mem_cons_self u us) hpu
      rw [List.filter_cons_of_neg (by simp [hpu]), dfsRecL, if_pos huv]
      exact ih vis (fun x hx hpx => hp x (List.mem_cons_of_mem u hx) hpx)

/-- With more fuel than there are unvisited registered nodes, the fuel
does not influence the result. -/
theorem dfsRecL_fuel_irrel (g : Graph α) (hwf : AdjClosed g) :
    ∀ k, ∀ vis, unvisited g vis = k → ∀ l, (∀ x, x ∈ l → x ∈ g.nodes) →
      ∀ f1 f2, k < f1 → k < f2 →
        dfsRecL g f1 l vis = dfsRecL g f2 l vis := by
  intro k
  induction k using Nat.strong_induction_on with
  | _ k ihk =>
    intro vis hk l
    induction l with
    | nil =>
      intro _ f1 f2 _ _
      rw [dfsRecL, dfsRecL]
    | cons u us ihl =>
      intro hl f1 f2 h1 h2
      obtain ⟨f1p, rfl⟩ : ∃ m, f1 = m + 1 := ⟨f1 - 1, by omega⟩
      obtain ⟨f2p, rfl⟩ : ∃ m, f2 = m + 1 := ⟨f2 - 1, by omega⟩
      rw [dfsRecL, dfsRecL]
      by_cases hu : u ∈ vis
      · rw [if_pos hu, if_pos hu]
        exact ihl (fun x hx => hl x (List.mem_cons_of_mem u hx)) (f1p + 1) (f2p + 1) h1 h2
      · rw [if_neg hu, if_neg hu]
        dsimp only
        have humem : u ∈ g.nodes := hl u (List.mem_cons_self u us)
        have hklt : unvisited g (u :: vis) < k := by
          rw [← hk]
          exact unvisited_lt g vis u humem hu
        have hr1 : dfsRecL g f1p (g.adj u) (u :: vis) = dfsRecL g f2p (g.adj u) (u :: vis) :=
          ihk _ hklt (u :: vis) rfl (g.adj u) (fun x hx => hwf u humem x hx) f1p f2p
            (by omega) (by omega)
        rw [hr1]
        have hle : unvisited g (dfsRecL g f2p (g.adj u) (u :: vis)).1 ≤
            unvisited g (u :: vis) :=
          unvisited_anti g (u :: vis) _
            (fun x hx => dfsRecL_vis_mono g f2p (g.adj u) (u :: vis) x hx)
        have hr2 : dfsRecL g (f1p + 1) us (dfsRecL g f2p (g.adj u) (u :: vis)).1 =
            dfsRecL g (f2p + 1) us (dfsRecL g f2p (g.adj u) (u :: vis)).1 :=
          ihk (unvisited g (dfsRecL g f2p (g.adj u) (u :: vis)).1)
            (lt_of_le_of_lt hle hklt) _ rfl us
            (fun x hx => hl x (List.mem_cons_of_mem u hx)) (f1p + 1) (f2p + 1)
            (by omega) (by omega)
        rw [hr2]

/-! ### Layered view of the bfs queue (reference for claim C6)

`bfsRound` processes one generation of the queue: it visits the
first occurrence of every not-yet-visited entry (in queue order,
which is discovery order), and collects — in that same order — the
neighbour-list pushes that the flat loop appends behind the current
generation.  Iterating it yields the breadth-first layers, making
precise the spec's "non-decreasing distance, ties broken by neighbour
insertion order". -/
def bfsRound (g : Graph α) : List Nat → List Nat → List Nat × List Nat × List Nat
  | [], vis => ([], vis, [])
  | u :: todo, vis =>
    if u ∈ vis then bfsRound g todo vis
    else
      let r := bfsRound g todo (u :: vis)
      ((g.adj u).filter (fun x => decide (x ∉ u :: vis)) ++ r.1, r.2.1, u :: r.2.2)

/-- One flat-loop pass over the current generation equals one
`bfsRound`: spending `todo.length` fuel moves the round's pushes to the
queue, marks the round's nodes visited and appends them to the output. -/
theorem bfsLoop_round (g : Graph α) :
    ∀ todo nxt vis ord k,
      bfsLoop g (todo.length + k) (todo ++ nxt) vis ord =
        bfsLoop g k (nxt ++ (bfsRound g todo vis).1) (bfsRound g todo vis).2.1
          (ord ++ (bfsRound g todo vis).2.2) := by
  intro todo
  induction todo with
  | nil =>
    intro nxt vis ord k
    rw [show bfsRound g [] vis = ([], vis, []) from rfl]
    simp
  | cons u todo ih =>
    intro nxt vis ord k
    have hlen : (u :: todo).length + k = (todo.length + k) + 1 := by simp; omega
    rw [hlen, List.cons_append, bfsLoop]
    by_cases hu : u ∈ vis
    · rw [if_pos hu, ih nxt vis ord k]
      rw [show bfsRound g (u :: todo) vis = bfsRound g todo vis from by
        rw [bfsRound, if_pos hu]]
    · rw [if_neg hu]
      rw [List.append_assoc]
      rw [ih (nxt ++ (g.adj u).filter (fun x => decide (x ∉ u :: vis))) (u :: vis)
        (ord ++ [u]) k]
      rw [show bfsRound g (u :: todo) vis =
          ((g.adj u).filter (fun x => decide (x ∉ u :: vis)) ++
            (bfsRound g todo (u :: vis)).1,
           (bfsRound g todo (u :: vis)).2.1,
           u :: (bfsRound g todo (u :: vis)).2.2) from by
        rw [bfsRound, if_neg hu]]
      simp

/-- Membership bookkeeping for one round. -/
theorem bfsRound_spec (g : Graph α) :
    ∀ todo vis,
      (∀ x, x ∈ (bfsRound g todo vis).2.1 ↔ (x ∈ todo ∨ x ∈ vis)) ∧
      (∀ x, x ∈ (bfsRound g todo vis).2.2 ↔ (x ∈ todo ∧ x ∉ vis)) ∧
      (bfsRound g todo vis).2.2.Nodup ∧
      (∀ y, y ∈ (bfsRound g todo vis).1 → ∃ u, u ∈ todo ∧ y ∈ g.adj u) ∧
      (∀ u y, u ∈ todo → u ∉ vis → y ∈ g.adj u →
        y ∈ (bfsRound g todo vis).1 ∨ y ∈ (bfsRound g todo vis).2.1) := by
  intro todo
  induction todo with
  | nil =>
    intro vis
    rw [show bfsRound g [] vis = ([], vis, []) from rfl]
    refine ⟨by simp, by simp, List.nodup_nil, ?_, ?_⟩
    · intro y hy
      exact absurd hy (List.not_mem_nil y)
    · intro u y hu _ _
      exact absurd hu (List.not_mem_nil u)
  | cons u todo ih =>
    intro vis
    by_cases hu : u ∈ vis
    · rw [show bfsRound g (u :: todo) vis = bfsRound g todo vis from by
        rw [bfsRound, if_pos hu]]
      obtain ⟨c1, c2, c3, c4, c5⟩ := ih vis
      refine ⟨?_, ?_, c3, ?_, ?_⟩
      · intro x
        rw [c1 x, List.mem_cons]
        constructor
        · tauto
        · rintro (h | h)
          · rcases h with rfl | h
            · exact Or.inr hu
            · exact Or.inl h
          · exact Or.inr h
      · intro x
        rw [c2 x, List.mem_cons]
        constructor
        · tauto
        · rintro ⟨h1 | h1, h2⟩
          · subst h1
            exact absurd hu h2
          · exact ⟨h1, h2⟩
      · intro y hy
        obtain ⟨w, hw1, hw2⟩ := c4 y hy
        exact ⟨w, List.mem_cons_of_mem u hw1, hw2⟩
      · intro w y hw hwv hy
        rcases List.mem_cons.mp hw with rfl | hw
        · exact absurd hu hwv
        · exact c5 w y hw hwv hy
    · rw [show bfsRound g (u :: todo) vis =
          ((g.adj u).filter (fun x => decide (x ∉ u :: vis)) ++
            (bfsRound g todo (u :: vis)).1,
           (bfsRound g todo (u :: vis)).2.1,
           u :: (bfsRound g todo (u :: vis)).2.2) from by
        rw [bfsRound, if_neg hu]]
      obtain ⟨c1, c2, c3, c4, c5⟩ := ih (u :: vis)
      refine ⟨?_, ?_, ?_, ?_, ?_⟩
      · intro x
        dsimp only
        rw [c1 x, List.mem_cons, List.mem_cons]
        tauto
      · intro x
        dsimp only
        rw [List.mem_cons, c2 x]
        simp only [List.mem_cons, not_or]
        constructor
        · rintro (rfl | ⟨h1, h2, h3⟩)
          · exact ⟨Or.inl rfl, hu⟩
          · exact ⟨Or.inr h1, h3⟩
        · rintro ⟨h1 | h1, h2⟩
          · exact Or.inl h1
          · by_cases hxu : x = u
            · exact Or.inl hxu
            · exact Or.inr ⟨h1, hxu, h2⟩
      · dsimp only
        rw [List.nodup_cons]
        refine ⟨?_, c3⟩
        intro hmem
        exact ((c2 u).mp hmem).2 (List.mem_cons_self u vis)
      · intro y hy
        dsimp only at hy
        rcases List.mem_append.mp hy with hy | hy
        · exact ⟨u, List.mem_cons_self u todo, List.mem_of_mem_filter hy⟩
        · obtain ⟨w, hw1, hw2⟩ := c4 y hy
          exact ⟨w, List.mem_cons_of_mem u hw1, hw2⟩
      · intro w y hw hwv hy
        dsimp only
        rcases List.mem_cons.mp hw with rfl | hw
        · by_cases hyv : y ∈ w :: vis
          · refine Or.inr ((c1 y).mpr (Or.inr hyv))
          · refine Or.inl (List.mem_append.mpr (Or.inl ?_))
            rw [List.mem_filter]
            exact ⟨hy, by simpa using hyv⟩
        · by_cases hwu : w = u
          · subst hwu
            by_cases hyv : y ∈ w :: vis
            · exact Or.inr ((c1 y).mpr (Or.inr hyv))
            · refine Or.inl (List.mem_append.mpr (Or.inl ?_))
              rw [List.mem_filter]
              exact ⟨hy, by simpa using hyv⟩
          · have hwv2 : w ∉ u :: vis := by
              intro hmem2
              rcases List.mem_cons.mp hmem2 with h | h
              · exact hwu h
              · exact hwv h
            rcases c5 w y hw hwv2 hy with h | h
            · exact Or.inl (List.mem_append.mpr (Or.inr h))
            · exact Or.inr h

/-- When the whole generation was already visited, the round is inert. -/
theorem bfsRound_all_visited (g : Graph α) :
    ∀ todo vis, (∀ x, x ∈ todo → x ∈ vis) →
      bfsRound g todo vis = ([], vis, []) := by
  intro todo
  induction todo with
  | nil =>
    intro vis _
    rfl
  | cons u todo ih =>
    intro vis h
    rw [bfsRound, if_pos (h u (List.mem_cons_self u todo))]
    exact ih vis (fun x hx => h x (List.mem_cons_of_mem u hx))

/-- `x` lies strictly closer than `k` hops to `s`. -/
def Ball (g : Graph α) (s k x : Nat) : Prop := ∃ j, j < k ∧ HopLen g s x j

/-- The minimum hop distance from `s` to `x` is exactly `k`. -/
def ExactHop (g : Graph α) (s k x : Nat) : Prop := HopLen g s x k ∧ ¬Ball g s k x

theorem hopLen_pred {g : Graph α} {s y k : Nat} (h : HopLen g s y (k + 1)) :
    ∃ x, HopLen g s x k ∧ y ∈ g.adj x := by
  cases h with
  | step hw hadj => exact ⟨_, hw, hadj⟩

/-- The invariant tying a generation of the queue to the hop-distance
`k` it is about to visit. -/
structure RoundInv (g : Graph α) (s k : Nat) (todo vis : List Nat) : Prop where
  visIff : ∀ x, x ∈ vis ↔ Ball g s k x
  todoLe : ∀ x, x ∈ todo → ∃ j, j ≤ k ∧ HopLen g s x j
  todoCover : ∀ x, HopLen g s x k → x ∈ todo ∨ Ball g s k x

theorem roundInv_step (g : Graph α) (s k : Nat) (todo vis : List Nat)
    (h : RoundInv g s k todo vis) :
    RoundInv g s (k + 1) (bfsRound g todo vis).1 (bfsRound g todo vis).2.1 ∧
    (∀ x, x ∈ (bfsRound g todo vis).2.2 ↔ ExactHop g s k x) := by
  obtain ⟨c1, c2, c3, c4, c5⟩ := bfsRound_spec g todo vis
  have hout : ∀ x, x ∈ (bfsRound g todo vis).2.2 ↔ ExactHop g s k x := by
    intro x
    rw [c2 x]
    constructor
    · rintro ⟨h1, h2⟩
      have hball : ¬Ball g s k x := fun hb => h2 ((h.visIff x).mpr hb)
      obtain ⟨j, hj, hw⟩ := h.todoLe x h1
      have hjk : j = k := by
        rcases Nat.lt_or_ge j k with hlt | hge
        · exact absurd ⟨j, hlt, hw⟩ hball
        · omega
      subst hjk
      exact ⟨hw, hball⟩
    · rintro ⟨h1, h2⟩
      rcases h.todoCover x h1 with ht | hb
      · exact ⟨ht, fun hv => h2 ((h.visIff x).mp hv)⟩
      · exact absurd hb h2
  refine ⟨⟨?_, ?_, ?_⟩, hout⟩
  · intro x
    rw [c1 x]
    constructor
    · rintro (ht | hv)
      · obtain ⟨j, hj, hw⟩ := h.todoLe x ht
        exact ⟨j, by omega, hw⟩
      · obtain ⟨j, hj, hw⟩ := (h.visIff x).mp hv
        exact ⟨j, by omega, hw⟩
    · rintro ⟨j, hj, hw⟩
      rcases Nat.lt_or_ge j k with hlt | hge
      · exact Or.inr ((h.visIff x).mpr ⟨j, hlt, hw⟩)
      · have hjk : j = k := by omega
        subst hjk
        rcases h.todoCover x hw with ht | hb
        · exact Or.inl ht
        · exact Or.inr ((h.visIff x).mpr hb)
  · intro y hy
    obtain ⟨u, hu, hadj⟩ := c4 y hy
    obtain ⟨j, hj, hw⟩ := h.todoLe u hu
    exact ⟨j + 1, by omega, hw.step hadj⟩
  · intro y hy
    obtain ⟨x, hx, hadj⟩ := hopLen_pred hy
    rcases h.todoCover x hx with ht | hb
    · by_cases hxv : x ∈ vis
      · obtain ⟨j, hj, hw⟩ := (h.visIff x).mp hxv
        exact Or.inr ⟨j + 1, by omega, hw.step hadj⟩
      · rcases c5 x y ht hxv hadj with hnxt | hvis
        · exact Or.inl hnxt
        · rcases (c1 y).mp hvis with hyt | hyv
          · obtain ⟨j, hj, hw⟩ := h.todoLe y hyt
            exact Or.inr ⟨j, by omega, hw⟩
          · obtain ⟨j, hj, hw⟩ := (h.visIff y).mp hyv
            exact Or.inr ⟨j, by omega, hw⟩
    · obtain ⟨j, hj, hw⟩ := hb
      exact Or.inr ⟨j + 1, by omega, hw.step hadj⟩

theorem no_exact_beyond (g : Graph α) (s k : Nat)
    (h : ∀ x, HopLen g s x k → Ball g s k x) :
    ∀ K x, HopLen g s x (k + K) → Ball g s (k + K) x := by
  intro K
  induction K with
  | zero => exact fun x hx => h x hx
  | succ K ih =>
    intro y hy
    obtain ⟨x, hx, hadj⟩ := hopLen_pred hy
    obtain ⟨j, hj, hw⟩ := ih x hx
    exact ⟨j + 1, by omega, hw.step hadj⟩

/-- The breadth-first layers: iterated rounds until the queue
generation is empty (with fuel, shown sufficient below). -/
def bfsLayers (g : Graph α) : Nat → List Nat → List Nat → List (List Nat)
  | 0, _, _ => []
  | R + 1, todo, vis =>
    if todo = [] then []
    else (bfsRound g todo vis).2.2 ::
      bfsLayers g R (bfsRound g todo vis).1 (bfsRound g todo vis).2.1

theorem bfsLayers_nil (g : Graph α) (R : Nat) (vis : List Nat) :
    bfsLayers g R [] vis = [] := by
  cases R with
  | zero => rfl
  | succ R => rw [bfsLayers, if_pos rfl]

/-- The `(todo, vis)` pair after `R` rounds. -/
def roundState (g : Graph α) : Nat → List Nat × List Nat → List Nat × List Nat
  | 0, st => st
  | R + 1, st =>
    if st.1 = [] then st
    else roundState g R ((bfsRound g st.1 st.2).1, (bfsRound g st.1 st.2).2.1)

theorem roundState_absorb (g : Graph α) :
    ∀ R st, st.1 = [] → roundState g R st = st := by
  intro R
  induction R with
  | zero => intro st _; rfl
  | succ R ih =>
    intro st h
    rw [roundState, if_pos h]

theorem roundState_add (g : Graph α) :
    ∀ R m st, roundState g (R + m) st = roundState g m (roundState g R st) := by
  intro R
  induction R with
  | zero =>
    intro m st
    rw [Nat.zero_add]
    rfl
  | succ R ih =>
    intro m st
    have harith : R + 1 + m = (R + m) + 1 := by omega
    rw [harith]
    by_cases h : st.1 = []
    · rw [roundState, if_pos h, show roundState g (R + 1) st = st from by
        rw [roundState, if_pos h], roundState_absorb g m st h]
    · rw [roundState, if_neg h, ih, roundState, if_neg h]

theorem bfsRound_nodes (g : Graph α) (hwf : AdjClosed g) (todo vis : List Nat)
    (htodo : ∀ x, x ∈ todo → x ∈ g.nodes) :
    ∀ y, y ∈ (bfsRound g todo vis).1 → y ∈ g.nodes := by
  intro y hy
  obtain ⟨u, hu, hadj⟩ := (bfsRound_spec g todo vis).2.2.2.1 y hy
  exact hwf u (htodo u hu) y hadj

theorem rounds_drain (g : Graph α) (hwf : AdjClosed g) :
    ∀ a todo vis, unvisited g vis = a → (∀ x, x ∈ todo → x ∈ g.nodes) →
      ∃ R, (roundState g R (todo, vis)).1 = [] := by
  intro a
  induction a using Nat.strong_induction_on with
  | _ a iha =>
    intro todo vis ha htodo
    by_cases htodo0 : todo = []
    · exact ⟨0, htodo0⟩
    · by_cases hall : ∀ x, x ∈ todo → x ∈ vis
      · refine ⟨1, ?_⟩
        rw [roundState, if_neg htodo0, bfsRound_all_visited g todo vis hall]
        rfl
      · push_neg at hall
        obtain ⟨x, hx, hxv⟩ := hall
        have hxn : x ∈ g.nodes := htodo x hx
        have hsub : ∀ z, z ∈ x :: vis → z ∈ (bfsRound g todo vis).2.1 := by
          intro z hz
          rcases List.mem_cons.mp hz with rfl | hz
          · exact ((bfsRound_spec g todo vis).1 z).mpr (Or.inl hx)
          · exact ((bfsRound_spec g todo vis).1 z).mpr (Or.inr hz)
        have hlt : unvisited g (bfsRound g todo vis).2.1 < a := by
          calc unvisited g (bfsRound g todo vis).2.1
              ≤ unvisited g (x :: vis) := unvisited_anti g (x :: vis) _ hsub
            _ < unvisited g vis := unvisited_lt g vis x hxn hxv
            _ = a := ha
        obtain ⟨R, hR⟩ := iha _ hlt (bfsRound g todo vis).1 (bfsRound g todo vis).2.1 rfl
          (bfsRound_nodes g hwf todo vis htodo)
        refine ⟨R + 1, ?_⟩
        have harith : R + 1 = 1 + R := by omega
        rw [harith, roundState_add]
        rw [show roundState g 1 (todo, vis) =
            ((bfsRound g todo vis).1, (bfsRound g todo vis).2.1) from by
          rw [roundState, if_neg htodo0]; rfl]
        exact hR

/-- A drained round sequence gives a drained flat run whose output is
the concatenation of the layers. -/
theorem flat_eq_rounds (g : Graph α) :
    ∀ R todo vis ord, (roundState g R (todo, vis)).1 = [] →
      ∃ n, (bfsLoop g n todo vis ord).1 = [] ∧
        (bfsLoop g n todo vis ord).2.2 = ord ++ (bfsLayers g R todo vis).flatten := by
  intro R
  induction R with
  | zero =>
    intro todo vis ord hdr
    have htodo : todo = [] := hdr
    subst htodo
    exact ⟨0, rfl, by simp [bfsLayers_nil, bfsLoop]⟩
  | succ R ih =>
    intro todo vis ord hdr
    by_cases htodo0 : todo = []
    · subst htodo0
      exact ⟨0, rfl, by simp [bfsLayers_nil, bfsLoop]⟩
    · rw [roundState, if_neg htodo0] at hdr
      obtain ⟨n2, hn2a, hn2b⟩ := ih (bfsRound g todo vis).1 (bfsRound g todo vis).2.1
        (ord ++ (bfsRound g todo vis).2.2) hdr
      refine ⟨todo.length + n2, ?_, ?_⟩
      · have := bfsLoop_round g todo [] vis ord n2
        rw [List.append_nil] at this
        rw [this, List.nil_append]
        exact hn2a
      · have := bfsLoop_round g todo [] vis ord n2
        rw [List.append_nil] at this
        rw [this, List.nil_append, hn2b]
        rw [bfsLayers, if_neg htodo0]
        simp

/-- With enough fuel, layer `K` of the iterated rounds holds exactly the
nodes at hop distance `k + K`. -/
theorem bfsLayers_complete (g : Graph α) (s : Nat) (hwf : AdjClosed g) :
    ∀ fuel todo vis k, RoundInv g s k todo vis →
      (∀ x, x ∈ todo → x ∈ g.nodes) → unvisited g vis + 2 ≤ fuel →
      ∀ K x, x ∈ (bfsLayers g fuel todo vis).getD K [] ↔ ExactHop g s (k + K) x := by
  intro fuel
  induction fuel using Nat.strong_induction_on with
  | _ fuel ihf =>
    intro todo vis k hinv htodo hfuel K x
    obtain ⟨f, rfl⟩ : ∃ m, fuel = m + 1 := ⟨fuel - 1, by omega⟩
    have hnoexact : (∀ z, HopLen g s z k → Ball g s k z) →
        ∀ K2 z, ¬ExactHop g s (k + K2) z := by
      intro hbase K2 z hz
      exact hz.2 (no_exact_beyond g s k hbase K2 z hz.1)
    by_cases htodo0 : todo = []
    · subst htodo0
      rw [bfsLayers_nil]
      have hbase : ∀ z, HopLen g s z k → Ball g s k z := by
        intro z hz
        rcases hinv.todoCover z hz with ht | hb
        · exact absurd ht (List.not_mem_nil z)
        · exact hb
      constructor
      · intro hx
        simp [List.getD] at hx
      · intro hx
        exact absurd hx (hnoexact hbase K x)
    · by_cases hall : ∀ z, z ∈ todo → z ∈ vis
      · rw [bfsLayers, if_neg htodo0, bfsRound_all_visited g todo vis hall]
        have hbase : ∀ z, HopLen g s z k → Ball g s k z := by
          intro z hz
          rcases hinv.todoCover z hz with ht | hb
          · exact (hinv.visIff z).mp (hall z ht)
          · exact hb
        cases K with
        | zero =>
          simp only [List.getD_cons_zero]
          constructor
          · intro hx
            exact absurd hx (List.not_mem_nil x)
          · intro hx
            exact absurd hx (hnoexact hbase 0 x)
        | succ K =>
          rw [List.getD_cons_succ, bfsLayers_nil]
          constructor
          · intro hx
            simp [List.getD] at hx
          · intro hx
            exact absurd hx (hnoexact hbase (K + 1) x)
      · push_neg at hall
        obtain ⟨z0, hz0, hz0v⟩ := hall
        rw [bfsLayers, if_neg htodo0]
        obtain ⟨hinv2, hout⟩ := roundInv_step g s k todo vis hinv
        cases K with
        | zero =>
          rw [List.getD_cons_zero]
          rw [Nat.add_zero]
          exact hout x
        | succ K =>
          rw [List.getD_cons_succ]
          have hsub : ∀ w, w ∈ z0 :: vis → w ∈ (bfsRound g todo vis).2.1 := by
            intro w hw
            rcases List.mem_cons.mp hw with rfl | hw
            · exact ((bfsRound_spec g todo vis).1 w).mpr (Or.inl hz0)
            · exact ((bfsRound_spec g todo vis).1 w).mpr (Or.inr hw)
          have hlt : unvisited g (bfsRound g todo vis).2.1 < unvisited g vis := by
            calc unvisited g (bfsRound g todo vis).2.1
                ≤ unvisited g (z0 :: vis) := unvisited_anti g (z0 :: vis) _ hsub
              _ < unvisited g vis := unvisited_lt g vis z0 (htodo z0 hz0) hz0v
          have hres := ihf f (by omega) (bfsRound g todo vis).1 (bfsRound g todo vis).2.1
            (k + 1) hinv2 (bfsRound_nodes g hwf todo vis htodo) (by omega) K x
          have harith : k + 1 + K = k + (K + 1) := by omega
          rwa [harith] at hres
theorem bfsLoop_final (g : Graph α) (s n : Nat)
    (hend : (bfsLoop g n [s] [] []).1 = []) :
    (∀ x, x ∈ (bfsLoop g n [s] [] []).2.2 ↔ Reach g s x) ∧
    (bfsLoop g n [s] [] []).2.2.Nodup := by
  obtain ⟨c1, c2, c3, c4, c5, c6⟩ := bfsLoop_invariant g s n [s] [] []
    (by intro x; simp) List.nodup_nil (fun x hx => absurd hx (List.not_mem_nil x))
    (by intro x hx; rcases List.mem_singleton.mp hx with rfl; exact Reach.refl)
    (fun u hu => absurd hu (List.not_mem_nil u))
  have hs : s ∈ (bfsLoop g n [s] [] []).2.1 := by
    rcases c5 s (List.mem_singleton_self s) with h | h
    · exact h
    · rw [hend] at h
      exact absurd h (List.not_mem_nil s)
  refine ⟨?_, c2⟩
  intro x
  rw [← c1 x]
  constructor
  · exact c3 x
  · intro hr
    induction hr with
    | refl => exact hs
    | step hr hadj ihr =>
      rcases c4 _ ihr _ hadj with h | h
      · exact h
      · rw [hend] at h
        exact absurd h (List.not_mem_nil _)

/-- After the stack has drained, the `dfs` output is exactly the
reachable set, without duplicates. -/
theorem dfsLoop_final (g : Graph α) (s n : Nat)
    (hend : (dfsLoop g n [s] [] []).1 = []) :
    (∀ x, x ∈ (dfsLoop g n [s] [] []).2.2 ↔ Reach g s x) ∧
    (dfsLoop g n [s] [] []).2.2.Nodup := by
  obtain ⟨c1, c2, c3, c4, c5, c6⟩ := dfsLoop_invariant g s n [s] [] []
    (by intro x; simp) List.nodup_nil (fun x hx => absurd hx (List.not_mem_nil x))
    (by intro x hx; rcases List.mem_singleton.mp hx with rfl; exact Reach.refl)
    (fun u hu => absurd hu (List.not_mem_nil u))
  have hs : s ∈ (dfsLoop g n [s] [] []).2.1 := by
    rcases c5 s (List.mem_singleton_self s) with h | h
    · exact h
    · rw [hend] at h
      exact absurd h (List.not_mem_nil s)
  refine ⟨?_, c2⟩
  intro x
  rw [← c1 x]
  constructor
  · exact c3 x
  · intro hr
    induction hr with
    | refl => exact hs
    | step hr hadj ihr =>
      rcases c4 _ ihr _ hadj with h | h
      · exact h
      · rw [hend] at h
        exact absurd h (List.not_mem_nil _)

theorem unvisited_nil (g : Graph α) : unvisited g [] = g.nodes.length := by
  unfold unvisited
  simp

/-- The drained `dfs` stack loop computes exactly the recursive
pre-order traversal. -/
theorem dfsLoop_eq_rec (g : Graph α) (hwf : AdjClosed g) :
    ∀ n S vis ord, (dfsLoop g n S vis ord).1 = [] → (∀ x, x ∈ S → x ∈ g.nodes) →
      ∀ F, unvisited g vis < F →
      (dfsLoop g n S vis ord).2.1 = (dfsRecL g F S vis).1 ∧
      (dfsLoop g n S vis ord).2.2 = ord ++ (dfsRecL g F S vis).2 := by
  intro n
  induction n with
  | zero =>
    intro S vis ord hend hS F hF
    have hS0 : S = [] := hend
    subst hS0
    obtain ⟨F2, rfl⟩ : ∃ m, F = m + 1 := ⟨F - 1, by omega⟩
    rw [show dfsRecL g (F2 + 1) ([] : List Nat) vis = (vis, []) from by rw [dfsRecL]]
    exact ⟨rfl, by simp [show dfsLoop g 0 ([] : List Nat) vis ord = ([], vis, ord) from rfl]⟩
  | succ n ih =>
    intro S vis ord hend hS F hF
    obtain ⟨F2, rfl⟩ : ∃ m, F = m + 1 := ⟨F - 1, by omega⟩
    match S with
    | [] =>
      rw [dfsLoop_nil]
      rw [show dfsRecL g (F2 + 1) ([] : List Nat) vis = (vis, []) from by rw [dfsRecL]]
      exact ⟨rfl, by simp⟩
    | u :: S2 =>
      by_cases hu : u ∈ vis
      · rw [dfsLoop, if_pos hu] at hend ⊢
        rw [dfsRecL, if_pos hu]
        exact ih S2 vis ord hend (fun x hx => hS x (List.mem_cons_of_mem u hx)) (F2 + 1) hF
      · rw [dfsLoop, if_neg hu, dfs_push_eq] at hend ⊢
        have humem : u ∈ g.nodes := hS u (List.mem_cons_self u S2)
        have hlt : unvisited g (u :: vis) < F2 := by
          have := unvisited_lt g vis u humem hu
          omega
        have hS2 : ∀ x, x ∈ (g.adj u).filter (fun y => decide (y ∉ u :: vis)) ++ S2 →
            x ∈ g.nodes := by
          intro x hx
          rcases List.mem_append.mp hx with hx | hx
          · exact hwf u humem x (List.mem_of_mem_filter hx)
          · exact hS x (List.mem_cons_of_mem u hx)
        have hind := ih _ (u :: vis) (ord ++ [u]) hend hS2 (F2 + 1) (by omega)
        have happ := dfsRecL_append g F2
          ((g.adj u).filter (fun y => decide (y ∉ u :: vis))) S2 (u :: vis)
        have hfilter : dfsRecL g (F2 + 1)
            ((g.adj u).filter (fun y => decide (y ∉ u :: vis))) (u :: vis) =
            dfsRecL g (F2 + 1) (g.adj u) (u :: vis) := by
          refine dfsRecL_filter g F2 _ (g.adj u) (u :: vis) ?_
          intro x _ hpx
          rw [List.mem_cons]
          by_cases hxu : x = u
          · exact Or.inl hxu
          · exact Or.inr ((by simpa using hpx : ¬x = u → x ∈ vis) hxu)
        have hfuel : dfsRecL g (F2 + 1) (g.adj u) (u :: vis) =
            dfsRecL g F2 (g.adj u) (u :: vis) :=
          dfsRecL_fuel_irrel g hwf (unvisited g (u :: vis)) (u :: vis) rfl (g.adj u)
            (fun x hx => hwf u humem x hx) (F2 + 1) F2 (by omega) hlt
        rw [dfsRecL, if_neg hu]
        dsimp only
        rw [happ, hfilter, hfuel] at hind
        refine ⟨hind.1, ?_⟩
        rw [hind.2]
        simp

/-- The recursive pre-order traversal of the whole graph from `s`, with
fuel that the adequacy lemmas show is never exhausted. -/
def dfsPre (g : Graph α) (s : Nat) : List Nat :=
  (dfsRecL g (g.nodes.length + 1) [s] []).2

/-! ## Concrete traversal example graphs -/

/-- The spec's Dijkstra example: an undirected graph on nodes
`1 = A, 2 = B, 3 = C, 4 = Z` with weighted edges A–B (1), B–C (2),
A–C (5) and `Z` isolated.  It contains the cycle A–B–C–A. -/
def gDijEx : Graph Nat :=
  (addEdge ((addEdge ((addEdge (addNode id (addNode id (addNode id (addNode id
    (emptyGraph Nat false) 1) 2) 3) 4) 1 2 (some 1)).1) 2 3 (some 2)).1) 1 3 (some 5)).1

theorem gDijEx_nodes : gDijEx.nodes = [1, 2, 3, 4] := by decide

theorem gDijEx_adj1 : gDijEx.adj 1 = [2, 3] := by decide
theorem gDijEx_adj2 : gDijEx.adj 2 = [1, 3] := by decide
theorem gDijEx_adj3 : gDijEx.adj 3 = [2, 1] := by decide
theorem gDijEx_adj4 : gDijEx.adj 4 = [] := by decide

theorem adjClosed_gDijEx : AdjClosed gDijEx := by
  intro u hu v hv
  rw [gDijEx_nodes] at hu ⊢
  have hu4 : u = 1 ∨ u = 2 ∨ u = 3 ∨ u = 4 := by simpa using hu
  rcases hu4 with rfl | rfl | rfl | rfl
  · rw [gDijEx_adj1] at hv
    rcases (by simpa using hv : v = 2 ∨ v = 3) with rfl | rfl <;> decide
  · rw [gDijEx_adj2] at hv
    rcases (by simpa using hv : v = 1 ∨ v = 3) with rfl | rfl <;> decide
  · rw [gDijEx_adj3] at hv
    rcases (by simpa using hv : v = 2 ∨ v = 1) with rfl | rfl <;> decide
  · rw [gDijEx_adj4] at hv
    cases hv

/-- The spec's chain example: a directed graph `1 → 2 → 3 → 4`
(`A→B→C→D`). -/
def gChain : Graph Nat :=
  (addEdge ((addEdge ((addEdge (addNode id (addNode id (addNode id (addNode id
    (emptyGraph Nat true) 1) 2) 3) 4) 1 2 none).1) 2 3 none).1) 3 4 none).1

theorem gChain_nodes : gChain.nodes = [1, 2, 3, 4] := by decide

theorem gChain_adj1 : gChain.adj 1 = [2] := by decide
theorem gChain_adj2 : gChain.adj 2 = [3] := by decide
theorem gChain_adj3 : gChain.adj 3 = [4] := by decide
theorem gChain_adj4 : gChain.adj 4 = [] := by decide

theorem adjClosed_gChain : AdjClosed gChain := by
  intro u hu v hv
  rw [gChain_nodes] at hu ⊢
  have hu4 : u = 1 ∨ u = 2 ∨ u = 3 ∨ u = 4 := by simpa using hu
  rcases hu4 with rfl | rfl | rfl | rfl
  · rw [gChain_adj1] at hv
    rcases (by simpa using hv : v = 2) with rfl <;> decide
  · rw [gChain_adj2] at hv
    rcases (by simpa using hv : v = 3) with rfl <;> decide
  · rw [gChain_adj3] at hv
    rcases (by simpa using hv : v = 4) with rfl <;> decide
  · rw [gChain_adj4] at hv
    cases hv

/-! ## Claim C8: traversal termination -/

/-- Claim C8: on every graph whose stored adjacency stays inside the
(finite) registered node set — cyclic adjacency included — both the
`bfs` queue and the `dfs` stack drain after finitely many iterations:
some fuel empties the frontier, and any larger fuel leaves the final
state unchanged, so neither traversal loops forever. -/
theorem traversals_terminate (g : Graph α) (s : Nat)
    (hwf : AdjClosed g) (hs : s ∈ g.nodes) :
    (∃ n, ∀ m, n ≤ m → (bfsLoop g m [s] [] []).1 = [] ∧
        bfsLoop g m [s] [] [] = bfsLoop g n [s] [] []) ∧
    (∃ n, ∀ m, n ≤ m → (dfsLoop g m [s] [] []).1 = [] ∧
        dfsLoop g m [s] [] [] = dfsLoop g n [s] [] []) := by
  have hmem : ∀ x, x ∈ [s] → x ∈ g.nodes := by
    intro x hx
    rcases List.mem_singleton.mp hx with rfl
    exact hs
  constructor
  · obtain ⟨n, hn⟩ := bfsLoop_drains g hwf (unvisited g []) [s] [] [] rfl hmem
    refine ⟨n, fun m hm => ?_⟩
    have heq := bfsLoop_mono g n [s] [] [] hn m hm
    exact ⟨by rw [heq]; exact hn, heq⟩
  · obtain ⟨n, hn⟩ := dfsLoop_drains g hwf (unvisited g []) [s] [] [] rfl hmem
    refine ⟨n, fun m hm => ?_⟩
    have heq := dfsLoop_mono g n [s] [] [] hn m hm
    exact ⟨by rw [heq]; exact hn, heq⟩

/-- Modelled from the spec (claim C6): the emission order of a
breadth-first generation — candidates are scanned left to right, the
first occurrence of each new node is kept, and candidates already
emitted earlier (the `seen` list) are skipped. -/
def dedupSeq : List Nat → List Nat → List Nat
  | [], _ => []
  | x :: xs, seen =>
    if x ∈ seen then dedupSeq xs seen else x :: dedupSeq xs (x :: seen)

theorem bfsRound_out_eq_dedup (g : Graph α) :
    ∀ todo vis, (bfsRound g todo vis).2.2 = dedupSeq todo vis := by
  intro todo
  induction todo with
  | nil =>
    intro vis
    rfl
  | cons u todo ih =>
    intro vis
    rw [bfsRound, dedupSeq]
    by_cases hu : u ∈ vis
    · rw [if_pos hu, if_pos hu]
      exact ih vis
    · rw [if_neg hu, if_neg hu]
      show u :: (bfsRound g todo (u :: vis)).2.2 = u :: dedupSeq todo (u :: vis)
      rw [ih (u :: vis)]

theorem dedupSeq_filter :
    ∀ n (l seen : List Nat), l.length = n →
      dedupSeq l seen = dedupSeq (l.filter (fun y => decide (y ∉ seen))) seen := by
  intro n
  induction n using Nat.strong_induction_on with
  | _ n ih =>
    intro l seen hlen
    match l with
    | [] => rfl
    | x :: xs =>
      rw [dedupSeq, List.filter_cons]
      by_cases hx : x ∈ seen
      · have hdx : decide (x ∉ seen) = false := by simp [hx]
        rw [if_pos hx, hdx]
        simp only [Bool.false_eq_true, if_false]
        exact ih xs.length (by simp at hlen; omega) xs seen rfl
      · have hdx : decide (x ∉ seen) = true := by simp [hx]
        rw [if_neg hx, hdx, if_pos rfl, dedupSeq, if_neg hx]
        have h1 := ih xs.length (by simp at hlen; omega) xs (x :: seen) rfl
        have h2 := ih (xs.filter (fun y => decide (y ∉ seen))).length
          (by have := List.length_filter_le (fun y => decide (y ∉ seen)) xs
              simp at hlen; omega)
          (xs.filter (fun y => decide (y ∉ seen))) (x :: seen) rfl
        have h3 : (xs.filter (fun y => decide (y ∉ seen))).filter
            (fun y => decide (y ∉ x :: seen)) =
            xs.filter (fun y => decide (y ∉ x :: seen)) := by
          rw [List.filter_filter]
          refine List.filter_congr ?_
          intro a _
          by_cases ha : a ∈ x :: seen <;> by_cases ha2 : a ∈ seen <;>
            simp_all [List.mem_cons]
        rw [h1, h2, h3]

theorem dedupSeq_seen_congr :
    ∀ (l s1 s2 : List Nat), (∀ x, x ∈ s1 ↔ x ∈ s2) →
      dedupSeq l s1 = dedupSeq l s2 := by
  intro l
  induction l with
  | nil =>
    intro s1 s2 _
    rfl
  | cons x xs ih =>
    intro s1 s2 hset
    rw [dedupSeq, dedupSeq]
    by_cases hx : x ∈ s1
    · rw [if_pos hx, if_pos ((hset x).mp hx)]
      exact ih s1 s2 hset
    · rw [if_neg hx, if_neg (fun h => hx ((hset x).mpr h))]
      refine congrArg (List.cons x) (ih (x :: s1) (x :: s2) ?_)
      intro y
      rw [List.mem_cons, List.mem_cons, hset y]

theorem bfsRound_pushes_filter (g : Graph α) :
    ∀ todo vis (V : List Nat), (∀ x, x ∈ (bfsRound g todo vis).2.1 → x ∈ V) →
      (bfsRound g todo vis).1.filter (fun y => decide (y ∉ V)) =
        (((bfsRound g todo vis).2.2).map (fun u => g.adj u)).flatten.filter
          (fun y => decide (y ∉ V)) := by
  intro todo
  induction todo with
  | nil =>
    intro vis V _
    rfl
  | cons u todo ih =>
    intro vis V hV
    rw [bfsRound] at hV ⊢
    by_cases hu : u ∈ vis
    · rw [if_pos hu] at hV ⊢
      exact ih vis V hV
    · rw [if_neg hu] at hV ⊢
      have hV2 : ∀ x, x ∈ (bfsRound g todo (u :: vis)).2.1 → x ∈ V := hV
      have hsub : ∀ y, y ∈ u :: vis → y ∈ V := by
        intro y hy
        exact hV2 y (((bfsRound_spec g todo (u :: vis)).1 y).mpr (Or.inr hy))
      show ((g.adj u).filter (fun x => decide (x ∉ u :: vis)) ++
          (bfsRound g todo (u :: vis)).1).filter (fun y => decide (y ∉ V)) =
        ((u :: (bfsRound g todo (u :: vis)).2.2).map (fun u => g.adj u)).flatten.filter
          (fun y => decide (y ∉ V))
      rw [List.filter_append, List.map_cons, List.flatten_cons, List.filter_append]
      congr 1
      · rw [List.filter_filter]
        refine List.filter_congr ?_
        intro a _
        by_cases ha : a ∈ V
        · simp [ha]
        · have ha2 : a ∉ u :: vis := fun h => ha (hsub a h)
          simp [ha, ha2]
      · exact ih (u :: vis) V hV2

theorem exactHop_exists (g : Graph α) (s : Nat) :
    ∀ j x, HopLen g s x j → ∃ j2, j2 ≤ j ∧ ExactHop g s j2 x := by
  intro j
  induction j using Nat.strong_induction_on with
  | _ j ih =>
    intro x hx
    by_cases hb : Ball g s j x
    · obtain ⟨j3, hj3, hw3⟩ := hb
      obtain ⟨j2, hj2, he⟩ := ih j3 hj3 x hw3
      exact ⟨j2, by omega, he⟩
    · exact ⟨j, le_refl j, hx, hb⟩

theorem take_flatten_mem :
    ∀ (L : List (List Nat)) (m : Nat) (x : Nat),
      x ∈ (L.take m).flatten ↔ ∃ j, j < m ∧ x ∈ L.getD j [] := by
  intro L
  induction L with
  | nil =>
    intro m x
    constructor
    · intro h
      rw [List.take_nil] at h
      exact absurd h (by simp)
    · rintro ⟨j, _, hj⟩
      rw [List.getD_nil] at hj
      exact absurd hj (List.not_mem_nil x)
  | cons a L ih =>
    intro m x
    cases m with
    | zero =>
      constructor
      · intro h
        exact absurd h (by simp)
      · rintro ⟨j, hj, _⟩
        omega
    | succ m =>
      rw [List.take_succ_cons, List.flatten_cons]
      constructor
      · intro h
        rcases List.mem_append.mp h with h | h
        · exact ⟨0, Nat.succ_pos m, h⟩
        · obtain ⟨j, hj, hmem⟩ := (ih m x).mp h
          exact ⟨j + 1, by omega, by rwa [List.getD_cons_succ]⟩
      · rintro ⟨j, hj, hmem⟩
        cases j with
        | zero =>
          rw [List.getD_cons_zero] at hmem
          exact List.mem_append.mpr (Or.inl hmem)
        | succ j =>
          rw [List.getD_cons_succ] at hmem
          exact List.mem_append.mpr (Or.inr ((ih m x).mpr ⟨j, by omega, hmem⟩))

/-- The chain law of the layers: with enough fuel, layer `K + 1` is the
first-occurrence deduplication of the concatenation, in layer-`K`
emission order, of each layer-`K` node's stored neighbour list, with
any node of hop distance at most `k + K` (the `seen` set `S`) skipped. -/
theorem bfsLayers_chain (g : Graph α) (s : Nat) (hwf : AdjClosed g) :
    ∀ fuel todo vis k, RoundInv g s k todo vis →
      (∀ x, x ∈ todo → x ∈ g.nodes) → unvisited g vis + 2 ≤ fuel →
      ∀ K S, (∀ x, x ∈ S ↔ Ball g s (k + K + 1) x) →
        (bfsLayers g fuel todo vis).getD (K + 1) [] =
          dedupSeq ((((bfsLayers g fuel todo vis).getD K []).map
            (fun u => g.adj u)).flatten) S := by
  intro fuel
  induction fuel using Nat.strong_induction_on with
  | _ fuel ihf =>
    intro todo vis k hinv htodo hfuel K S hS
    obtain ⟨f, rfl⟩ : ∃ m, fuel = m + 1 := ⟨fuel - 1, by omega⟩
    by_cases htodo0 : todo = []
    · subst htodo0
      rw [bfsLayers_nil]
      simp [dedupSeq]
    · by_cases hall : ∀ z, z ∈ todo → z ∈ vis
      · rw [bfsLayers, if_neg htodo0, bfsRound_all_visited g todo vis hall,
          bfsLayers_nil]
        cases K with
        | zero => simp [dedupSeq]
        | succ K => simp [dedupSeq]
      · push_neg at hall
        obtain ⟨z0, hz0, hz0v⟩ := hall
        rw [bfsLayers, if_neg htodo0]
        obtain ⟨hinv2, hout⟩ := roundInv_step g s k todo vis hinv
        have hnodes2 := bfsRound_nodes g hwf todo vis htodo
        have hsubv : ∀ w2, w2 ∈ z0 :: vis → w2 ∈ (bfsRound g todo vis).2.1 := by
          intro w2 hw2
          rcases List.mem_cons.mp hw2 with rfl | hw2
          · exact ((bfsRound_spec g todo vis).1 w2).mpr (Or.inl hz0)
          · exact ((bfsRound_spec g todo vis).1 w2).mpr (Or.inr hw2)
        have hlt : unvisited g (bfsRound g todo vis).2.1 < unvisited g vis := by
          calc unvisited g (bfsRound g todo vis).2.1
              ≤ unvisited g (z0 :: vis) := unvisited_anti g (z0 :: vis) _ hsubv
            _ < unvisited g vis := unvisited_lt g vis z0 (htodo z0 hz0) hz0v
        cases K with
        | zero =>
          rw [List.getD_cons_succ, List.getD_cons_zero]
          obtain ⟨f2, rfl⟩ : ∃ f2, f = f2 + 1 := ⟨f - 1, by omega⟩
          have hgd0 : (bfsLayers g (f2 + 1) (bfsRound g todo vis).1
              (bfsRound g todo vis).2.1).getD 0 [] =
              dedupSeq (bfsRound g todo vis).1 (bfsRound g todo vis).2.1 := by
            by_cases hn0 : (bfsRound g todo vis).1 = []
            · rw [hn0, bfsLayers_nil]
              rfl
            · rw [bfsLayers, if_neg hn0, List.getD_cons_zero,
                bfsRound_out_eq_dedup]
          rw [hgd0]
          have hsetVS : ∀ x, x ∈ (bfsRound g todo vis).2.1 ↔ x ∈ S := by
            intro x
            rw [hS x, hinv2.visIff x]
          calc dedupSeq (bfsRound g todo vis).1 (bfsRound g todo vis).2.1
              = dedupSeq ((bfsRound g todo vis).1.filter
                  (fun y => decide (y ∉ (bfsRound g todo vis).2.1)))
                  (bfsRound g todo vis).2.1 :=
                dedupSeq_filter _ _ _ rfl
            _ = dedupSeq ((((bfsRound g todo vis).2.2.map
                  (fun u => g.adj u)).flatten).filter
                  (fun y => decide (y ∉ (bfsRound g todo vis).2.1)))
                  (bfsRound g todo vis).2.1 := by
                rw [bfsRound_pushes_filter g todo vis (bfsRound g todo vis).2.1
                  (fun x h => h)]
            _ = dedupSeq (((bfsRound g todo vis).2.2.map
                  (fun u => g.adj u)).flatten) (bfsRound g todo vis).2.1 :=
                (dedupSeq_filter _ _ _ rfl).symm
            _ = dedupSeq (((bfsRound g todo vis).2.2.map
                  (fun u => g.adj u)).flatten) S :=
                dedupSeq_seen_congr _ _ _ hsetVS
        | succ K =>
          rw [List.getD_cons_succ, List.getD_cons_succ]
          refine ihf f (by omega) (bfsRound g todo vis).1 (bfsRound g todo vis).2.1
            (k + 1) hinv2 hnodes2 (by omega) K S ?_
          intro x
          rw [hS x]
          have harith : k + 1 + K + 1 = k + (K + 1) + 1 := by omega
          rw [harith]

/-! ## Claim C6: bfs visits in breadth-first layers -/

/-- Claim C6: for sufficient fuel, `bfs(graph, start)` succeeds and its
output is the concatenation of layers `L 0, L 1, …` where layer `k`
holds exactly the nodes whose minimum hop distance from the start is
`k`; the output lists each node reachable from the start exactly once,
and nodes are emitted in nondecreasing order of hop distance.
Moreover the order within each layer is pinned, breaking ties among
equal-distance nodes by neighbour insertion order: layer `0` is exactly
`[start]`, and layer `k + 1` is the first-occurrence deduplication of
the concatenation, in layer-`k` emission order, of each layer-`k`
node's stored (insertion-order) neighbour list, skipping every node
already emitted in layers `0 … k`. -/
theorem bfs_layered (g : Graph α) (s : Nat) (hwf : AdjClosed g) (hs : s ∈ g.nodes) :
    ∃ (fuel₀ : Nat) (L : List (List Nat)),
      (∀ fuel, fuel₀ ≤ fuel → bfs g s fuel = .ok L.flatten) ∧
      (∀ k x, x ∈ L.getD k [] ↔ ExactHop g s k x) ∧
      L.flatten.Nodup ∧
      (∀ x, x ∈ L.flatten ↔ Reach g s x) ∧
      (∀ i j x y, i ≤ j → x ∈ L.getD i [] → y ∈ L.getD j [] →
        ∀ m, HopLen g s y m → ∃ m2, m2 ≤ m ∧ HopLen g s x m2) ∧
      L.getD 0 [] = [s] ∧
      (∀ k, L.getD (k + 1) [] =
        dedupSeq (((L.getD k []).map (fun u => g.adj u)).flatten)
          ((L.take (k + 1)).flatten)) := by
  have hinv0 : RoundInv g s 0 [s] [] := by
    refine ⟨?_, ?_, ?_⟩
    · intro x
      constructor
      · intro hx
        exact absurd hx (List.not_mem_nil x)
      · intro hb
        obtain ⟨j, hj, _⟩ := hb
        omega
    · intro x hx
      rcases List.mem_singleton.mp hx with rfl
      exact ⟨0, Nat.le_refl 0, HopLen.refl⟩
    · intro x hx
      cases hx with
      | refl => exact Or.inl (List.mem_singleton_self s)
  have htd : ∀ x, x ∈ [s] → x ∈ g.nodes := by
    intro x hx
    rcases List.mem_singleton.mp hx with rfl
    exact hs
  obtain ⟨R0, hR0⟩ := rounds_drain g hwf (unvisited g []) [s] [] rfl htd
  have hR0le : R0 ≤ max R0 (unvisited g [] + 2) := Nat.le_max_left _ _
  have hule : unvisited g [] + 2 ≤ max R0 (unvisited g [] + 2) := Nat.le_max_right _ _
  have hdr : (roundState g (max R0 (unvisited g [] + 2)) ([s], [])).1 = [] := by
    have hsplit : max R0 (unvisited g [] + 2) = R0 + (max R0 (unvisited g [] + 2) - R0) := by
      omega
    rw [hsplit, roundState_add, roundState_absorb g _ _ hR0]
    exact hR0
  obtain ⟨n, hn1, hn2⟩ := flat_eq_rounds g (max R0 (unvisited g [] + 2)) [s] [] [] hdr
  rw [List.nil_append] at hn2
  have hlayer := bfsLayers_complete g s hwf (max R0 (unvisited g [] + 2)) [s] [] 0
    hinv0 htd hule
  obtain ⟨R', hR'⟩ : ∃ R', max R0 (unvisited g [] + 2) = R' + 1 :=
    ⟨max R0 (unvisited g [] + 2) - 1, by omega⟩
  refine ⟨n, bfsLayers g (max R0 (unvisited g [] + 2)) [s] [], ?_, ?_, ?_, ?_, ?_, ?_, ?_⟩
  · intro fuel hf
    unfold bfs
    rw [if_pos hs, bfsLoop_mono g n [s] [] [] hn1 fuel hf, hn2]
  · intro k x
    have hres := hlayer k x
    rwa [Nat.zero_add] at hres
  · rw [← hn2]
    exact (bfsLoop_final g s n hn1).2
  · intro x
    rw [← hn2]
    exact (bfsLoop_final g s n hn1).1 x
  · intro i j x y hij hx hy m hm
    have hxe : ExactHop g s i x := by
      have hres := hlayer i x
      rw [Nat.zero_add] at hres
      exact hres.mp hx
    have hye : ExactHop g s j y := by
      have hres := hlayer j y
      rw [Nat.zero_add] at hres
      exact hres.mp hy
    have hjm : j ≤ m := by
      by_contra hc
      exact hye.2 ⟨m, by omega, hm⟩
    exact ⟨i, by omega, hxe.1⟩
  · rw [hR', bfsLayers, if_neg (List.cons_ne_nil s []), List.getD_cons_zero,
      bfsRound_out_eq_dedup]
    rfl
  · intro k
    refine bfsLayers_chain g s hwf (max R0 (unvisited g [] + 2)) [s] [] 0 hinv0 htd
      hule k
      ((bfsLayers g (max R0 (unvisited g [] + 2)) [s] []).take (k + 1)).flatten ?_
    intro x
    rw [take_flatten_mem]
    constructor
    · rintro ⟨j, hj, hmem⟩
      have hex := (hlayer j x).mp hmem
      rw [Nat.zero_add] at hex
      exact ⟨j, by omega, hex.1⟩
    · rintro ⟨j, hj, hw⟩
      obtain ⟨j2, hj2, he⟩ := exactHop_exists g s j x hw
      refine ⟨j2, by omega, ?_⟩
      have hres := hlayer j2 x
      rw [Nat.zero_add] at hres
      exact hres.mpr he

theorem bfs_layered_witness :
    AdjClosed gDijEx ∧ 1 ∈ gDijEx.nodes ∧
      (∃ (fuel₀ : Nat) (L : List (List Nat)),
        (∀ fuel, fuel₀ ≤ fuel → bfs gDijEx 1 fuel = .ok L.flatten) ∧
        (∀ k x, x ∈ L.getD k [] ↔ ExactHop gDijEx 1 k x) ∧
        L.flatten.Nodup ∧
        (∀ x, x ∈ L.flatten ↔ Reach gDijEx 1 x) ∧
        (∀ i j x y, i ≤ j → x ∈ L.getD i [] → y ∈ L.getD j [] →
          ∀ m, HopLen gDijEx 1 y m → ∃ m2, m2 ≤ m ∧ HopLen gDijEx 1 x m2) ∧
        L.getD 0 [] = [1] ∧
        (∀ k, L.getD (k + 1) [] =
          dedupSeq (((L.getD k []).map (fun u => gDijEx.adj u)).flatten)
            ((L.take (k + 1)).flatten))) :=
  ⟨adjClosed_gDijEx, by rw [gDijEx_nodes]; simp,
    bfs_layered gDijEx 1 adjClosed_gDijEx (by rw [gDijEx_nodes]; simp)⟩

/-! ## Claim C7: dfs is recursive pre-order -/

/-- Claim C7: for sufficient fuel, `dfs(graph, start)` succeeds and
returns exactly the pre-order sequence of the recursive depth-first
search that explores each node's neighbours in stored insertion order
(`dfsPre`, obtained from the explicit stack by pushing neighbours in
reverse stored order); the sequence lists each node reachable from the
start exactly once. -/
theorem dfs_matches_recursive (g : Graph α) (s : Nat)
    (hwf : AdjClosed g) (hs : s ∈ g.nodes) :
    ∃ fuel₀, ∀ fuel, fuel₀ ≤ fuel →
      dfs g s fuel = .ok (dfsPre g s) ∧
      (dfsPre g s).Nodup ∧
      (∀ x, x ∈ dfsPre g s ↔ Reach g s x) := by
  have hmem : ∀ x, x ∈ [s] → x ∈ g.nodes := by
    intro x hx
    rcases List.mem_singleton.mp hx with rfl
    exact hs
  obtain ⟨n, hn⟩ := dfsLoop_drains g hwf (unvisited g []) [s] [] [] rfl hmem
  refine ⟨n, fun fuel hf => ?_⟩
  have heq := dfsLoop_mono g n [s] [] [] hn fuel hf
  have hend : (dfsLoop g fuel [s] [] []).1 = [] := by rw [heq]; exact hn
  have hrec := dfsLoop_eq_rec g hwf fuel [s] [] [] hend hmem (g.nodes.length + 1)
    (by rw [unvisited_nil]; omega)
  have hout : (dfsLoop g fuel [s] [] []).2.2 = dfsPre g s := by
    rw [hrec.2]
    simp [dfsPre]
  have hfinal := dfsLoop_final g s fuel hend
  refine ⟨?_, ?_, ?_⟩
  · unfold dfs
    rw [if_pos hs, hout]
  · rw [← hout]
    exact hfinal.2
  · intro x
    rw [← hout]
    exact hfinal.1 x

/-- Witness for `dfs_matches_recursive` on the chain `1 → 2 → 3 → 4`,
whose pre-order traversal from `1` is `[1, 2, 3, 4]`. -/
theorem dfs_matches_recursive_witness :
    (1 ∈ gChain.nodes) ∧ dfsPre gChain 1 = [1, 2, 3, 4] ∧
    dfs gChain 1 10 = .ok [1, 2, 3, 4] ∧
    (∃ fuel₀, ∀ fuel, fuel₀ ≤ fuel →
      dfs gChain 1 fuel = .ok (dfsPre gChain 1) ∧
      (dfsPre gChain 1).Nodup ∧
      (∀ x, x ∈ dfsPre gChain 1 ↔ Reach gChain 1 x)) :=
  ⟨by decide,
    by simp [dfsPre, dfsRecL, gChain_nodes, gChain_adj1, gChain_adj2, gChain_adj3, gChain_adj4],
    by rfl,
    dfs_matches_recursive gChain 1 adjClosed_gChain (by decide)⟩

/-- Witness for `traversals_terminate` on the cyclic graph `gDijEx`. -/
theorem traversals_terminate_witness :
    (1 ∈ gDijEx.nodes) ∧
    ((∃ n, ∀ m, n ≤ m → (bfsLoop gDijEx m [1] [] []).1 = [] ∧
        bfsLoop gDijEx m [1] [] [] = bfsLoop gDijEx n [1] [] []) ∧
     (∃ n, ∀ m, n ≤ m → (dfsLoop gDijEx m [1] [] []).1 = [] ∧
        dfsLoop gDijEx m [1] [] [] = dfsLoop gDijEx n [1] [] [])) :=
  ⟨by decide, traversals_terminate gDijEx 1 adjClosed_gDijEx (by decide)⟩

/-! ## Claim C10: priority-queue pop order -/

/-- Claim C10: after any non-empty sequence of pushes into a fresh
priority queue, `pop` returns the item pushed at the first position
whose priority is minimal: its priority is `≤` every pushed priority,
and every earlier-pushed item has a strictly greater priority (the
counter stored in each heap entry breaks priority ties first-in
first-out), so equal-priority items come out in insertion order and the
pop order is deterministic. -/
theorem pq_pop_min_fifo {P ι : Type} [LinearOrder P] (L : List (ι × P)) (hL : L ≠ []) :
    ∃ (i : Nat) (h : i < L.length) (q' : PriorityQueue P ι),
      (PriorityQueue.pushList (PriorityQueue.emptyQ P ι) L).pop =
        some ((L.get ⟨i, h⟩).1, q') ∧
      (∀ (j : Nat) (hj : j < L.length), (L.get ⟨i, h⟩).2 ≤ (L.get ⟨j, hj⟩).2) ∧
      (∀ (j : Nat) (hj : j < L.length), j < i →
        (L.get ⟨i, h⟩).2 < (L.get ⟨j, hj⟩).2) := by
  have hE : (PriorityQueue.pushList (PriorityQueue.emptyQ P ι) L).entries =
      L.mapIdx (fun i xp => (xp.2, i, xp.1)) := by
    rw [PriorityQueue.pushList_entries]
    simp [PriorityQueue.emptyQ]
  rcases hcons : L.mapIdx (fun i xp => (xp.2, i, xp.1)) with _ | ⟨e, l⟩
  · exfalso
    apply hL
    have := congrArg List.length hcons
    simpa using List.length_eq_zero.mp (by simpa using this)
  · have hpop : (PriorityQueue.pushList (PriorityQueue.emptyQ P ι) L).pop =
        some ((PriorityQueue.extractMin e l).1.2.2,
          ⟨(PriorityQueue.extractMin e l).2,
            (PriorityQueue.pushList (PriorityQueue.emptyQ P ι) L).counter⟩) := by
      unfold PriorityQueue.pop
      rw [hE, hcons]
    set m := (PriorityQueue.extractMin e l).1 with hm
    have hmem : m ∈ e :: l :=
      (PriorityQueue.extractMin_perm e l).mem_iff.mp (List.mem_cons_self m _)
    rw [← hcons] at hmem
    obtain ⟨i, hi, hget⟩ := List.mem_iff_getElem.mp hmem
    have hiL : i < L.length := by simpa using hi
    have hgetm : m = ((L.get ⟨i, hiL⟩).2, i, (L.get ⟨i, hiL⟩).1) := by
      rw [← hget, List.getElem_mapIdx]
      simp [List.get_eq_getElem]
    have hmin : ∀ (j : Nat) (hj : j < L.length),
        PriorityQueue.keyLE m ((L.get ⟨j, hj⟩).2, j, (L.get ⟨j, hj⟩).1) := by
      intro j hj
      have hjE : j < (L.mapIdx (fun i xp => (xp.2, i, xp.1))).length := by simpa using hj
      have hj_mem : ((L.get ⟨j, hj⟩).2, j, (L.get ⟨j, hj⟩).1) ∈
          L.mapIdx (fun i xp => (xp.2, i, xp.1)) := by
        have : (L.mapIdx (fun i xp => (xp.2, i, xp.1)))[j] =
            ((L.get ⟨j, hj⟩).2, j, (L.get ⟨j, hj⟩).1) := by
          rw [List.getElem_mapIdx]
          simp [List.get_eq_getElem]
        rw [← this]
        exact List.getElem_mem hjE
      rw [hcons] at hj_mem
      exact PriorityQueue.extractMin_min e l _ hj_mem
    refine ⟨i, hiL, ⟨(PriorityQueue.extractMin e l).2,
      (PriorityQueue.pushList (PriorityQueue.emptyQ P ι) L).counter⟩, ?_, ?_, ?_⟩
    · rw [hpop, hgetm]
    · intro j hj
      rcases hmin j hj with hlt | ⟨heq, -⟩
      · rw [hgetm] at hlt
        exact le_of_lt hlt
      · rw [hgetm] at heq
        exact le_of_eq heq
    · intro j hj hji
      rcases hmin j hj with hlt | ⟨-, hle⟩
      · rwa [hgetm] at hlt
      · exfalso
        rw [hgetm] at hle
        exact Nat.not_le.mpr hji hle

/-! ## Claim C9: error raising and atomicity -/

/-- Claim C9: every operation referencing an unregistered node raises
the not-in-graph error (`ValueError` in the source) to the caller:
`addEdge`, `removeEdge`, `setEdgeWeight` and `getEdgeWeight` when either
endpoint is unregistered, and `bfs`, `dfs` and `dijkstra` when the start
node is unregistered.  Moreover every erroring mutation is atomic: when
`addEdge`, `removeEdge` or `setEdgeWeight` raises any error, the state it
leaves behind is exactly the original graph (and the traversals never
mutate the graph at all). -/
theorem not_in_graph_errors (g : Graph α) (a b s fuel : Nat) (w : ℚ) (wopt : Option ℚ) :
    (¬(a ∈ g.nodes ∧ b ∈ g.nodes) →
      addEdge g a b wopt = (g, some Err.notInGraph) ∧
      removeEdge g a b = (g, some Err.notInGraph) ∧
      setEdgeWeight g a b w = (g, some Err.notInGraph) ∧
      getEdgeWeight g a b = .error Err.notInGraph) ∧
    (s ∉ g.nodes →
      bfs g s fuel = .error Err.notInGraph ∧
      dfs g s fuel = .error Err.notInGraph ∧
      dijkstra g s fuel = .error Err.notInGraph) ∧
    (∀ g1 e, addEdge g a b wopt = (g1, some e) → g1 = g) ∧
    (∀ g1 e, removeEdge g a b = (g1, some e) → g1 = g) ∧
    (∀ g1 e, setEdgeWeight g a b w = (g1, some e) → g1 = g) := by
  refine ⟨?_, ?_, ?_, ?_, ?_⟩
  · intro hmem
    refine ⟨?_, removeEdge_err_eq g a b hmem, setEdgeWeight_err_eq g a b w hmem, ?_⟩
    · rw [addEdge_eq, if_neg hmem]
    · unfold getEdgeWeight
      rw [if_neg hmem]
  · intro hs
    refine ⟨?_, ?_, ?_⟩
    · unfold bfs
      rw [if_neg hs]
    · unfold dfs
      rw [if_neg hs]
    · unfold dijkstra
      rw [if_neg hs]
  · intro g1 e heq
    rw [addEdge_eq] at heq
    by_cases hmem : a ∈ g.nodes ∧ b ∈ g.nodes
    · rw [if_pos hmem] at heq
      by_cases hba : b = a
      · rw [if_pos hba] at heq
        exact (congrArg Prod.fst heq).symm
      · rw [if_neg hba] at heq
        cases congrArg Prod.snd heq
    · rw [if_neg hmem] at heq
      exact (congrArg Prod.fst heq).symm
  · intro g1 e heq
    by_cases hmem : a ∈ g.nodes ∧ b ∈ g.nodes
    · unfold removeEdge at heq
      rw [if_pos hmem] at heq
      rcases Bool.eq_false_or_eq_true g.directed with hb | hb <;>
        simp only [hb, if_true, Bool.false_eq_true, if_false] at heq <;>
          cases congrArg Prod.snd heq
    · rw [removeEdge_err_eq g a b hmem] at heq
      exact (congrArg Prod.fst heq).symm
  · intro g1 e heq
    by_cases hmem : a ∈ g.nodes ∧ b ∈ g.nodes
    · have := (setEdgeWeight_ok g a b w hmem).1
      rw [show setEdgeWeight g a b w = ((setEdgeWeight g a b w).1, none) from by rw [← this]]
        at heq
      cases congrArg Prod.snd heq
    · rw [setEdgeWeight_err_eq g a b w hmem] at heq
      exact (congrArg Prod.fst heq).symm

/-- Witness for `not_in_graph_errors`: node `7` is not registered in
`gTwo`. -/
theorem not_in_graph_errors_witness :
    (¬((1 : Nat) ∈ gTwo.nodes ∧ (7 : Nat) ∈ gTwo.nodes) ∧ (7 : Nat) ∉ gTwo.nodes) ∧
    addEdge gTwo 1 7 none = (gTwo, some Err.notInGraph) ∧
    removeEdge gTwo 1 7 = (gTwo, some Err.notInGraph) ∧
    setEdgeWeight gTwo 1 7 3 = (gTwo, some Err.notInGraph) ∧
    getEdgeWeight gTwo 1 7 = .error Err.notInGraph ∧
    bfs gTwo 7 5 = .error Err.notInGraph ∧
    dfs gTwo 7 5 = .error Err.notInGraph ∧
    dijkstra gTwo 7 5 = .error Err.notInGraph := by
  have h := not_in_graph_errors gTwo 1 7 7 5 3 none
  have h1 := h.1 (by decide)
  have h2 := h.2.1 (by decide)
  exact ⟨⟨by decide, by decide⟩, h1.1, h1.2.1, h1.2.2.1, h1.2.2.2, h2.1, h2.2.1, h2.2.2⟩

/-- Witness for `pq_pop_min_fifo` on a concrete push sequence: among the
pushes `(10, prio 3), (20, prio 1), (30, prio 1), (40, prio 2)` the
earliest minimal-priority item is `20`. -/
theorem pq_pop_min_fifo_witness :
    ([((10 : Nat), (3 : Nat)), (20, 1), (30, 1), (40, 2)] ≠ ([] : List (Nat × Nat))) ∧
    (∃ (i : Nat) (h : i < ([((10 : Nat), (3 : Nat)), (20, 1), (30, 1), (40, 2)] :
          List (Nat × Nat)).length) (q' : PriorityQueue Nat Nat),
      (PriorityQueue.pushList (PriorityQueue.emptyQ Nat Nat)
          [(10, 3), (20, 1), (30, 1), (40, 2)]).pop =
        some ((([((10 : Nat), (3 : Nat)), (20, 1), (30, 1), (40, 2)] :
          List (Nat × Nat)).get ⟨i, h⟩).1, q') ∧
      (∀ (j : Nat) (hj : j < ([((10 : Nat), (3 : Nat)), (20, 1), (30, 1), (40, 2)] :
          List (Nat × Nat)).length),
        (([((10 : Nat), (3 : Nat)), (20, 1), (30, 1), (40, 2)] :
          List (Nat × Nat)).get ⟨i, h⟩).2 ≤
        (([((10 : Nat), (3 : Nat)), (20, 1), (30, 1), (40, 2)] :
          List (Nat × Nat)).get ⟨j, hj⟩).2) ∧
      (∀ (j : Nat) (hj : j < ([((10 : Nat), (3 : Nat)), (20, 1), (30, 1), (40, 2)] :
          List (Nat × Nat)).length), j < i →
        (([((10 : Nat), (3 : Nat)), (20, 1), (30, 1), (40, 2)] :
          List (Nat × Nat)).get ⟨i, h⟩).2 <
        (([((10 : Nat), (3 : Nat)), (20, 1), (30, 1), (40, 2)] :
          List (Nat × Nat)).get ⟨j, hj⟩).2)) :=
  ⟨by decide, pq_pop_min_fifo [(10, 3), (20, 1), (30, 1), (40, 2)] (by decide)⟩

/-! ## Claim C1: Dijkstra shortest paths

The distance characterization is stated through weighted walks: a walk
follows stored-neighbour edges that carry a recorded weight, exactly
the moves `dijkstra`'s relaxation can make.  Termination of the
unbounded `while` loop uses a lexicographic measure: the number of
registered nodes still at infinity, then the sum of the finite
distances scaled by a common denominator of all recorded weights, then
the queue length. -/

/-- A walk from `src` along stored-neighbour edges with recorded
weights, accumulating the total weight. -/
inductive WalkLen (g : Graph α) (src : Nat) : Nat → ℚ → Prop
  | refl : WalkLen g src src 0
  | step {u v : Nat} {c w : ℚ} : WalkLen g src u c → v ∈ g.adj u →
      g.weights (u, v) = some w → WalkLen g src v (c + w)

theorem walkLen_nonneg {g : Graph α} {src v : Nat} {c : ℚ}
    (hw0 : ∀ p w, g.weights p = some w → (0 : ℚ) ≤ w)
    (h : WalkLen g src v c) : 0 ≤ c := by
  induction h with
  | refl => exact le_refl 0
  | step hw hadj hwt ih => exact add_nonneg ih (hw0 _ _ hwt)

theorem walkLen_mem {g : Graph α} {src v : Nat} {c : ℚ}
    (hwf : AdjClosed g) (hs : src ∈ g.nodes)
    (h : WalkLen g src v c) : v ∈ g.nodes := by
  induction h with
  | refl => exact hs
  | step hw hadj hwt ih => exact hwf _ ih _ hadj

/-- All ordered pairs of registered node ids. -/
def wpairs (g : Graph α) : List (Nat × Nat) :=
  g.nodes.foldr (fun u acc => (g.nodes.map (fun v => (u, v))) ++ acc) []

theorem mem_wpairs_aux (m : List Nat) :
    ∀ (l : List Nat) (p : Nat × Nat),
      p ∈ l.foldr (fun u acc => (m.map (fun v => (u, v))) ++ acc) [] ↔
        p.1 ∈ l ∧ p.2 ∈ m := by
  intro l
  induction l with
  | nil => intro p; simp
  | cons u l ih =>
    intro p
    simp only [List.foldr_cons, List.mem_append, List.mem_map, ih, List.mem_cons]
    constructor
    · rintro (⟨v, hv, rfl⟩ | ⟨h1, h2⟩)
      · exact ⟨Or.inl rfl, hv⟩
      · exact ⟨Or.inr h1, h2⟩
    · rintro ⟨h1 | h1, h2⟩
      · exact Or.inl ⟨p.2, h2, by rw [← h1]⟩
      · exact Or.inr ⟨h1, h2⟩

theorem mem_wpairs (g : Graph α) (p : Nat × Nat) :
    p ∈ wpairs g ↔ p.1 ∈ g.nodes ∧ p.2 ∈ g.nodes :=
  mem_wpairs_aux g.nodes g.nodes p

/-- A positive common denominator for every weight recorded between
registered nodes. -/
def wden (g : Graph α) : Nat :=
  (wpairs g).foldr
    (fun p acc => (match g.weights p with | some w => w.den | none => 1) * acc) 1

theorem wden_pos (g : Graph α) : 0 < wden g := by
  unfold wden
  induction wpairs g with
  | nil => exact Nat.one_pos
  | cons p l ih =>
    rw [List.foldr_cons]
    refine Nat.mul_pos ?_ ih
    cases g.weights p with
    | none => exact Nat.one_pos
    | some w => exact w.den_pos

theorem dvd_foldr_den (g : Graph α) :
    ∀ (L : List (Nat × Nat)) (p : Nat × Nat), p ∈ L →
      (match g.weights p with | some w => w.den | none => 1) ∣
        L.foldr (fun q acc =>
          (match g.weights q with | some w => w.den | none => 1) * acc) 1 := by
  intro L
  induction L with
  | nil =>
    intro p hp
    exact absurd hp (List.not_mem_nil p)
  | cons q L ih =>
    intro p hp
    rw [List.foldr_cons]
    rcases List.mem_cons.mp hp with rfl | hp2
    · exact Dvd.dvd.mul_right dvd_rfl _
    · exact Dvd.dvd.mul_left (ih p hp2) _

theorem wden_dvd (g : Graph α) {u v : Nat} {w : ℚ}
    (hu : u ∈ g.nodes) (hv : v ∈ g.nodes) (hw : g.weights (u, v) = some w) :
    w.den ∣ wden g := by
  have hdvd := dvd_foldr_den g (wpairs g) (u, v) ((mem_wpairs g (u, v)).mpr ⟨hu, hv⟩)
  rw [hw] at hdvd
  exact hdvd

/-- `q` scaled by `D` is an integer. -/
def DenOk (D : Nat) (q : ℚ) : Prop := ∃ z : ℤ, q * (D : ℚ) = (z : ℚ)

theorem denOk_zero (D : Nat) : DenOk D 0 := ⟨0, by simp⟩

theorem denOk_add {D : Nat} {a b : ℚ} (ha : DenOk D a) (hb : DenOk D b) :
    DenOk D (a + b) := by
  obtain ⟨za, hza⟩ := ha
  obtain ⟨zb, hzb⟩ := hb
  exact ⟨za + zb, by rw [add_mul, hza, hzb]; push_cast; ring⟩

theorem denOk_of_den_dvd {D : Nat} {w : ℚ} (h : w.den ∣ D) : DenOk D w := by
  obtain ⟨k, hk⟩ := h
  refine ⟨w.num * k, ?_⟩
  have hden : ((w.den : ℚ)) ≠ 0 := by
    exact_mod_cast w.den_pos.ne'
  have hmul : w * (w.den : ℚ) = (w.num : ℚ) := by
    calc w * (w.den : ℚ) = ((w.num : ℚ) / (w.den : ℚ)) * (w.den : ℚ) := by
          rw [Rat.num_div_den]
      _ = (w.num : ℚ) := div_mul_cancel₀ _ hden
  rw [hk]
  push_cast
  rw [← mul_assoc, hmul]

theorem walkLen_denOk {g : Graph α} {src v : Nat} {c : ℚ}
    (hwf : AdjClosed g) (hs : src ∈ g.nodes)
    (h : WalkLen g src v c) : DenOk (wden g) c := by
  induction h with
  | refl => exact denOk_zero _
  | step hw hadj hwt ih =>
    refine denOk_add ih (denOk_of_den_dvd (wden_dvd g ?_ ?_ hwt))
    · exact walkLen_mem hwf hs hw
    · exact hwf _ (walkLen_mem hwf hs hw) _ hadj

/-- The scaled integer value of a finite distance (`0` for `⊤`): the
second component of the termination measure. -/
def distFloor (D : Nat) : WithTop ℚ → Nat :=
  WithTop.recTopCoe 0 (fun q => (q * (D : ℚ)).num.toNat)

theorem distFloor_coe (D : Nat) (q : ℚ) :
    distFloor D (q : WithTop ℚ) = (q * (D : ℚ)).num.toNat := rfl

theorem distFloor_lt {D : Nat} (hD : 0 < D) {q1 q2 : ℚ}
    (h1 : DenOk D q1) (h2 : DenOk D q2) (h1n : 0 ≤ q1) (hlt : q1 < q2) :
    distFloor D (q1 : WithTop ℚ) < distFloor D (q2 : WithTop ℚ) := by
  obtain ⟨z1, hz1⟩ := h1
  obtain ⟨z2, hz2⟩ := h2
  rw [distFloor_coe, distFloor_coe, hz1, hz2, Rat.num_intCast, Rat.num_intCast]
  have hDq : (0 : ℚ) < (D : ℚ) := by exact_mod_cast hD
  have hlt2 : q1 * (D : ℚ) < q2 * (D : ℚ) := by
    exact mul_lt_mul_of_pos_right hlt hDq
  rw [hz1, hz2] at hlt2
  have hz1n : (0 : ℚ) ≤ (z1 : ℚ) := by
    rw [← hz1]
    exact mul_nonneg h1n (le_of_lt hDq)
  have hzlt : z1 < z2 := by exact_mod_cast hlt2
  have hz1n2 : (0 : ℤ) ≤ z1 := by exact_mod_cast hz1n
  omega

/-- First component of the termination measure: registered nodes still
at infinity. -/
def topCount (g : Graph α) (s : DState) : Nat :=
  g.nodes.countP (fun v => decide (s.dist v = ⊤))

/-- Second component: total scaled finite distance. -/
def sumFloor (g : Graph α) (s : DState) : Nat :=
  (g.nodes.map (fun v => distFloor (wden g) (s.dist v))).sum

/-- Strict decrease of the first two measure components, ordered
lexicographically. -/
def MeasLt (g : Graph α) (s2 s : DState) : Prop :=
  topCount g s2 < topCount g s ∨
    (topCount g s2 = topCount g s ∧ sumFloor g s2 < sumFloor g s)

theorem measLt_trans {g : Graph α} {s3 s2 s1 : DState}
    (h1 : MeasLt g s3 s2) (h2 : MeasLt g s2 s1) : MeasLt g s3 s1 := by
  unfold MeasLt at *
  omega

theorem countP_lt_of_flip (f h : Nat → Bool) :
    ∀ (l : List Nat), (∀ x, x ∈ l → h x = true → f x = true) →
      ∀ v, v ∈ l → f v = true → h v = false → l.countP h < l.countP f := by
  intro l
  induction l with
  | nil =>
    intro _ v hv
    exact absurd hv (List.not_mem_nil v)
  | cons a l ih =>
    intro hmono v hv hfv hhv
    have hmono2 : ∀ x, x ∈ l → h x = true → f x = true :=
      fun x hx => hmono x (List.mem_cons_of_mem a hx)
    have hcle : l.countP h ≤ l.countP f :=
      List.countP_mono_left (by intro x hx hh; simpa using hmono2 x hx (by simpa using hh))
    rcases List.mem_cons.mp hv with rfl | hv2
    · rw [List.countP_cons_of_pos f _ (by simpa using hfv),
        List.countP_cons_of_neg h _ (by simp [hhv])]
      omega
    · have hlt := ih hmono2 v hv2 hfv hhv
      by_cases hha : h a = true
      · rw [List.countP_cons_of_pos h _ (by simpa using hha),
          List.countP_cons_of_pos f _ (by simpa using hmono a (List.mem_cons_self a l) hha)]
        omega
      · rw [List.countP_cons_of_neg h _ (by simpa using hha)]
        calc l.countP h < l.countP f := hlt
          _ ≤ (a :: l).countP f := by
            rw [List.countP_cons]
            omega

theorem countP_eq_of_agree (f h : Nat → Bool) :
    ∀ (l : List Nat), (∀ x, x ∈ l → h x = f x) → l.countP h = l.countP f := by
  intro l
  induction l with
  | nil => intro _; rfl
  | cons a l ih =>
    intro hag
    rw [List.countP_cons, List.countP_cons,
      ih (fun x hx => hag x (List.mem_cons_of_mem a hx)),
      hag a (List.mem_cons_self a l)]

theorem map_sum_le_point (f h : Nat → Nat) :
    ∀ (l : List Nat), (∀ x, x ∈ l → h x ≤ f x) →
      (l.map h).sum ≤ (l.map f).sum := by
  intro l
  induction l with
  | nil =>
    intro _
    exact le_refl _
  | cons a l ih =>
    intro hle
    simp only [List.map_cons, List.sum_cons]
    have h1 := hle a (List.mem_cons_self a l)
    have h2 := ih (fun x hx => hle x (List.mem_cons_of_mem a hx))
    omega

theorem map_sum_lt_of_point (f h : Nat → Nat) :
    ∀ (l : List Nat), (∀ x, x ∈ l → h x ≤ f x) →
      ∀ v, v ∈ l → h v < f v → (l.map h).sum < (l.map f).sum := by
  intro l
  induction l with
  | nil =>
    intro _ v hv
    exact absurd hv (List.not_mem_nil v)
  | cons a l ih =>
    intro hle v hv hlt
    have hle2 : ∀ x, x ∈ l → h x ≤ f x := fun x hx => hle x (List.mem_cons_of_mem a hx)
    simp only [List.map_cons, List.sum_cons]
    rcases List.mem_cons.mp hv with rfl | hv2
    · have h2 := map_sum_le_point f h l hle2
      omega
    · have h1 := ih hle2 v hv2 hlt
      have h2 := hle a (List.mem_cons_self a l)
      omega

theorem topCount_congr (g : Graph α) {s2 s : DState} (h : s2.dist = s.dist) :
    topCount g s2 = topCount g s := by
  unfold topCount
  rw [h]

theorem sumFloor_congr (g : Graph α) {s2 s : DState} (h : s2.dist = s.dist) :
    sumFloor g s2 = sumFloor g s := by
  unfold sumFloor
  rw [h]

theorem measLt_top_update (g : Graph α) (s s2 : DState) (v : Nat) (nv : WithTop ℚ)
    (hd : ∀ x, s2.dist x = if x = v then nv else s.dist x)
    (hv : v ∈ g.nodes) (hold : s.dist v = ⊤) (hnew : nv ≠ ⊤) :
    MeasLt g s2 s := by
  left
  unfold topCount
  refine countP_lt_of_flip _ _ g.nodes ?_ v hv ?_ ?_
  · intro x _ hx
    rw [decide_eq_true_eq] at hx ⊢
    rw [hd x] at hx
    by_cases hxv : x = v
    · rw [if_pos hxv] at hx
      exact absurd hx hnew
    · rwa [if_neg hxv] at hx
  · rw [decide_eq_true_eq]
    exact hold
  · rw [decide_eq_false_iff_not]
    rw [hd v, if_pos rfl]
    exact hnew

theorem measLt_fin_update (g : Graph α) (s s2 : DState) (v : Nat) (q q' : ℚ)
    (hd : ∀ x, s2.dist x = if x = v then ((q' : ℚ) : WithTop ℚ) else s.dist x)
    (hv : v ∈ g.nodes) (hold : s.dist v = ((q : ℚ) : WithTop ℚ))
    (hq : DenOk (wden g) q) (hq' : DenOk (wden g) q') (hq'0 : 0 ≤ q')
    (hlt : q' < q) : MeasLt g s2 s := by
  right
  constructor
  · unfold topCount
    refine countP_eq_of_agree _ _ g.nodes ?_
    intro x _
    rw [hd x]
    by_cases hxv : x = v
    · rw [if_pos hxv, hxv, hold]
      simp
    · rw [if_neg hxv]
  · unfold sumFloor
    refine map_sum_lt_of_point _ _ g.nodes ?_ v hv ?_
    · intro x _
      rw [hd x]
      by_cases hxv : x = v
      · rw [if_pos hxv, hxv, hold]
        exact le_of_lt (distFloor_lt (wden_pos g) hq' hq hq'0 hlt)
      · rw [if_neg hxv]
    · rw [hd v, if_pos rfl, hold]
      exact distFloor_lt (wden_pos g) hq' hq hq'0 hlt

/-- The parts of the `dijkstra` loop invariant preserved by every
relaxation: queue items are registered, every finite distance is the
weight of an actual walk, the start keeps distance `0` and no
predecessor, every recorded predecessor edge over-approximates the
distance, and nodes without a predecessor (other than the start) are
still at infinity. -/
structure RInv (g : Graph α) (src : Nat) (s : DState) : Prop where
  qn : ∀ ent, ent ∈ s.pq.entries → ent.2.2 ∈ g.nodes
  reach : ∀ v, s.dist v = ⊤ ∨ ∃ c, WalkLen g src v c ∧ s.dist v = ((c : ℚ) : WithTop ℚ)
  dsrc : s.dist src = 0
  psrc : s.prev src = none
  prevI : ∀ v u, s.prev v = some u → u ∈ g.nodes ∧ v ∈ g.adj u ∧
    ∃ w, g.weights (u, v) = some w ∧ s.dist u + (w : WithTop ℚ) ≤ s.dist v ∧
      s.dist v ≠ ⊤
  noneTop : ∀ v, v ≠ src → s.prev v = none → s.dist v = ⊤

/-- The effect of the `for neighbor in current.neighbours` body: no
error under closure, distances only decrease, any changed node gets a
queue entry, old entries survive, every processed weighted edge ends up
relaxed against the snapshot `du`, the invariant is preserved, and the
state is unchanged unless the measure strictly drops. -/
theorem relaxList_spec (g : Graph α) (src u : Nat) (du : WithTop ℚ)
    (hwf : AdjClosed g) (hw0 : ∀ p w, g.weights p = some w → (0 : ℚ) ≤ w)
    (hsrc : src ∈ g.nodes) (hu : u ∈ g.nodes)
    (hdu : du = ⊤ ∨ ∃ c, WalkLen g src u c ∧ du = ((c : ℚ) : WithTop ℚ)) :
    ∀ vs s, (∀ v, v ∈ vs → v ∈ g.adj u) → s.dist u ≤ du → RInv g src s →
      ∃ s2, relaxList g u du vs s = .ok s2 ∧ RInv g src s2 ∧
        (∀ x, s2.dist x ≤ s.dist x) ∧
        (∀ x, s2.dist x = s.dist x ∨ ∃ ent, ent ∈ s2.pq.entries ∧ ent.2.2 = x) ∧
        (∀ ent, ent ∈ s.pq.entries → ent ∈ s2.pq.entries) ∧
        (∀ v, v ∈ vs → ∀ w, g.weights (u, v) = some w →
          s2.dist v ≤ du + (w : WithTop ℚ)) ∧
        ((s2.dist = s.dist ∧ s2.pq.entries = s.pq.entries) ∨ MeasLt g s2 s) := by
  intro vs
  induction vs with
  | nil =>
    intro s hsub hdule hinv
    refine ⟨s, rfl, hinv, fun x => le_refl _, fun x => Or.inl rfl, fun ent h => h,
      ?_, Or.inl ⟨rfl, rfl⟩⟩
    intro v hv
    exact absurd hv (List.not_mem_nil v)
  | cons v vs ih =>
    intro s hsub hdule hinv
    have hvadj : v ∈ g.adj u := hsub v (List.mem_cons_self v vs)
    have hvn : v ∈ g.nodes := hwf u hu v hvadj
    have hcond : u ∈ g.nodes ∧ v ∈ g.nodes := ⟨hu, hvn⟩
    have hsub2 : ∀ x, x ∈ vs → x ∈ g.adj u :=
      fun x hx => hsub x (List.mem_cons_of_mem v hx)
    rcases hwv : g.weights (u, v) with _ | w
    · obtain ⟨s2, heq, hinv2, hle2, henq2, hsup2, hrelax2, hmeas2⟩ :=
        ih s hsub2 hdule hinv
      refine ⟨s2, ?_, hinv2, hle2, henq2, hsup2, ?_, hmeas2⟩
      · rw [relaxList, if_pos hcond]
        simp only [hwv]
        exact heq
      · intro v' hv' w' hw'
        rcases List.mem_cons.mp hv' with rfl | hv2
        · rw [hwv] at hw'
          exact absurd hw' (by simp)
        · exact hrelax2 v' hv2 w' hw'
    · have hwge : (0 : ℚ) ≤ w := hw0 _ _ hwv
      have hwge' : (0 : WithTop ℚ) ≤ (w : WithTop ℚ) := by exact_mod_cast hwge
      by_cases himp : du + (w : WithTop ℚ) < s.dist v
      · have hduT : du ≠ ⊤ := by
          intro h
          rw [h] at himp
          simp at himp
        rcases hdu with hduT2 | ⟨c, hwalk, hduc⟩
        · exact absurd hduT2 hduT
        · subst hduc
          have hcast : ((c : ℚ) : WithTop ℚ) + (w : WithTop ℚ) =
              (((c + w : ℚ)) : WithTop ℚ) := (WithTop.coe_add c w).symm
          have hwalkv : WalkLen g src v (c + w) := hwalk.step hvadj hwv
          have hcw0 : (0 : ℚ) ≤ c + w := add_nonneg (walkLen_nonneg hw0 hwalk) hwge
          have hvsrc : v ≠ src := by
            intro h
            rw [h, hinv.dsrc, hcast] at himp
            have hge : ((0 : ℚ) : WithTop ℚ) ≤ (((c + w : ℚ)) : WithTop ℚ) := by
              exact_mod_cast hcw0
            rw [show ((0 : ℚ) : WithTop ℚ) = (0 : WithTop ℚ) from rfl] at hge
            exact absurd himp (not_lt.mpr hge)
          have huv : u ≠ v := by
            intro h
            have h1 : ((c : ℚ) : WithTop ℚ) ≤ ((c : ℚ) : WithTop ℚ) + (w : WithTop ℚ) :=
              le_add_of_nonneg_right hwge'
            rw [← h] at himp
            exact absurd (lt_of_le_of_lt h1 (lt_of_lt_of_le himp hdule)) (lt_irrefl _)
          set s' : DState :=
            { dist := fun x => if x = v then ((c : ℚ) : WithTop ℚ) + (w : WithTop ℚ)
                else s.dist x,
              prev := fun x => if x = v then some u else s.prev x,
              pq := s.pq.push v (((c : ℚ) : WithTop ℚ) + (w : WithTop ℚ)) } with hs'
          have hs'dist : ∀ x, s'.dist x =
              if x = v then ((c : ℚ) : WithTop ℚ) + (w : WithTop ℚ) else s.dist x :=
            fun x => rfl
          have hs'prev : ∀ x, s'.prev x = if x = v then some u else s.prev x :=
            fun x => rfl
          have hs'pq : s'.pq.entries = s.pq.entries ++
              [(((c : ℚ) : WithTop ℚ) + (w : WithTop ℚ), s.pq.counter, v)] := rfl
          have hdvv : s'.dist v = ((c : ℚ) : WithTop ℚ) + (w : WithTop ℚ) := by
            rw [hs'dist v, if_pos rfl]
          have hdle : ∀ x, s'.dist x ≤ s.dist x := by
            intro x
            rw [hs'dist x]
            by_cases hxv : x = v
            · rw [if_pos hxv, hxv]
              exact le_of_lt himp
            · rw [if_neg hxv]
          have hinv' : RInv g src s' := by
            refine ⟨?_, ?_, ?_, ?_, ?_, ?_⟩
            · intro ent hent
              rw [hs'pq] at hent
              rcases List.mem_append.mp hent with h | h
              · exact hinv.qn ent h
              · rcases List.mem_singleton.mp h with rfl
                exact hvn
            · intro x
              by_cases hxv : x = v
              · right
                refine ⟨c + w, ?_, ?_⟩
                · rw [hxv]
                  exact hwalkv
                · rw [hs'dist x, if_pos hxv, hcast]
              · rw [hs'dist x, if_neg hxv]
                exact hinv.reach x
            · rw [hs'dist src, if_neg (Ne.symm hvsrc)]
              exact hinv.dsrc
            · rw [hs'prev src, if_neg (Ne.symm hvsrc)]
              exact hinv.psrc
            · intro x u0 hpx
              rw [hs'prev x] at hpx
              by_cases hxv : x = v
              · rw [if_pos hxv] at hpx
                injection hpx with hpu
                subst hpu
                subst hxv
                refine ⟨hu, hvadj, w, hwv, ?_, ?_⟩
                · rw [hdvv, hs'dist u, if_neg huv]
                  exact add_le_add_right hdule _
                · rw [hdvv, hcast]
                  exact WithTop.coe_ne_top
              · rw [if_neg hxv] at hpx
                obtain ⟨hn0, hadj0, w0, hw0'', hle0, hne0⟩ := hinv.prevI x u0 hpx
                refine ⟨hn0, hadj0, w0, hw0'', ?_, ?_⟩
                · rw [hs'dist x, if_neg hxv]
                  exact le_trans (add_le_add_right (hdle u0) _) hle0
                · rw [hs'dist x, if_neg hxv]
                  exact hne0
            · intro x hxsrc hpx
              rw [hs'prev x] at hpx
              by_cases hxv : x = v
              · rw [if_pos hxv] at hpx
                exact absurd hpx (by simp)
              · rw [if_neg hxv] at hpx
                rw [hs'dist x, if_neg hxv]
                exact hinv.noneTop x hxsrc hpx
          have hmeasS : MeasLt g s' s := by
            rcases hinv.reach v with hT | ⟨q, hwalkq, hqe⟩
            · exact measLt_top_update g s s' v _ hs'dist hvn hT
                (by rw [hcast]; exact WithTop.coe_ne_top)
            · refine measLt_fin_update g s s' v q (c + w) ?_ hvn hqe
                (walkLen_denOk hwf hsrc hwalkq) (walkLen_denOk hwf hsrc hwalkv)
                hcw0 ?_
              · intro x
                rw [hs'dist x, hcast]
              · rw [hqe, hcast] at himp
                exact_mod_cast himp
          have hdule' : s'.dist u ≤ ((c : ℚ) : WithTop ℚ) := by
            rw [hs'dist u, if_neg huv]
            exact hdule
          obtain ⟨s2, heq2, hinv2, hle2, henq2, hsup2, hrelax2, hmeas2⟩ :=
            ih s' hsub2 hdule' hinv'
          refine ⟨s2, ?_, hinv2, ?_, ?_, ?_, ?_, ?_⟩
          · rw [relaxList, if_pos hcond]
            simp only [hwv]
            rw [if_pos himp]
            exact heq2
          · intro x
            exact le_trans (hle2 x) (hdle x)
          · intro x
            rcases henq2 x with hx | ⟨ent, hent, hx⟩
            · by_cases hxv : x = v
              · subst hxv
                right
                refine ⟨(((c : ℚ) : WithTop ℚ) + (w : WithTop ℚ), s.pq.counter, x),
                  ?_, rfl⟩
                refine hsup2 _ ?_
                rw [hs'pq]
                exact List.mem_append.mpr (Or.inr (List.mem_singleton_self _))
              · left
                rw [hx, hs'dist x, if_neg hxv]
            · exact Or.inr ⟨ent, hent, hx⟩
          · intro ent hent
            refine hsup2 ent ?_
            rw [hs'pq]
            exact List.mem_append.mpr (Or.inl hent)
          · intro v' hv' w' hw'
            rcases List.mem_cons.mp hv' with rfl | hv2
            · rw [hwv] at hw'
              injection hw' with hww
              subst hww
              exact le_trans (hle2 _) (le_of_eq hdvv)
            · exact hrelax2 v' hv2 w' hw'
          · right
            rcases hmeas2 with ⟨hd2, hq2⟩ | hm2
            · have h1 : topCount g s2 = topCount g s' := topCount_congr g hd2
              have h2 : sumFloor g s2 = sumFloor g s' := sumFloor_congr g hd2
              unfold MeasLt at hmeasS ⊢
              omega
            · exact measLt_trans hm2 hmeasS
      · obtain ⟨s2, heq, hinv2, hle2, henq2, hsup2, hrelax2, hmeas2⟩ :=
          ih s hsub2 hdule hinv
        refine ⟨s2, ?_, hinv2, hle2, henq2, hsup2, ?_, hmeas2⟩
        · rw [relaxList, if_pos hcond]
          simp only [hwv]
          rw [if_neg himp]
          exact heq
        · intro v' hv' w' hw'
          rcases List.mem_cons.mp hv' with rfl | hv2
          · rw [hwv] at hw'
            injection hw' with hww
            subst hww
            exact le_trans (hle2 _) (not_lt.mp himp)
          · exact hrelax2 v' hv2 w' hw'

/-- The full loop invariant: `RInv` plus the label-correcting condition
`K` — every registered node either still has a queue entry or has had
all its weighted out-edges relaxed against its current distance. -/
structure DInv (g : Graph α) (src : Nat) (s : DState) : Prop where
  rinv : RInv g src s
  K : ∀ u, u ∈ g.nodes → (∃ ent, ent ∈ s.pq.entries ∧ ent.2.2 = u) ∨
    (∀ v, v ∈ g.adj u → ∀ w, g.weights (u, v) = some w →
      s.dist v ≤ s.dist u + (w : WithTop ℚ))

theorem dInv_init (g : Graph α) (src : Nat) (hs : src ∈ g.nodes) :
    DInv g src (dijkstraInit src) := by
  have hd : (dijkstraInit src).dist =
      fun n => if n = src then (0 : WithTop ℚ) else ⊤ := rfl
  have hp : (dijkstraInit src).prev = fun _ => none := rfl
  have hq : (dijkstraInit src).pq.entries = [((0 : WithTop ℚ), 0, src)] := rfl
  constructor
  · constructor
    · intro ent hent
      rw [hq] at hent
      rcases List.mem_singleton.mp hent with rfl
      exact hs
    · intro v
      by_cases hv : v = src
      · right
        refine ⟨0, ?_, ?_⟩
        · rw [hv]
          exact WalkLen.refl
        · rw [hd]
          simp only [if_pos hv]
          rfl
      · left
        rw [hd]
        simp only [if_neg hv]
    · rw [hd]
      simp
    · rw [hp]
    · intro v u h
      rw [hp] at h
      exact absurd h (by simp)
    · intro v hv _
      rw [hd]
      simp only [if_neg hv]
  · intro u hun
    by_cases hu : u = src
    · left
      refine ⟨((0 : WithTop ℚ), 0, src), ?_, ?_⟩
      · rw [hq]
        exact List.mem_singleton_self _
      · exact hu.symm
    · right
      intro v _ w _
      have htop : (dijkstraInit src).dist u = ⊤ := by
        rw [hd]
        simp only [if_neg hu]
      rw [htop]
      simp

/-- One iteration of the `while` loop: popping the least entry and
relaxing the popped node's neighbour list succeeds, preserves the
invariant, and strictly decreases the termination measure. -/
theorem dijkstra_step (g : Graph α) (src : Nat)
    (hwf : AdjClosed g) (hw0 : ∀ p w, g.weights p = some w → (0 : ℚ) ≤ w)
    (hsrc : src ∈ g.nodes) (s : DState) (hinv : DInv g src s)
    (e : (WithTop ℚ) × Nat × Nat) (l : List ((WithTop ℚ) × Nat × Nat))
    (hent : s.pq.entries = e :: l) :
    ∃ s2, relaxList g (PriorityQueue.extractMin e l).1.2.2
        (s.dist (PriorityQueue.extractMin e l).1.2.2)
        (g.adj (PriorityQueue.extractMin e l).1.2.2)
        { s with pq := ⟨(PriorityQueue.extractMin e l).2, s.pq.counter⟩ } = .ok s2 ∧
      DInv g src s2 ∧
      (MeasLt g s2 s ∨ (topCount g s2 = topCount g s ∧ sumFloor g s2 = sumFloor g s ∧
        s2.pq.entries.length < s.pq.entries.length)) := by
  have hperm := PriorityQueue.extractMin_perm e l
  have hminmem : (PriorityQueue.extractMin e l).1 ∈ s.pq.entries := by
    rw [hent]
    exact hperm.mem_iff.mp (List.mem_cons_self _ _)
  have hu : (PriorityQueue.extractMin e l).1.2.2 ∈ g.nodes := hinv.rinv.qn _ hminmem
  have hrestsub : ∀ ent, ent ∈ (PriorityQueue.extractMin e l).2 →
      ent ∈ s.pq.entries := by
    intro ent h
    rw [hent]
    exact hperm.mem_iff.mp (List.mem_cons_of_mem _ h)
  have hinv1 : RInv g src
      { s with pq := ⟨(PriorityQueue.extractMin e l).2, s.pq.counter⟩ } := by
    obtain ⟨qn, reach, dsrc, psrc, prevI, noneTop⟩ := hinv.rinv
    exact ⟨fun ent h => qn ent (hrestsub ent h), reach, dsrc, psrc, prevI, noneTop⟩
  obtain ⟨s2, heq, hinv2, hle2, henq2, hsup2, hrelax2, hmeas2⟩ :=
    relaxList_spec g src (PriorityQueue.extractMin e l).1.2.2
      (s.dist (PriorityQueue.extractMin e l).1.2.2) hwf hw0 hsrc hu
      (hinv.rinv.reach _) (g.adj (PriorityQueue.extractMin e l).1.2.2)
      { s with pq := ⟨(PriorityQueue.extractMin e l).2, s.pq.counter⟩ }
      (fun v hv => hv) (le_refl _) hinv1
  refine ⟨s2, heq, ⟨hinv2, ?_⟩, ?_⟩
  · intro u0 hu0
    rcases hinv.K u0 hu0 with ⟨ent, hentm, hitem⟩ | hrel
    · rw [hent] at hentm
      rcases List.mem_cons.mp (hperm.mem_iff.mpr hentm) with hemin | hrest
      · have hu0u : u0 = (PriorityQueue.extractMin e l).1.2.2 := by
          rw [← hitem, hemin]
        rw [hu0u]
        rcases henq2 (PriorityQueue.extractMin e l).1.2.2 with hxeq | ⟨ent2, hent2, hitem2⟩
        · right
          intro v hv w hw
          have hb := hrelax2 v hv w hw
          have h2 : s2.dist (PriorityQueue.extractMin e l).1.2.2 + (w : WithTop ℚ) =
              s.dist (PriorityQueue.extractMin e l).1.2.2 + (w : WithTop ℚ) := by
            rw [hxeq]
          rw [h2]
          exact hb
        · exact Or.inl ⟨ent2, hent2, hitem2⟩
      · exact Or.inl ⟨ent, hsup2 ent hrest, hitem⟩
    · rcases henq2 u0 with hxeq | ⟨ent2, hent2, hitem2⟩
      · right
        intro v hv w hw
        have h2 : s2.dist u0 + (w : WithTop ℚ) = s.dist u0 + (w : WithTop ℚ) := by
          rw [hxeq]
        rw [h2]
        exact le_trans (hle2 v) (hrel v hv w hw)
      · exact Or.inl ⟨ent2, hent2, hitem2⟩
  · rcases hmeas2 with ⟨hdeq, hpqeq⟩ | hm
    · right
      refine ⟨topCount_congr g hdeq, sumFloor_congr g hdeq, ?_⟩
      rw [hpqeq, hent]
      have hlen := hperm.length_eq
      simp only [List.length_cons] at hlen
      simp only [List.length_cons]
      omega
    · exact Or.inl hm

theorem dijkstraLoop_drains (g : Graph α) (src : Nat)
    (hwf : AdjClosed g) (hw0 : ∀ p w, g.weights p = some w → (0 : ℚ) ≤ w)
    (hsrc : src ∈ g.nodes) :
    ∀ a b cc s, DInv g src s → topCount g s = a → sumFloor g s = b →
      s.pq.entries.length = cc →
      ∃ n s2, dijkstraLoop g n s = .ok s2 ∧ s2.pq.entries = [] ∧ DInv g src s2 := by
  intro a
  induction a using Nat.strong_induction_on with
  | _ a iha =>
    intro b
    induction b using Nat.strong_induction_on with
    | _ b ihb =>
      intro cc
      induction cc using Nat.strong_induction_on with
      | _ cc ihc =>
        intro s hinv ha hb hc
        rcases hent : s.pq.entries with _ | ⟨e, l⟩
        · exact ⟨0, s, rfl, hent, hinv⟩
        · obtain ⟨s2, heq, hinv2, hmeas⟩ :=
            dijkstra_step g src hwf hw0 hsrc s hinv e l hent
          have hpop : s.pq.pop = some ((PriorityQueue.extractMin e l).1.2.2,
              ⟨(PriorityQueue.extractMin e l).2, s.pq.counter⟩) := by
            unfold PriorityQueue.pop
            rw [hent]
          have hstep : ∀ n, dijkstraLoop g (n + 1) s = dijkstraLoop g n s2 := by
            intro n
            rw [dijkstraLoop]
            simp only [hpop, heq]
          rcases hmeas with hm | ⟨ht, hsf, hl⟩
          · rcases hm with hlt | ⟨heq1, hlt2⟩
            · obtain ⟨n, s3, h1, h2, h3⟩ := iha (topCount g s2) (by omega)
                (sumFloor g s2) (s2.pq.entries.length) s2 hinv2 rfl rfl rfl
              exact ⟨n + 1, s3, by rw [hstep n]; exact h1, h2, h3⟩
            · obtain ⟨n, s3, h1, h2, h3⟩ := ihb (sumFloor g s2) (by omega)
                (s2.pq.entries.length) s2 hinv2 (by omega) rfl rfl
              exact ⟨n + 1, s3, by rw [hstep n]; exact h1, h2, h3⟩
          · obtain ⟨n, s3, h1, h2, h3⟩ := ihc (s2.pq.entries.length) (by omega)
              s2 hinv2 (by omega) (by omega) rfl
            exact ⟨n + 1, s3, by rw [hstep n]; exact h1, h2, h3⟩

theorem dijkstraLoop_mono (g : Graph α) :
    ∀ n s s2, dijkstraLoop g n s = .ok s2 → s2.pq.entries = [] →
      ∀ m, n ≤ m → dijkstraLoop g m s = .ok s2 := by
  intro n
  induction n with
  | zero =>
    intro s s2 heq hemp m _
    have hs : s = s2 := by
      have h2 : (Except.ok s : Except Err DState) = .ok s2 := heq
      injection h2
    subst hs
    cases m with
    | zero => rfl
    | succ m =>
      have hpop : s.pq.pop = none := by
        unfold PriorityQueue.pop
        rw [hemp]
      rw [dijkstraLoop]
      simp only [hpop]
  | succ n ih =>
    intro s s2 heq hemp m hm
    obtain ⟨m', rfl⟩ : ∃ m', m = m' + 1 := ⟨m - 1, by omega⟩
    rw [dijkstraLoop] at heq ⊢
    rcases hpop : s.pq.pop with _ | ⟨u, pq'⟩
    · simp only [hpop] at heq ⊢
      exact heq
    · simp only [hpop] at heq ⊢
      rcases hrel : relaxList g u (s.dist u) (g.adj u) { s with pq := pq' } with e2 | s'
      · rw [hrel] at heq
        simp at heq
      · simp only [hrel] at heq ⊢
        exact ih s' s2 heq hemp m' (by omega)

/-- Once the queue is drained, every node's distance is a lower bound
on the weight of every walk reaching it. -/
theorem dInv_final_lb (g : Graph α) (src : Nat) (s : DState)
    (hwf : AdjClosed g) (hsrc : src ∈ g.nodes)
    (hinv : DInv g src s) (hemp : s.pq.entries = []) :
    ∀ v c, WalkLen g src v c → s.dist v ≤ ((c : ℚ) : WithTop ℚ) := by
  have hK : ∀ u, u ∈ g.nodes → ∀ v, v ∈ g.adj u → ∀ w, g.weights (u, v) = some w →
      s.dist v ≤ s.dist u + (w : WithTop ℚ) := by
    intro u hun
    rcases hinv.K u hun with ⟨ent, hentm, _⟩ | h
    · rw [hemp] at hentm
      exact absurd hentm (List.not_mem_nil ent)
    · exact h
  intro v0 c0 hwalk
  induction hwalk with
  | refl =>
    rw [hinv.rinv.dsrc]
    exact le_refl _
  | step hw hadj hwt ih =>
    rename_i u v c w
    have hun : u ∈ g.nodes := walkLen_mem hwf hsrc hw
    calc s.dist v ≤ s.dist u + (w : WithTop ℚ) := hK u hun v hadj w hwt
      _ ≤ ((c : ℚ) : WithTop ℚ) + (w : WithTop ℚ) := add_le_add_right ih _
      _ = (((c + w : ℚ)) : WithTop ℚ) := (WithTop.coe_add c w).symm

theorem setEdgeWeight_weights_cases (g : Graph α) (a b : Nat) (w : ℚ)
    (p : Nat × Nat) (w' : ℚ)
    (h : (setEdgeWeight g a b w).1.weights p = some w') :
    w' = w ∨ g.weights p = some w' := by
  by_cases hmem : a ∈ g.nodes ∧ b ∈ g.nodes
  · by_cases hdir : g.directed = true
    · by_cases hp : p = (a, b)
      · simp only [setEdgeWeight, if_pos hmem, hdir, if_true, if_pos hp,
          Option.some.injEq] at h
        exact Or.inl h.symm
      · simp only [setEdgeWeight, if_pos hmem, hdir, if_true, if_neg hp] at h
        exact Or.inr h
    · rw [Bool.not_eq_true] at hdir
      by_cases hpba : p = (b, a)
      · simp only [setEdgeWeight, if_pos hmem, hdir, Bool.false_eq_true, if_false,
          if_pos hpba, Option.some.injEq] at h
        exact Or.inl h.symm
      · by_cases hp : p = (a, b)
        · simp only [setEdgeWeight, if_pos hmem, hdir, Bool.false_eq_true, if_false,
            if_neg hpba, if_pos hp, Option.some.injEq] at h
          exact Or.inl h.symm
        · simp only [setEdgeWeight, if_pos hmem, hdir, Bool.false_eq_true, if_false,
            if_neg hpba, if_neg hp] at h
          exact Or.inr h
  · simp only [setEdgeWeight, if_neg hmem] at h
    exact Or.inr h

theorem addEdgeOk_weights_cases (g : Graph α) (a b : Nat) (w : ℚ) (p : Nat × Nat)
    (w' : ℚ) (h : (addEdgeOk g a b (some w)).weights p = some w') :
    w' = w ∨ g.weights p = some w' := by
  simp only [addEdgeOk] at h
  rcases setEdgeWeight_weights_cases _ a b w p w' h with h2 | h2
  · exact Or.inl h2
  · right
    by_cases hdir : g.directed = true
    · rw [if_pos hdir] at h2
      rwa [addNeighbour_weights] at h2
    · rw [Bool.not_eq_true] at hdir
      simp only [hdir, Bool.false_eq_true, if_false] at h2
      rwa [addNeighbour_weights, addNeighbour_weights] at h2

theorem addEdge_weights_cases (g : Graph α) (a b : Nat) (w : ℚ) (p : Nat × Nat)
    (w' : ℚ) (h : (addEdge g a b (some w)).1.weights p = some w') :
    w' = w ∨ g.weights p = some w' := by
  rw [addEdge_eq] at h
  by_cases hmem : a ∈ g.nodes ∧ b ∈ g.nodes
  · rw [if_pos hmem] at h
    by_cases hba : b = a
    · rw [if_pos hba] at h
      exact Or.inr h
    · rw [if_neg hba] at h
      exact addEdgeOk_weights_cases g a b w p w' h
  · rw [if_neg hmem] at h
    exact Or.inr h

theorem gDijEx_weights_nonneg : ∀ p w, gDijEx.weights p = some w → (0 : ℚ) ≤ w := by
  intro p w h
  unfold gDijEx at h
  rcases addEdge_weights_cases _ 1 3 5 p w h with rfl | h2
  · norm_num
  rcases addEdge_weights_cases _ 2 3 2 p w h2 with rfl | h3
  · norm_num
  rcases addEdge_weights_cases _ 1 2 1 p w h3 with rfl | h4
  · norm_num
  rw [addNode_weights, addNode_weights, addNode_weights, addNode_weights] at h4
  exact absurd h4 (by simp [emptyGraph])

/-- Claim C1: on a graph with non-negative recorded weights and a
registered start, `dijkstra(graph, start)` (run with sufficient fuel)
returns distance and predecessor maps such that: each node's distance
is the minimum total weight of a walk from the start using only
stored-neighbour edges with a recorded weight (a lower bound on every
such walk, and attained unless the distance is `+∞`); the start has
distance `0` and no predecessor; exactly the unreached nodes (other
than the start) are absent from the predecessor map; and each recorded
predecessor `u` of `v` is the immediate predecessor on such a shortest
walk: the edge `u → v` has a recorded weight `w` with
`dist u + w = dist v`. -/
theorem dijkstra_correct (g : Graph α) (src : Nat)
    (hwf : AdjClosed g) (hs : src ∈ g.nodes)
    (hw0 : ∀ p w, g.weights p = some w → (0 : ℚ) ≤ w) :
    ∃ fuel₀, ∀ fuel, fuel₀ ≤ fuel →
      ∃ d prev, dijkstra g src fuel = .ok (d, prev) ∧
        d src = 0 ∧
        (∀ v c, WalkLen g src v c → d v ≤ ((c : ℚ) : WithTop ℚ)) ∧
        (∀ v, d v = ⊤ ∨ ∃ c, WalkLen g src v c ∧ d v = ((c : ℚ) : WithTop ℚ)) ∧
        prev src = none ∧
        (∀ v, v ≠ src → (prev v = none ↔ d v = ⊤)) ∧
        (∀ v u, prev v = some u → v ∈ g.adj u ∧
          ∃ w, g.weights (u, v) = some w ∧ d u + (w : WithTop ℚ) = d v) := by
  obtain ⟨n, s2, hrun, hemp, hinv⟩ := dijkstraLoop_drains g src hwf hw0 hs
    (topCount g (dijkstraInit src)) (sumFloor g (dijkstraInit src))
    ((dijkstraInit src).pq.entries.length) (dijkstraInit src)
    (dInv_init g src hs) rfl rfl rfl
  have hK : ∀ u, u ∈ g.nodes → ∀ v, v ∈ g.adj u → ∀ w, g.weights (u, v) = some w →
      s2.dist v ≤ s2.dist u + (w : WithTop ℚ) := by
    intro u hun
    rcases hinv.K u hun with ⟨ent, hentm, _⟩ | h
    · rw [hemp] at hentm
      exact absurd hentm (List.not_mem_nil ent)
    · exact h
  refine ⟨n, ?_⟩
  intro fuel hf
  refine ⟨s2.dist, s2.prev, ?_, hinv.rinv.dsrc,
    dInv_final_lb g src s2 hwf hs hinv hemp, hinv.rinv.reach, hinv.rinv.psrc,
    ?_, ?_⟩
  · unfold dijkstra
    rw [if_pos hs, dijkstraLoop_mono g n (dijkstraInit src) s2 hrun hemp fuel hf]
  · intro v hv
    constructor
    · exact hinv.rinv.noneTop v hv
    · intro hT
      rcases hp : s2.prev v with _ | u
      · rfl
      · obtain ⟨_, _, w, _, _, hne⟩ := hinv.rinv.prevI v u hp
        exact absurd hT hne
  · intro v u hp
    obtain ⟨hun, hadj, w, hw, hle, _⟩ := hinv.rinv.prevI v u hp
    exact ⟨hadj, w, hw, le_antisymm hle (hK u hun v hadj w hw)⟩

theorem dijkstra_correct_witness :
    AdjClosed gDijEx ∧ 1 ∈ gDijEx.nodes ∧
      (∀ p w, gDijEx.weights p = some w → (0 : ℚ) ≤ w) ∧
      (∃ fuel₀, ∀ fuel, fuel₀ ≤ fuel →
        ∃ d prev, dijkstra gDijEx 1 fuel = .ok (d, prev) ∧
          d 1 = 0 ∧
          (∀ v c, WalkLen gDijEx 1 v c → d v ≤ ((c : ℚ) : WithTop ℚ)) ∧
          (∀ v, d v = ⊤ ∨ ∃ c, WalkLen gDijEx 1 v c ∧ d v = ((c : ℚ) : WithTop ℚ)) ∧
          prev 1 = none ∧
          (∀ v, v ≠ 1 → (prev v = none ↔ d v = ⊤)) ∧
          (∀ v u, prev v = some u → v ∈ gDijEx.adj u ∧
            ∃ w, gDijEx.weights (u, v) = some w ∧ d u + (w : WithTop ℚ) = d v)) :=
  ⟨adjClosed_gDijEx, by rw [gDijEx_nodes]; simp, gDijEx_weights_nonneg,
    dijkstra_correct gDijEx 1 adjClosed_gDijEx (by rw [gDijEx_nodes]; simp)
      gDijEx_weights_nonneg⟩

end Adtlib
